import Mathlib

/-!
Verification development for the binsmith repository (bin_explorer.py,
binsmith-gui.py).

The file bin_explorer.py contains three concatenated revisions of the class
BinExplorer (starting at lines 13, 697 and 1268).  Python executes all three
class statements in order, so the definition that is in effect at runtime is
the last one (lines 1268-1835).  The model below embeds that effective
revision; the earlier revisions' guarded extract_all_metadata (lines 588-600
and 1159-1171, which are textually identical) is embedded separately as
extractAllGuarded for comparison.

Modelling conventions for the Python semantics:
* Attribute reads are modelled by getattrOpt: absence of the attribute plays
  the role of AttributeError (so hasattr is false and getattr-with-default
  returns the default), while RRes.raise models a property read raising a
  non-AttributeError exception, which hasattr does not swallow (Python 3
  hasattr only catches AttributeError).
* Exceptions are modelled with Except String carrying the message of str(e).
* datetime values are modelled by PVal.dt carrying their
  "%Y-%m-%d %H:%M:%S" rendering; in the modelled value universe only
  datetimes expose strftime.
* Python float values are not modelled (IEEE-754 semantics are outside the
  shallow embedding); the scalar universe is strings, integers, booleans and
  None, which is what every claim exercises.
* Mapping keys are strings, as they are everywhere in the extracted
  documents.
* dir() is modelled as the object's stored attribute list; __dict__ as the
  separate instAttrs list, consulted first by attribute lookup as in Python.
-/

mutual

/-- A runtime Python value as seen by the metadata walker. -/
inductive PVal : Type where
  | str (s : String)
  | int (n : Int)
  | bool (b : Bool)
  | pynone
  | dt (formatted : String)
  | plist (l : VList)
  | gen (items : VList) (iterErr : Option String)
  | pdict (entries : Entries)
  | obj (o : PObj)
  deriving DecidableEq

/-- A Python list of values. -/
inductive VList : Type where
  | nil
  | cons (v : PVal) (tl : VList)
  deriving DecidableEq

/-- A Python dict with string keys, in insertion order. -/
inductive Entries : Type where
  | nil
  | cons (k : String) (v : PVal) (tl : Entries)
  deriving DecidableEq

/-- An opaque object handle: type name, str() rendering, callability,
dir()-visible attributes with their read outcomes, and the optional
instance __dict__. -/
inductive PObj : Type where
  | mk (className : String) (strOf : String) (callableFlag : Bool)
       (dirAttrs : AttrList) (instAttrs : InstOpt)
  deriving DecidableEq

/-- dir()-visible attributes of an object, in dir() order. -/
inductive AttrList : Type where
  | nil
  | cons (name : String) (res : RRes) (tl : AttrList)
  deriving DecidableEq

/-- Outcome of reading one attribute: a value, or a raising property
(a non-AttributeError exception with message str(e)). -/
inductive RRes : Type where
  | ok (v : PVal)
  | raise (msg : String)
  deriving DecidableEq

/-- Presence or absence of an instance __dict__. -/
inductive InstOpt : Type where
  | noDict
  | someDict (e : Entries)
  deriving DecidableEq

end

def PObj.className : PObj → String
  | .mk c _ _ _ _ => c

def PObj.strOf : PObj → String
  | .mk _ s _ _ _ => s

def PObj.callableFlag : PObj → Bool
  | .mk _ _ b _ _ => b

def PObj.dirAttrs : PObj → AttrList
  | .mk _ _ _ d _ => d

def PObj.instAttrs : PObj → InstOpt
  | .mk _ _ _ _ i => i

def VList.toList : VList → List PVal
  | .nil => []
  | .cons v tl => v :: tl.toList

def VList.ofList : List PVal → VList
  | [] => .nil
  | v :: tl => .cons v (VList.ofList tl)

def Entries.toList : Entries → List (String × PVal)
  | .nil => []
  | .cons k v tl => (k, v) :: tl.toList

def Entries.ofList : List (String × PVal) → Entries
  | [] => .nil
  | (k, v) :: tl => .cons k v (Entries.ofList tl)

def AttrList.toList : AttrList → List (String × RRes)
  | .nil => []
  | .cons n r tl => (n, r) :: tl.toList

def AttrList.ofList : List (String × RRes) → AttrList
  | [] => .nil
  | (n, r) :: tl => .cons n r (AttrList.ofList tl)

/-- Flat association list used while assembling a Python dict. -/
abbrev Dict := List (String × PVal)

deriving instance DecidableEq for Except

/-- Python dict item assignment: update an existing key in place (keeping
its position, as CPython does) or append a fresh key. -/
def dinsert : Dict → String → PVal → Dict
  | [], k, v => [(k, v)]
  | kv :: tl, k, v => if kv.1 == k then (k, v) :: tl else kv :: dinsert tl k v

/-- Python dict key membership. -/
def dmem : Dict → String → Bool
  | [], _ => false
  | kv :: tl, k => kv.1 == k || dmem tl k

/-- Python dict lookup (keys are unique in a real dict). -/
def dlookup : Dict → String → Option PVal
  | [], _ => Option.none
  | kv :: tl, k => if kv.1 == k then some kv.2 else dlookup tl k

/-- Wrap an assembled dict as a Python dict value. -/
def toPdictV (d : Dict) : PVal :=
  .pdict (Entries.ofList d)

/-- Wrap a list of assembled dicts as a Python list value. -/
def plistOfDicts (l : List Dict) : PVal :=
  .plist (VList.ofList (l.map toPdictV))

/-- Wrap a list of strings as a Python list value. -/
def plistOfStrs (l : List String) : PVal :=
  .plist (VList.ofList (l.map PVal.str))

/-- Whether the name begins with the privacy-marker underscore (char-list
based so that it computes by kernel reduction). -/
def underscoreName (s : String) : Bool :=
  match s.data with
  | [] => false
  | c :: _ => c == '_'

/-- Raw attribute lookup: instance __dict__ first, then the dir()-visible
attributes; Option.none models AttributeError (the attribute is absent). -/
def getattrOpt (v : PVal) (n : String) : Option RRes :=
  match v with
  | .obj o =>
    let fromInst :=
      match o.instAttrs with
      | .noDict => Option.none
      | .someDict e =>
        match (e.toList).find? (fun (kv : String × PVal) => kv.1 == n) with
        | some kv => some (RRes.ok kv.2)
        | none => Option.none
    match fromInst with
    | some r => some r
    | none =>
      match (o.dirAttrs.toList).find? (fun (ar : String × RRes) => ar.1 == n) with
      | some ar => some ar.2
      | none => Option.none
  | _ => Option.none

/-- Plain attribute access x.n: AttributeError if absent, propagates a
raising property read. -/
def pyGetattrE (v : PVal) (n : String) : Except String PVal :=
  match getattrOpt v n with
  | Option.none => .error ("AttributeError: " ++ n)
  | some (.ok w) => .ok w
  | some (.raise m) => .error m

/-- hasattr(x, n): false only on AttributeError; a raising property read
propagates, as in Python 3. -/
def pyHasattr (v : PVal) (n : String) : Except String Bool :=
  match getattrOpt v n with
  | Option.none => .ok false
  | some (.ok _) => .ok true
  | some (.raise m) => .error m

/-- The names listed by dir(x); empty for non-objects, whose dir holds only
methods and dunder names that every walker loop skips. -/
def dirNames (v : PVal) : List String :=
  match v with
  | .obj o => (o.dirAttrs.toList).map (fun ar => ar.1)
  | _ => []

/-- The instance __dict__ items, when the value exposes one. -/
def instItems (v : PVal) : Option Dict :=
  match v with
  | .obj o =>
    match o.instAttrs with
    | .noDict => Option.none
    | .someDict e => some e.toList
  | _ => Option.none

/-- Python truthiness. -/
def pyTruthy (v : PVal) : Bool :=
  match v with
  | .str s => s ≠ ""
  | .int n => n ≠ 0
  | .bool b => b
  | .pynone => false
  | .dt _ => true
  | .plist l => match l with | .nil => false | _ => true
  | .gen _ _ => true
  | .pdict e => match e with | .nil => false | _ => true
  | .obj _ => true

/-- callable(x). -/
def pyCallable (v : PVal) : Bool :=
  match v with
  | .obj o => o.callableFlag
  | _ => false

/-- type(x).__name__. -/
def pyTypeName (v : PVal) : String :=
  match v with
  | .str _ => "str"
  | .int _ => "int"
  | .bool _ => "bool"
  | .pynone => "NoneType"
  | .dt _ => "datetime"
  | .plist _ => "list"
  | .gen _ _ => "generator"
  | .pdict _ => "dict"
  | .obj o => o.className

/-- Decimal digits of a natural number, most significant first, built with
explicit fuel so the definition is structural (fuel n+1 suffices). -/
def natReprAux : Nat → Nat → List Char → List Char
  | 0, _, acc => acc
  | fuel + 1, n, acc =>
    if n < 10 then Char.ofNat (48 + n) :: acc
    else natReprAux fuel (n / 10) (Char.ofNat (48 + n % 10) :: acc)

def natReprChars (n : Nat) : List Char :=
  natReprAux (n + 1) n []

/-- repr of a Python int. -/
def intReprChars (n : Int) : List Char :=
  if n < 0 then '-' :: natReprChars (-n).toNat else natReprChars n.toNat

def intRepr (n : Int) : String :=
  String.mk (intReprChars n)

/-- str(x) for the values the walker stringifies (mob ids in practice). -/
def pyStr (v : PVal) : String :=
  match v with
  | .str s => s
  | .int n => intRepr n
  | .bool b => if b then "True" else "False"
  | .pynone => "None"
  | .dt s => s
  | .plist _ => "<list>"
  | .gen _ _ => "<generator>"
  | .pdict _ => "<dict>"
  | .obj o => o.strOf

/-- The Attribute Filter's scalar test:
isinstance(v, (str, int, float, bool)) or v is None. -/
def isScalarV (v : PVal) : Bool :=
  match v with
  | .str _ => true
  | .int _ => true
  | .bool _ => true
  | .pynone => true
  | _ => false

/-- hasattr(v, "strftime"): in the modelled universe only datetimes expose
strftime. -/
def hasStrftime (v : PVal) : Bool :=
  match v with
  | .dt _ => true
  | _ => false

/-- v.strftime("%Y-%m-%d %H:%M:%S"); AttributeError on anything that is not
a datetime. -/
def pyStrftime (v : PVal) : Except String String :=
  match v with
  | .dt s => .ok s
  | _ => .error "AttributeError: strftime"

/-- hasattr(v, "__iter__"). -/
def hasIterV (v : PVal) : Bool :=
  match v with
  | .plist _ => true
  | .gen _ _ => true
  | .pdict _ => true
  | .str _ => true
  | _ => false

/-- list(v) / full iteration of v: a generator that raises mid-iteration
makes the whole conversion raise;  iterating a dict yields its keys and
iterating a string yields its one-character strings. -/
def pyListOf (v : PVal) : Except String (List PVal) :=
  match v with
  | .plist l => .ok l.toList
  | .gen items iterErr =>
    match iterErr with
    | Option.none => .ok items.toList
    | some m => .error m
  | .pdict e => .ok ((e.toList).map (fun kv => PVal.str kv.1))
  | .str s => .ok (s.data.map (fun c => PVal.str (String.mk [c])))
  | _ => .error ("TypeError: " ++ pyTypeName v ++ " object is not iterable")

/-- ViewModes(value).name: enum lookup by value, ValueError when the value
is not a member (Python bools pass an int check with value 1 or 0). -/
def toIntLoose (v : PVal) : Option Int :=
  match v with
  | .int n => some n
  | .bool b => some (if b then 1 else 0)
  | _ => Option.none

def enumNameOfValue (enum : List (String × Int)) (v : PVal) : Except String String :=
  match toIntLoose v with
  | some n =>
    match enum.find? (fun p => p.2 == n) with
    | some p => .ok p.1
    | none => .error "ValueError: not a valid enum member"
  | Option.none => .error "ValueError: not a valid enum member"

/-- The display-option bitmask decode loop of extract_basic_info
(bin_explorer.py lines 1316-1319): iterate the option enum in declaration
order and collect the names whose bit is set. -/
def decodeOptions (enum : List (String × Int)) (mask : Int) : List String :=
  enum.foldl (fun acc opt => if Int.land mask opt.2 ≠ 0 then acc ++ [opt.1] else acc) []

/-- os.path.basename for POSIX paths. -/
def pyBasename (p : String) : String :=
  String.mk ((p.data.reverse.takeWhile (fun c => c ≠ '/')).reverse)

/-- Index of the last occurrence of a character, or none. -/
def lastIdx (cs : List Char) (c : Char) : Option Nat :=
  match cs.reverse.findIdx? (fun x => x == c) with
  | some j => some (cs.length - 1 - j)
  | Option.none => Option.none

/-- The root part of os.path.splitext (posixpath.splitext): the extension
starts at the last dot when it lies after the last separator and some
character of the basename before it is not a dot. -/
def splitextRoot (p : String) : String :=
  let cs := p.data
  let sepIdx : Int := match lastIdx cs '/' with | some i => (i : Int) | Option.none => -1
  let dotIdx : Int := match lastIdx cs '.' with | some i => (i : Int) | Option.none => -1
  if sepIdx < dotIdx then
    let mid := ((cs.drop (sepIdx + 1).toNat).take (dotIdx - sepIdx - 1).toNat)
    if mid.any (fun c => c ≠ '.') then String.mk (cs.take dotIdx.toNat) else p
  else p

/-- The opened bin handle returned by avb.open: its content object and the
optional file header object (hasattr(self.bin_file, "header")). -/
structure AvbFile where
  content : PObj
  header : Option PObj
  deriving DecidableEq

/-- Session environment: the two enums imported from the binsmith module
and the file-system stat facts of the bin path (size, and the mtime already
rendered with "%Y-%m-%d %H:%M:%S"). -/
structure ExtractEnv where
  viewModes : List (String × Int)
  binDisplays : List (String × Int)
  fileSize : Int
  fileMtime : String

/-- extract_basic_info lines 1301-1307: the initial basic_info dict literal
(stat facts plus ViewModes(content.display_mode).name, whose ValueError
propagates). -/
def biStart (env : ExtractEnv) (binPath : String) (f : AvbFile) : Except String Dict := do
  let dm ← pyGetattrE (.obj f.content) "display_mode"
  let vm ← enumNameOfValue env.viewModes dm
  .ok [("filename", .str (pyBasename binPath)), ("filepath", .str binPath),
       ("file_size", .int env.fileSize), ("last_modified", .str env.fileMtime),
       ("view_mode", .str vm)]

/-- extract_basic_info lines 1309-1327: the display-options block.  The
whole block is inside try/except, so even a raising display_mask read is
caught and recorded as display_options_error. -/
def displayOptionsBlock (env : ExtractEnv) (f : AvbFile) (bi : Dict) : Dict :=
  match getattrOpt (.obj f.content) "display_mask" with
  | Option.none => dinsert bi "display_options" (plistOfStrs [])
  | some (.raise m) =>
    dinsert (dinsert bi "display_options" (plistOfStrs [])) "display_options_error" (.str m)
  | some (.ok dm) =>
    match toIntLoose dm with
    | some mask => dinsert bi "display_options" (plistOfStrs (decodeOptions env.binDisplays mask))
    | Option.none => dinsert bi "display_options" (plistOfStrs [])

/-- extract_basic_info lines 1330-1331: bin_name is copied verbatim, with
no scalar filtering. -/
def binNameBlock (f : AvbFile) (bi : Dict) : Except String Dict :=
  match getattrOpt (.obj f.content) "name" with
  | Option.none => .ok bi
  | some (.raise m) => .error m
  | some (.ok v) => .ok (dinsert bi "bin_name" v)

/-- extract_basic_info lines 1334-1347: view settings.  The "name" entry of
property_data is copied verbatim first; the following loop re-inserts every
scalar entry (overwriting "name" when it is scalar). -/
def viewSettingsBlock (f : AvbFile) (bi : Dict) : Except String Dict :=
  match getattrOpt (.obj f.content) "view_setting" with
  | Option.none => .ok bi
  | some (.raise m) => .error m
  | some (.ok vsv) =>
    match getattrOpt vsv "property_data" with
    | Option.none => .ok bi
    | some (.raise m) => .error m
    | some (.ok pd) =>
      match pd with
      | .pdict e =>
        let pdl := e.toList
        let vs0 : Dict :=
          match pdl.find? (fun (kv : String × PVal) => kv.1 == "name") with
          | some kv => dinsert [] "name" kv.2
          | none => []
        let vs1 := pdl.foldl
          (fun acc kv => if isScalarV kv.2 then dinsert acc kv.1 kv.2 else acc) vs0
        .ok (dinsert bi "view_settings" (toPdictV vs1))
      | _ => .error "TypeError: property_data is not a mapping"

/-- extract_basic_info lines 1350-1357: scalar bin attributes, inserted only
when at least one survives the filter. -/
def attributesBlock (f : AvbFile) (bi : Dict) : Except String Dict :=
  match getattrOpt (.obj f.content) "attributes" with
  | Option.none => .ok bi
  | some (.raise m) => .error m
  | some (.ok av) =>
    match av with
    | .pdict e =>
      let al := (e.toList).foldl
        (fun acc kv => if isScalarV kv.2 then dinsert acc kv.1 kv.2 else acc) ([] : Dict)
      .ok (if al.isEmpty then bi else dinsert bi "attributes" (toPdictV al))
    | _ => .error "TypeError: attributes is not a mapping"

/-- extract_basic_info lines 1360-1371: tally of items by type name. -/
def itemCountsBlock (f : AvbFile) (bi : Dict) : Except String Dict :=
  match getattrOpt (.obj f.content) "mobs" with
  | Option.none => .ok bi
  | some (.raise m) => .error m
  | some (.ok mv) => do
    let mobs ← if hasIterV mv then pyListOf mv else pure []
    let counts := mobs.foldl
      (fun acc mob =>
        let tn := pyTypeName mob
        match dlookup acc tn with
        | some (.int c) => dinsert acc tn (.int (c + 1))
        | _ => dinsert acc tn (.int 1)) ([] : Dict)
    if counts.isEmpty then
      .ok bi
    else
      .ok (dinsert (dinsert bi "item_counts" (toPdictV counts)) "total_items" (.int mobs.length))

/-- extract_basic_info lines 1374-1378: bin-level creation/modification
datetimes, rendered with strftime (an AttributeError on a non-datetime
propagates, there is no guard). -/
def binTimesBlock (f : AvbFile) (bi : Dict) : Except String Dict := do
  let bi1 ←
    match getattrOpt (.obj f.content) "creation_time" with
    | Option.none => pure bi
    | some (.raise m) => throw m
    | some (.ok v) => do
      let s ← pyStrftime v
      pure (dinsert bi "creation_time" (.str s))
  match getattrOpt (.obj f.content) "last_modified" with
  | Option.none => pure bi1
  | some (.raise m) => throw m
  | some (.ok v) => do
    let s ← pyStrftime v
    pure (dinsert bi1 "last_modified_bin" (.str s))

/-- extract_basic_info lines 1381-1390: the file_header fields are copied
verbatim with getattr, no scalar filtering. -/
def headerBlock (f : AvbFile) (bi : Dict) : Except String Dict :=
  match f.header with
  | Option.none => .ok bi
  | some h => do
    let hi ← ["major_version", "minor_version", "byte_order", "page_size", "page_count"].foldlM
      (fun (acc : Dict) a =>
        match getattrOpt (.obj h) a with
        | Option.none => pure acc
        | some (.raise m) => throw m
        | some (.ok v) => pure (dinsert acc a v)) ([] : Dict)
    pure (if hi.isEmpty then bi else dinsert bi "file_header" (toPdictV hi))

/-- extract_basic_info (effective revision, lines 1296-1393) as a pure
function of the opened handle: each block in source order. -/
def extractBasicInfo (env : ExtractEnv) (binPath : String) (f : AvbFile) : Except String Dict := do
  let bi ← biStart env binPath f
  let bi := displayOptionsBlock env f bi
  let bi ← binNameBlock f bi
  let bi ← viewSettingsBlock f bi
  let bi ← attributesBlock f bi
  let bi ← itemCountsBlock f bi
  let bi ← binTimesBlock f bi
  headerBlock f bi

/-- The generic dir() flatten loop shared by the clip walker's sub-objects
(comments, media descriptor, locators, physical media, markers, timecode,
essence, tracks, components): skip underscore names, skip callables, skip an
exclusion list, keep scalar values.  The callable test reads the attribute
before any try block, so a raising read propagates out of this function and
is handled (or not) by the caller, exactly as in the source. -/
def dirScalarFlatten (o : PVal) (excl : List String) (tgt : Dict) : Except String Dict :=
  (dirNames o).foldlM
    (fun (d : Dict) n => do
      if underscoreName n then pure d
      else do
        let v ← pyGetattrE o n
        if pyCallable v then pure d
        else if excl.contains n then pure d
        else if isScalarV v then pure (dinsert d n v)
        else pure d)
    tgt

/-- extract_clips lines 1441-1456: the per-mob dir() loop, with the dynamic
exclusion of keys already present and the datetime-to-string branch.  The
callable test at line 1443 reads the attribute outside the try, so a raising
read propagates. -/
def mobDirLoop (mob : PVal) (ci : Dict) : Except String Dict :=
  (dirNames mob).foldlM
    (fun (d : Dict) n => do
      if underscoreName n then pure d
      else do
        let v ← pyGetattrE mob n
        if pyCallable v then pure d
        else if dmem d n then pure d
        else if isScalarV v then pure (dinsert d n v)
        else if hasStrftime v then
          match pyStrftime v with
          | .ok s => pure (dinsert d n (.str s))
          | .error _ => pure d
        else pure d)
    ci

/-- extract_clips lines 1420-1438: the __dict__ loop over instance
attributes (reads from a dict never raise). -/
def mobDictLoop (mob : PVal) (ci : Dict) : Dict :=
  match instItems mob with
  | Option.none => ci
  | some items =>
    items.foldl
      (fun (d : Dict) kv =>
        if underscoreName kv.1 then d
        else if ["name", "mob_id", "creation_time", "last_modified", "mob_type_id"].contains kv.1 then d
        else if isScalarV kv.2 then dinsert d kv.1 kv.2
        else if hasStrftime kv.2 then
          match pyStrftime kv.2 with
          | .ok s => dinsert d kv.1 (.str s)
          | .error _ => d
        else d)
      ci

/-- The pattern (expr if hasattr(x, n) else None) copying the raw value. -/
def guardedRead (mob : PVal) (n : String) : Except String PVal :=
  match getattrOpt mob n with
  | Option.none => .ok .pynone
  | some (.raise m) => .error m
  | some (.ok v) => .ok v

/-- The pattern (str(x.n) if hasattr(x, n) else None). -/
def guardedStr (mob : PVal) (n : String) : Except String PVal :=
  match getattrOpt mob n with
  | Option.none => .ok .pynone
  | some (.raise m) => .error m
  | some (.ok v) => .ok (.str (pyStr v))

/-- The pattern (x.n.strftime(fmt) if hasattr(x, n) else None); the strftime
attribute error on a non-datetime propagates. -/
def guardedFmt (mob : PVal) (n : String) : Except String PVal :=
  match getattrOpt mob n with
  | Option.none => .ok .pynone
  | some (.raise m) => .error m
  | some (.ok v) => do
    let s ← pyStrftime v
    pure (.str s)

/-- extract_clips lines 1409-1416: the identity dict literal of one mob;
the name default is the string Unnamed, everything copied verbatim. -/
def clipIdentity (mob : PVal) : Except String Dict := do
  let nm ←
    match getattrOpt mob "name" with
    | Option.none => pure (PVal.str "Unnamed")
    | some (.raise m) => throw m
    | some (.ok v) => pure v
  let mid ← guardedStr mob "mob_id"
  let ct ← guardedFmt mob "creation_time"
  let lm ← guardedFmt mob "last_modified"
  let mti ← guardedRead mob "mob_type_id"
  pure [("name", nm), ("mob_id", mid), ("type", .str (pyTypeName mob)),
        ("creation_time", ct), ("last_modified", lm), ("mob_type_id", mti)]

/-- Insert into the nested user_comments dict of clip_info (which the code
sets to an empty dict just before the comment loop). -/
def nestedCommentInsert (ci : Dict) (k : String) (v : PVal) : Dict :=
  match dlookup ci "user_comments" with
  | some (.pdict e) => dinsert ci "user_comments" (toPdictV (dinsert e.toList k v))
  | _ => ci

/-- clip_info.setdefault("comment_attributes", ...).setdefault(name, ...)
insertion of one scalar comment attribute. -/
def commentAttrsInsert (ci : Dict) (cname : String) (attr : String) (v : PVal) : Dict :=
  let ca : Dict :=
    match dlookup ci "comment_attributes" with
    | some (.pdict e) => e.toList
    | _ => []
  let inner : Dict :=
    match dlookup ca cname with
    | some (.pdict e) => e.toList
    | _ => []
  dinsert ci "comment_attributes" (toPdictV (dinsert ca cname (toPdictV (dinsert inner attr v))))

/-- extract_clips lines 1469-1478: the dir() loop over one comment object;
the read of comment.name inside the inner try falls back to silent omission
when it raises. -/
def commentAttrStep (cm : PVal) (ci : Dict) (n : String) : Except String Dict := do
  if underscoreName n then pure ci
  else do
    let v ← pyGetattrE cm n
    if pyCallable v then pure ci
    else if ["name", "value"].contains n then pure ci
    else if isScalarV v then
      match pyGetattrE cm "name" with
      | .error _ => pure ci
      | .ok nm => pure (commentAttrsInsert ci (pyStr nm) n v)
    else pure ci

/-- extract_clips lines 1464-1478: one comment.  The error case carries the
partially mutated clip_info, because the loop mutates clip_info in place
before the surrounding try's except runs. -/
def commentStep (ci : Dict) (cm : PVal) : Except (Dict × String) Dict := do
  let ci1 ←
    match pyHasattr cm "name" with
    | .error m => throw (ci, m)
    | .ok false => pure ci
    | .ok true =>
      match pyHasattr cm "value" with
      | .error m => throw (ci, m)
      | .ok false => pure ci
      | .ok true =>
        match pyGetattrE cm "name" with
        | .error m => throw (ci, m)
        | .ok nm =>
          match pyGetattrE cm "value" with
          | .error m => throw (ci, m)
          | .ok vl => pure (nestedCommentInsert ci (pyStr nm) vl)
  (dirNames cm).foldlM
    (fun (d : Dict) n =>
      match commentAttrStep cm d n with
      | .ok d2 => pure d2
      | .error m => throw (d, m))
    ci1

def commentsFold : List PVal → Dict → Except (Dict × String) Dict
  | [], d => .ok d
  | c :: cs, d =>
    match commentStep d c with
    | .ok d2 => commentsFold cs d2
    | .error e => .error e

/-- extract_clips lines 1459-1480: the user-comments section.  A raise
inside the try is recorded as user_comments_error while keeping whatever
was already inserted (the code mutates clip_info in place). -/
def commentsSection (mob : PVal) (ci : Dict) : Except String Dict :=
  match getattrOpt mob "user_comments" with
  | Option.none => .ok ci
  | some (.raise m) => .error m
  | some (.ok uc) =>
    if pyTruthy uc then
      match (if hasIterV uc then pyListOf uc else .ok []) with
      | .error m => .ok (dinsert ci "user_comments_error" (.str m))
      | .ok cl =>
        let ci1 := dinsert ci "user_comments" (toPdictV [])
        match commentsFold cl ci1 with
        | .ok d => .ok d
        | .error (dp, m) => .ok (dinsert dp "user_comments_error" (.str m))
    else .ok ci

/-- extract_clips lines 1519-1544: the locator branch of the descriptor
loop; its inner try turns any raise into silent omission. -/
def locatorBlock (v : PVal) (mi : Dict) : Dict :=
  match (do
    let ls ← if hasIterV v then pyListOf v else pure []
    ls.foldlM
      (fun (acc : List Dict) loc => do
        let li ← dirScalarFlatten loc [] []
        pure (acc ++ [li])) ([] : List Dict)) with
  | .error _ => mi
  | .ok paths => if paths.isEmpty then mi else dinsert mi "locators" (plistOfDicts paths)

/-- extract_clips lines 1504-1546: the descriptor dir() loop with the
locator special case; the callable test at line 1509 is unguarded. -/
def descDirLoop (desc : PVal) (mi0 : Dict) : Except String Dict :=
  (dirNames desc).foldlM
    (fun (d : Dict) n => do
      if underscoreName n then pure d
      else do
        let v ← pyGetattrE desc n
        if pyCallable v then pure d
        else if isScalarV v then pure (dinsert d n v)
        else if n == "locator" then pure (locatorBlock v d)
        else pure d)
    mi0

/-- extract_clips lines 1548-1569: physical media; hasattr itself may raise
(line 1549, outside the try), the rest is caught and dropped. -/
def pmBlock (md : PVal) (mi : Dict) : Except String Dict :=
  match getattrOpt md "physical_media" with
  | Option.none => .ok mi
  | some (.raise m) => .error m
  | some (.ok pm) =>
    match dirScalarFlatten pm [] [] with
    | .error _ => .ok mi
    | .ok pmi => .ok (if pmi.isEmpty then mi else dinsert mi "physical_media" (toPdictV pmi))

/-- extract_clips lines 1483-1572: the media_descriptor section; media_info
is always inserted (possibly empty) once the descriptor is truthy. -/
def mediaSection (mob : PVal) (ci : Dict) : Except String Dict :=
  match getattrOpt mob "media_descriptor" with
  | Option.none => .ok ci
  | some (.raise m) => .error m
  | some (.ok md) =>
    if pyTruthy md then do
      let mi : Dict := []
      let mi ←
        match getattrOpt mob "length" with
        | Option.none => pure mi
        | some (.raise m) => throw m
        | some (.ok lv) => pure (dinsert mi "duration_frames" lv)
      let mi ← dirScalarFlatten md ["descriptor"] mi
      let mi ←
        match getattrOpt md "descriptor" with
        | Option.none => pure mi
        | some (.raise m) => throw m
        | some (.ok desc) => descDirLoop desc mi
      let mi ← pmBlock md mi
      pure (dinsert ci "media_info" (toPdictV mi))
    else .ok ci

/-- extract_clips lines 1574-1600: the markers section.  An empty (falsy)
marker collection skips the section entirely; a raise while converting or
flattening is recorded as markers_error and no markers key is set, because
clip_info is only assigned after a fully successful loop. -/
def markersSection (mob : PVal) (ci : Dict) : Except String Dict :=
  match getattrOpt mob "markers" with
  | Option.none => .ok ci
  | some (.raise m) => .error m
  | some (.ok mv) =>
    if pyTruthy mv then
      match (do
        let ml ← if hasIterV mv then pyListOf mv else pure []
        ml.foldlM
          (fun (acc : List Dict) mk => do
            let mi ← dirScalarFlatten mk [] []
            pure (acc ++ [mi])) ([] : List Dict)) with
      | .ok ms => .ok (dinsert ci "markers" (plistOfDicts ms))
      | .error m => .ok (dinsert ci "markers_error" (.str m))
    else .ok ci

/-- extract_clips lines 1602-1622: the timecode section (no truthiness
test; the timecode dict is inserted even when empty). -/
def tcSection (mob : PVal) (ci : Dict) : Except String Dict :=
  match getattrOpt mob "timecode" with
  | Option.none => .ok ci
  | some (.raise m) => .error m
  | some (.ok tcv) =>
    match dirScalarFlatten tcv [] [] with
    | .ok ti => .ok (dinsert ci "timecode" (toPdictV ti))
    | .error m => .ok (dinsert ci "timecode_error" (.str m))

/-- extract_clips lines 1624-1645: the essence section (truthiness test and
inserted only when nonempty). -/
def essenceSection (mob : PVal) (ci : Dict) : Except String Dict :=
  match getattrOpt mob "essence" with
  | Option.none => .ok ci
  | some (.raise m) => .error m
  | some (.ok ev) =>
    if pyTruthy ev then
      match dirScalarFlatten ev [] [] with
      | .ok ei => .ok (if ei.isEmpty then ci else dinsert ci "essence" (toPdictV ei))
      | .error m => .ok (dinsert ci "essence_error" (.str m))
    else .ok ci

/-- extract_clips lines 1407-1647: one clip record, sections in source
order. -/
def extractClipOne (mob : PVal) : Except String Dict := do
  let ci ← clipIdentity mob
  let ci := mobDictLoop mob ci
  let ci ← mobDirLoop mob ci
  let ci ← commentsSection mob ci
  let ci ← mediaSection mob ci
  let ci ← markersSection mob ci
  let ci ← tcSection mob ci
  essenceSection mob ci

/-- extract_clips (effective revision, lines 1395-1650) as a pure function
of the opened handle. -/
def extractClips (f : AvbFile) : Except String (List Dict) :=
  match getattrOpt (.obj f.content) "mobs" with
  | Option.none => .ok []
  | some (.raise m) => .error m
  | some (.ok mv) => do
    let mobs ← if hasIterV mv then pyListOf mv else pure []
    mobs.foldlM
      (fun (acc : List Dict) mob => do
        let ci ← extractClipOne mob
        pure (acc ++ [ci])) ([] : List Dict)

/-- extract_sequences lines 1663-1668: identity dict of one composition. -/
def seqIdentity (mob : PVal) : Except String Dict := do
  let nm ←
    match getattrOpt mob "name" with
    | Option.none => pure (PVal.str "Unnamed Sequence")
    | some (.raise m) => throw m
    | some (.ok v) => pure v
  let mid ← guardedStr mob "mob_id"
  let ct ← guardedFmt mob "creation_time"
  let lm ← guardedFmt mob "last_modified"
  pure [("name", nm), ("mob_id", mid), ("creation_time", ct), ("last_modified", lm)]

/-- extract_sequences lines 1689-1695: the user-comment dict comprehension;
it iterates the source collection directly and nothing catches a raise. -/
def seqCommentsSection (mob : PVal) (ci : Dict) : Except String Dict :=
  match getattrOpt mob "user_comments" with
  | Option.none => .ok ci
  | some (.raise m) => .error m
  | some (.ok uc) =>
    if pyTruthy uc then do
      let cl ← pyListOf uc
      let ucd ← cl.foldlM
        (fun (acc : Dict) cm => do
          let hn ← pyHasattr cm "name"
          if hn then do
            let hv ← pyHasattr cm "value"
            if hv then do
              let nm ← pyGetattrE cm "name"
              let vl ← pyGetattrE cm "value"
              pure (dinsert acc (pyStr nm) vl)
            else pure acc
          else pure acc) ([] : Dict)
      pure (dinsert ci "user_comments" (toPdictV ucd))
    else .ok ci

/-- extract_sequences lines 1697-1707: sequence settings, copied verbatim
with no scalar filtering. -/
def settingsSection (mob : PVal) (ci : Dict) : Except String Dict :=
  match getattrOpt mob "descriptor" with
  | Option.none => .ok ci
  | some (.raise m) => .error m
  | some (.ok desc) => do
    let st ← ["frame_rate", "edit_rate", "format", "resolution"].foldlM
      (fun (acc : Dict) a =>
        match getattrOpt desc a with
        | Option.none => pure acc
        | some (.raise m) => throw m
        | some (.ok v) => pure (dinsert acc a v)) ([] : Dict)
    pure (if st.isEmpty then ci else dinsert ci "settings" (toPdictV st))

/-- extract_sequences lines 1752-1788: one component record; the explicit
timing and source fields are copied verbatim. -/
def extractComponent (c : PVal) : Except String Dict := do
  let st ← guardedRead c "start_time"
  let ln ← guardedRead c "length"
  let ci0 : Dict := [("type", .str (pyTypeName c)), ("start", st), ("length", ln)]
  let ci1 ←
    match getattrOpt c "mob_id" with
    | Option.none => pure ci0
    | some (.raise m) => throw m
    | some (.ok mv) =>
      pure (if pyTruthy mv then dinsert ci0 "source_mob_id" (.str (pyStr mv)) else ci0)
  let ci2 ←
    match getattrOpt c "source_position" with
    | Option.none => pure ci1
    | some (.raise m) => throw m
    | some (.ok v) => pure (dinsert ci1 "source_position" v)
  let ci3 ←
    match getattrOpt c "cutpoint" with
    | Option.none => pure ci2
    | some (.raise m) => throw m
    | some (.ok v) => pure (dinsert ci2 "cutpoint" v)
  let ci4 ←
    match getattrOpt c "effect_id" with
    | Option.none => pure ci3
    | some (.raise m) => throw m
    | some (.ok v) => pure (dinsert ci3 "effect_id" v)
  dirScalarFlatten c ["start_time", "length", "mob_id", "source_position", "cutpoint", "effect_id"] ci4

/-- extract_sequences lines 1712-1792: one track record, with the effects
(parameter name/value pairs, copied verbatim) and the component list. -/
def extractTrack (track : PVal) : Except String Dict := do
  let nm ← guardedRead track "name"
  let ty ← guardedRead track "track_type"
  let ln ← guardedRead track "length"
  let idv ← guardedRead track "id"
  let en ← guardedRead track "enabled"
  let ti0 : Dict := [("name", nm), ("type", ty), ("length", ln), ("id", idv), ("enabled", en)]
  let ti1 ← dirScalarFlatten track ["name", "track_type", "length", "id", "enabled", "component"] ti0
  match getattrOpt track "component" with
  | Option.none => pure ti1
  | some (.raise m) => throw m
  | some (.ok comp) =>
    if pyTruthy comp then do
      let ti2 ←
        match getattrOpt comp "parameters" with
        | Option.none => pure ti1
        | some (.raise m) => throw m
        | some (.ok ps) => do
          let pl ← pyListOf ps
          let effects ← pl.foldlM
            (fun (acc : List Dict) p => do
              let pn ← guardedRead p "name"
              let pv ← guardedRead p "value"
              pure (acc ++ [[("name", pn), ("value", pv)]])) ([] : List Dict)
          pure (if effects.isEmpty then ti1 else dinsert ti1 "effects" (plistOfDicts effects))
      match getattrOpt comp "components" with
      | Option.none => pure ti2
      | some (.raise m) => throw m
      | some (.ok cs) => do
        let cl ← pyListOf cs
        let clips ← cl.foldlM
          (fun (acc : List Dict) c => do
            let cc ← extractComponent c
            pure (acc ++ [cc])) ([] : List Dict)
        pure (dinsert ti2 "clips" (plistOfDicts clips))
    else pure ti1

/-- extract_sequences lines 1709-1794: the track list, always inserted
(possibly empty) when the tracks attribute exists. -/
def tracksSection (mob : PVal) (ci : Dict) : Except String Dict :=
  match getattrOpt mob "tracks" with
  | Option.none => .ok ci
  | some (.raise m) => .error m
  | some (.ok tv) => do
    let ts ← pyListOf tv
    let tracks ← ts.foldlM
      (fun (acc : List Dict) t => do
        let ti ← extractTrack t
        pure (acc ++ [ti])) ([] : List Dict)
    pure (dinsert ci "tracks" (plistOfDicts tracks))

/-- extract_sequences lines 1796-1807: sequence markers; position, color
and comment are copied verbatim and nothing catches a raise here. -/
def seqMarkersSection (mob : PVal) (ci : Dict) : Except String Dict :=
  match getattrOpt mob "markers" with
  | Option.none => .ok ci
  | some (.raise m) => .error m
  | some (.ok mv) =>
    if pyTruthy mv then do
      let ml ← pyListOf mv
      let ms ← ml.foldlM
        (fun (acc : List Dict) mk => do
          let pos ← guardedRead mk "position"
          let col ← guardedRead mk "color"
          let com ← guardedRead mk "comment"
          pure (acc ++ [[("position", pos), ("color", col), ("comment", com)]])) ([] : List Dict)
      pure (dinsert ci "markers" (plistOfDicts ms))
    else .ok ci

/-- extract_sequences lines 1662-1809: one sequence record, sections in
source order. -/
def extractSeqOne (mob : PVal) : Except String Dict := do
  let si ← seqIdentity mob
  let si ← dirScalarFlatten mob ["name", "mob_id", "creation_time", "last_modified", "tracks"] si
  let si ← seqCommentsSection mob si
  let si ← settingsSection mob si
  let si ← tracksSection mob si
  seqMarkersSection mob si

/-- extract_sequences (effective revision, lines 1652-1812) as a pure
function of the opened handle: only CompositionMob items are kept. -/
def extractSeqs (f : AvbFile) : Except String (List Dict) :=
  match getattrOpt (.obj f.content) "mobs" with
  | Option.none => .ok []
  | some (.raise m) => .error m
  | some (.ok mv) => do
    let mobs ← pyListOf mv
    mobs.foldlM
      (fun (acc : List Dict) mob =>
        if pyTypeName mob == "CompositionMob" then do
          let si ← extractSeqOne mob
          pure (acc ++ [si])
        else pure acc) ([] : List Dict)

/-- The mutable state of a BinExplorer instance. -/
structure Explorer where
  binPath : Option String
  binFile : Option AvbFile
  metadata : Dict
  deriving DecidableEq

/-- open_bin (lines 1276-1288); the opener stands for avb.open.  Errors
carry the state at raise time (the path argument is stored before the
check, the metadata is untouched). -/
def openBinM (opener : String → Except String AvbFile) (st : Explorer) (arg : Option String) :
    Except (Explorer × String) (Explorer × Bool) :=
  let st1 :=
    match arg with
    | some s => if s ≠ "" then { st with binPath := some s } else st
    | Option.none => st
  match st1.binPath with
  | Option.none => .error (st1, "ValueError: No bin path specified")
  | some p =>
    if p = "" then .error (st1, "ValueError: No bin path specified")
    else
      match opener p with
      | .ok f => .ok ({ st1 with binFile := some f }, true)
      | .error e => .error (st1, "Error opening bin file: " ++ e)

/-- extract_basic_info as a method: ValueError when no bin is open; the
metadata mapping is only written on success (source line 1392). -/
def extractBasicInfoM (env : ExtractEnv) (st : Explorer) :
    Except (Explorer × String) (Explorer × Dict) :=
  match st.binFile with
  | Option.none => .error (st, "ValueError: No bin file is currently open")
  | some f =>
    match extractBasicInfo env (st.binPath.getD "") f with
    | .error m => .error (st, m)
    | .ok bi => .ok ({ st with metadata := dinsert st.metadata "basic_info" (toPdictV bi) }, bi)

/-- extract_clips as a method (metadata written at source line 1649). -/
def extractClipsM (st : Explorer) : Except (Explorer × String) (Explorer × List Dict) :=
  match st.binFile with
  | Option.none => .error (st, "ValueError: No bin file is currently open")
  | some f =>
    match extractClips f with
    | .error m => .error (st, m)
    | .ok cs => .ok ({ st with metadata := dinsert st.metadata "clips" (plistOfDicts cs) }, cs)

/-- extract_sequences as a method (metadata written at source line 1811). -/
def extractSeqsM (st : Explorer) : Except (Explorer × String) (Explorer × List Dict) :=
  match st.binFile with
  | Option.none => .error (st, "ValueError: No bin file is currently open")
  | some f =>
    match extractSeqs f with
    | .error m => .error (st, m)
    | .ok ss => .ok ({ st with metadata := dinsert st.metadata "sequences" (plistOfDicts ss) }, ss)

/-- The three extraction stages in order; an error carries the state after
the stages that completed. -/
def runStages (env : ExtractEnv) (st : Explorer) : Except (Explorer × String) Explorer :=
  match extractBasicInfoM env st with
  | .error e => .error e
  | .ok (st1, _) =>
    match extractClipsM st1 with
    | .error e => .error e
    | .ok (st2, _) =>
      match extractSeqsM st2 with
      | .error e => .error e
      | .ok (st3, _) => .ok st3

/-- extract_all_metadata of the effective revision (lines 1814-1819): the
three stages with NO try/except, so any stage error propagates to the
caller and no document is returned. -/
def extractAllMetadataM (env : ExtractEnv) (st : Explorer) :
    Except (Explorer × String) (Explorer × Dict) :=
  match runStages env st with
  | .error e => .error e
  | .ok st3 => .ok (st3, st3.metadata)

/-- extract_all_metadata of the first two revisions (lines 588-600 and
1159-1171): a stage error is caught, basic_info gets an error placeholder
when it was never computed, extraction_error is recorded, and the document
is always returned. -/
def extractAllGuardedM (env : ExtractEnv) (st : Explorer) : Explorer × Dict :=
  match runStages env st with
  | .ok st3 => (st3, st3.metadata)
  | .error (stp, m) =>
    let md := stp.metadata
    let md := if dmem md "basic_info" then md else dinsert md "basic_info" (toPdictV [("error", .str m)])
    let md := dinsert md "extraction_error" (.str m)
    ({ stp with metadata := md }, md)

/-- The opening and closing curly brackets as characters. -/
def lbrace : Char := Char.ofNat 123

def rbrace : Char := Char.ofNat 125

def hexDigitChar (n : Nat) : Char :=
  if n < 10 then Char.ofNat (48 + n) else Char.ofNat (87 + n)

/-- Four lowercase hex digits, as CPython's json encoder emits for
escapes. -/
def hex4 (n : Nat) : List Char :=
  [hexDigitChar (n / 4096 % 16), hexDigitChar (n / 256 % 16),
   hexDigitChar (n / 16 % 16), hexDigitChar (n % 16)]

/-- json.dump's default (ensure_ascii) escaping of one character: the named
escapes, then u-escapes for other control and non-ASCII characters, with a
surrogate pair beyond the basic plane. -/
def escapeChar (c : Char) : List Char :=
  if c = '"' then ['\\', '"']
  else if c = '\\' then ['\\', '\\']
  else if c = '\n' then ['\\', 'n']
  else if c = '\t' then ['\\', 't']
  else if c = '\r' then ['\\', 'r']
  else if c.toNat = 8 then ['\\', 'b']
  else if c.toNat = 12 then ['\\', 'f']
  else if c.toNat < 32 ∨ 127 ≤ c.toNat then
    if c.toNat ≤ 65535 then '\\' :: 'u' :: hex4 c.toNat
    else
      let d := c.toNat - 65536
      ('\\' :: 'u' :: hex4 (55296 + d / 1024)) ++ ('\\' :: 'u' :: hex4 (56320 + d % 1024))
  else [c]

def quoteJsonChars (s : String) : List Char :=
  '"' :: (s.data.flatMap escapeChar) ++ ['"']

def indentChars (lvl : Nat) : List Char :=
  List.replicate (2 * lvl) ' '

mutual

/-- json.dump(value, f, indent=2): the exact character stream CPython
writes, or the TypeError raised on a value that is not serializable. -/
def renderV : PVal → Nat → Except String (List Char)
  | .str s, _ => .ok (quoteJsonChars s)
  | .int n, _ => .ok (intReprChars n)
  | .bool b, _ => .ok (if b then ['t', 'r', 'u', 'e'] else ['f', 'a', 'l', 's', 'e'])
  | .pynone, _ => .ok ['n', 'u', 'l', 'l']
  | .dt _, _ => .error "TypeError: Object of type datetime is not JSON serializable"
  | .gen _ _, _ => .error "TypeError: Object of type generator is not JSON serializable"
  | .obj _, _ => .error "TypeError: Object is not JSON serializable"
  | .plist l, lvl =>
    match l with
    | .nil => .ok ['[', ']']
    | .cons v tl => do
      let first ← renderV v (lvl + 1)
      let rest ← renderItems tl (lvl + 1)
      .ok ('[' :: '\n' :: indentChars (lvl + 1) ++ first ++ rest ++ '\n' :: indentChars lvl ++ [']'])
  | .pdict e, lvl =>
    match e with
    | .nil => .ok [lbrace, rbrace]
    | .cons k v tl => do
      let s ← renderV v (lvl + 1)
      let rest ← renderEntries tl (lvl + 1)
      .ok (lbrace :: '\n' :: indentChars (lvl + 1) ++ quoteJsonChars k ++ ':' :: ' ' :: s
           ++ rest ++ '\n' :: indentChars lvl ++ [rbrace])

/-- The remaining items of a nonempty array: a comma, a newline, the item
indent and the item, for each. -/
def renderItems : VList → Nat → Except String (List Char)
  | .nil, _ => .ok []
  | .cons v tl, lvl => do
    let s ← renderV v lvl
    let rest ← renderItems tl lvl
    .ok (',' :: '\n' :: indentChars lvl ++ s ++ rest)

/-- The remaining entries of a nonempty object. -/
def renderEntries : Entries → Nat → Except String (List Char)
  | .nil, _ => .ok []
  | .cons k v tl, lvl => do
    let s ← renderV v lvl
    let rest ← renderEntries tl lvl
    .ok (',' :: '\n' :: indentChars lvl ++ quoteJsonChars k ++ ':' :: ' ' :: s ++ rest)

end

/-- The full text json.dump writes for a value, or its TypeError. -/
def renderJson (v : PVal) : Except String String :=
  match renderV v 0 with
  | .ok cs => .ok (String.mk cs)
  | .error m => .error m

def entHasKey : Entries → String → Bool
  | .nil, _ => false
  | .cons k _ tl, key => k == key || entHasKey tl key

mutual

/-- The value is built purely of JSON-serializable constructors and every
object node has pairwise distinct keys (true of every dict a Python run can
produce). -/
def jsonClean : PVal → Bool
  | .str _ => true
  | .int _ => true
  | .bool _ => true
  | .pynone => true
  | .dt _ => false
  | .gen _ _ => false
  | .obj _ => false
  | .plist l => jsonCleanL l
  | .pdict e => entKeysNodup e && jsonCleanE e

def jsonCleanL : VList → Bool
  | .nil => true
  | .cons v tl => jsonClean v && jsonCleanL tl

def jsonCleanE : Entries → Bool
  | .nil => true
  | .cons _ v tl => jsonClean v && jsonCleanE tl

def entKeysNodup : Entries → Bool
  | .nil => true
  | .cons k _ tl => !(entHasKey tl k) && entKeysNodup tl

end

def isWsChar (c : Char) : Bool :=
  c = ' ' || c = '\n' || c = '\t' || c = '\r'

def skipWs : List Char → List Char
  | [] => []
  | c :: cs => if isWsChar c then skipWs cs else c :: cs

def isDigitChar (c : Char) : Bool :=
  48 ≤ c.toNat && c.toNat ≤ 57

def parseDigits : List Char → Nat → (Nat × List Char)
  | [], a => (a, [])
  | c :: cs, a => if isDigitChar c then parseDigits cs (a * 10 + (c.toNat - 48)) else (a, c :: cs)

/-- A JSON number restricted to the integer grammar, which is all the
renderer emits (the modelled documents hold no floats). -/
def parseNum : List Char → Option (PVal × List Char)
  | [] => Option.none
  | c :: cs =>
    if c = '-' then
      match cs with
      | d :: _ =>
        if isDigitChar d then
          let (n, rest) := parseDigits cs 0
          some (.int (-(n : Int)), rest)
        else Option.none
      | [] => Option.none
    else if isDigitChar c then
      let (n, rest) := parseDigits (c :: cs) 0
      some (.int ((n : Int)), rest)
    else Option.none

def hexVal (c : Char) : Option Nat :=
  if 48 ≤ c.toNat && c.toNat ≤ 57 then some (c.toNat - 48)
  else if 97 ≤ c.toNat && c.toNat ≤ 102 then some (c.toNat - 87)
  else if 65 ≤ c.toNat && c.toNat ≤ 70 then some (c.toNat - 55)
  else Option.none

def escMap (e : Char) : Option Char :=
  if e = '"' then some '"'
  else if e = '\\' then some '\\'
  else if e = '/' then some '/'
  else if e = 'n' then some '\n'
  else if e = 't' then some '\t'
  else if e = 'r' then some '\r'
  else if e = 'b' then some (Char.ofNat 8)
  else if e = 'f' then some (Char.ofNat 12)
  else Option.none

/-- The four hex digits of a u-escape. -/
def hex4FromChars (a b c d : Char) : Option Nat := do
  let x1 ← hexVal a
  let x2 ← hexVal b
  let x3 ← hexVal c
  let x4 ← hexVal d
  pure (((x1 * 16 + x2) * 16 + x3) * 16 + x4)

/-- A u-escape after the backslash-u prefix, recombining a surrogate pair
(a lone surrogate escape is rejected: the modelled strings hold only
Unicode scalar values). -/
def parseUEscape (cs : List Char) : Option (Char × List Char) :=
  match cs with
  | a :: b :: c :: d :: rest =>
    match hex4FromChars a b c d with
    | some n =>
      if 55296 ≤ n ∧ n < 56320 then
        match rest with
        | u1 :: u2 :: a2 :: b2 :: c2 :: d2 :: rest2 =>
          if u1 = '\\' ∧ u2 = 'u' then
            match hex4FromChars a2 b2 c2 d2 with
            | some m =>
              if 56320 ≤ m ∧ m < 57344 then
                some (Char.ofNat ((n - 55296) * 1024 + (m - 56320) + 65536), rest2)
              else Option.none
            | Option.none => Option.none
          else Option.none
        | _ => Option.none
      else if 56320 ≤ n ∧ n < 57344 then Option.none
      else some (Char.ofNat n, rest)
    | Option.none => Option.none
  | _ => Option.none

/-- One escape sequence after the backslash. -/
def parseEsc (cs : List Char) : Option (Char × List Char) :=
  match cs with
  | [] => Option.none
  | e :: rest =>
    if e = 'u' then parseUEscape rest
    else
      match escMap e with
      | some ec => some (ec, rest)
      | Option.none => Option.none

/-- The body of a JSON string after the opening quote: named escapes,
u-escapes, raw characters otherwise (control characters rejected, as
json.loads does in strict mode).  One fuel unit is spent per produced
character, so any fuel beyond the input length suffices. -/
def parseStrBody : Nat → List Char → List Char → Option (String × List Char)
  | 0, _, _ => Option.none
  | fuel + 1, cs, acc =>
    match cs with
    | [] => Option.none
    | c :: rest =>
      if c = '"' then some (String.mk acc.reverse, rest)
      else if c = '\\' then
        match parseEsc rest with
        | some (ec, rest2) => parseStrBody fuel rest2 (ec :: acc)
        | Option.none => Option.none
      else if c.toNat < 32 then Option.none
      else parseStrBody fuel rest (c :: acc)

/-- Python dict assignment on the Entries representation (update in place
or append), used by the loads model to build objects. -/
def entUpdate : Entries → String → PVal → Entries
  | .nil, _, _ => .nil
  | .cons k v tl, key, w => if k == key then .cons k w tl else .cons k v (entUpdate tl key w)

def entAppend : Entries → String → PVal → Entries
  | .nil, k, v => .cons k v .nil
  | .cons k0 v0 tl, k, v => .cons k0 v0 (entAppend tl k v)

def entInsert (e : Entries) (k : String) (v : PVal) : Entries :=
  if entHasKey e k then entUpdate e k v else entAppend e k v

/-- Concatenation of entry lists. -/
def eappend : Entries → Entries → Entries
  | .nil, e2 => e2
  | .cons k v tl, e2 => .cons k v (eappend tl e2)

/-- The input does not begin with a decimal digit (the condition under
which the digit reader stops exactly at a rendered number's end). -/
def noDigitHead : List Char → Bool
  | [] => true
  | c :: _ => !(isDigitChar c)

mutual

/-- Recursive-descent json.loads on the grammar the renderer emits; the
fuel strictly decreases on every recursive call (any fuel at least the size
of the value suffices). -/
def parseV : Nat → List Char → Option (PVal × List Char)
  | 0, _ => Option.none
  | fuel + 1, cs0 =>
    match skipWs cs0 with
    | [] => Option.none
    | c :: rest =>
      if c = '"' then
        match parseStrBody (rest.length + 1) rest [] with
        | some (s, r) => some (.str s, r)
        | Option.none => Option.none
      else if c = '[' then parseArrStart fuel rest
      else if c = lbrace then parseObjStart fuel rest
      else if c = 'n' then
        match rest with
        | 'u' :: 'l' :: 'l' :: r => some (.pynone, r)
        | _ => Option.none
      else if c = 't' then
        match rest with
        | 'r' :: 'u' :: 'e' :: r => some (.bool true, r)
        | _ => Option.none
      else if c = 'f' then
        match rest with
        | 'a' :: 'l' :: 's' :: 'e' :: r => some (.bool false, r)
        | _ => Option.none
      else parseNum (c :: rest)

/-- After the opening bracket: empty array or first value then the rest. -/
def parseArrStart : Nat → List Char → Option (PVal × List Char)
  | 0, _ => Option.none
  | fuel + 1, cs =>
    match skipWs cs with
    | ']' :: rest => some (.plist .nil, rest)
    | cs1 =>
      match parseV fuel cs1 with
      | some (v, r) =>
        match parseArrRest fuel r with
        | some (tl, r2) => some (.plist (.cons v tl), r2)
        | Option.none => Option.none
      | Option.none => Option.none

/-- After one array item: a comma and a further item, or the closing
bracket. -/
def parseArrRest : Nat → List Char → Option (VList × List Char)
  | 0, _ => Option.none
  | fuel + 1, cs =>
    match skipWs cs with
    | ']' :: rest => some (.nil, rest)
    | ',' :: rest =>
      match parseV fuel rest with
      | some (v, r) =>
        match parseArrRest fuel r with
        | some (tl, r2) => some (.cons v tl, r2)
        | Option.none => Option.none
      | Option.none => Option.none
    | _ => Option.none

/-- One key-value pair (the leading quote of the key is already expected at
the head after whitespace). -/
def parsePair : Nat → List Char → Option (String × PVal × List Char)
  | 0, _ => Option.none
  | fuel + 1, cs =>
    match skipWs cs with
    | q :: rest =>
      if q = '"' then
        match parseStrBody (rest.length + 1) rest [] with
        | some (k, r) =>
          match skipWs r with
          | colon :: r2 =>
            if colon = ':' then
              match parseV fuel r2 with
              | some (v, r3) => some (k, v, r3)
              | Option.none => Option.none
            else Option.none
          | [] => Option.none
        | Option.none => Option.none
      else Option.none
    | [] => Option.none

/-- After the opening brace: empty object or the pairs, folded with dict
assignment as json.loads builds its dict. -/
def parseObjStart : Nat → List Char → Option (PVal × List Char)
  | 0, _ => Option.none
  | fuel + 1, cs =>
    match skipWs cs with
    | c :: rest =>
      if c = rbrace then some (.pdict .nil, rest)
      else
        match parsePair fuel (c :: rest) with
        | some (k, v, r) =>
          match parseObjRest fuel r with
          | some (prs, r2) =>
            some (.pdict (((k, v) :: prs).foldl (fun acc kv => entInsert acc kv.1 kv.2) .nil), r2)
          | Option.none => Option.none
        | Option.none => Option.none
    | [] => Option.none

/-- After one pair: a comma and a further pair, or the closing brace. -/
def parseObjRest : Nat → List Char → Option (List (String × PVal) × List Char)
  | 0, _ => Option.none
  | fuel + 1, cs =>
    match skipWs cs with
    | c :: rest =>
      if c = rbrace then some ([], rest)
      else if c = ',' then
        match parsePair fuel rest with
        | some (k, v, r) =>
          match parseObjRest fuel r with
          | some (prs, r2) => some ((k, v) :: prs, r2)
          | Option.none => Option.none
        | Option.none => Option.none
      else Option.none
    | [] => Option.none

end

/-- json.loads of a full document: one value, then only whitespace may
remain. -/
def pyJsonLoads (s : String) : Option PVal :=
  match parseV (s.data.length + 1) s.data with
  | some (v, rest) => if (skipWs rest).isEmpty then some v else Option.none
  | Option.none => Option.none

/-- Outcome of export_metadata_json: the returned path or raised error, the
write attempts made (paths, in order), the full text written on success,
and the state afterwards. -/
structure ExportOut where
  result : Except String String
  attempts : List String
  written : Option String
  post : Explorer

/-- export_metadata_json (effective revision, lines 1821-1835).  fsErr
models the file system: Option.none means the path opens and writes
cleanly, some msg the OSError message.  When the metadata dict is empty the
method first runs the (unguarded) extract_all_metadata, whose errors
propagate unwrapped; a write failure or a json TypeError is wrapped as
"Error writing metadata to JSON: ...", and no second attempt is made. -/
def exportMetadataJsonM (env : ExtractEnv) (fsErr : String → Option String)
    (st : Explorer) (outPath : Option String) : ExportOut :=
  let step1 : Except (Explorer × String) Explorer :=
    if st.metadata.isEmpty then
      match extractAllMetadataM env st with
      | .error e => .error e
      | .ok (st2, _) => .ok st2
    else .ok st
  match step1 with
  | .error (stp, m) =>
    { result := .error m, attempts := [], written := Option.none, post := stp }
  | .ok st2 =>
    let path :=
      match outPath with
      | some p => if p = "" then splitextRoot (st2.binPath.getD "") ++ "_metadata.json" else p
      | Option.none => splitextRoot (st2.binPath.getD "") ++ "_metadata.json"
    match fsErr path with
    | some m =>
      { result := .error ("Error writing metadata to JSON: " ++ m),
        attempts := [path], written := Option.none, post := st2 }
    | Option.none =>
      match renderJson (toPdictV st2.metadata) with
      | .ok txt =>
        { result := .ok path, attempts := [path], written := some txt, post := st2 }
      | .error m =>
        { result := .error ("Error writing metadata to JSON: " ++ m),
          attempts := [path], written := Option.none, post := st2 }

/-- os.path.join for POSIX paths, as used with the output directory and
bin name. -/
def pyJoin (a b : String) : String :=
  if (match b.data with | c :: _ => c == '/' | [] => false) then b
  else if a = "" then b
  else if (match a.data.getLast? with | some c => c == '/' | Option.none => false) then a ++ b
  else a ++ "/" ++ b

/-- Modelled from the spec: binsmith.resolve_path is not under src (only
its caller binsmith-gui.py is).  The spec says the repository resolves the
path with a policy of rejecting a pre-existing path (create-only, no
overwrite); with allow_existing false it raises when the path already
exists and otherwise returns the resolved path. -/
def resolvePath (existing : List String) (full : String) (allowExisting : Bool) :
    Except String String :=
  if !allowExisting && existing.contains full then
    .error ("Path already exists: " ++ full)
  else .ok full

/-- Modelled from the spec: binsmith.create_bin is not under src; the
external library call writes a new container file at the resolved path
(template and display parameters are forwarded and have no bearing on the
path bookkeeping modelled here). -/
def createBin (existing : List String) (path : String) : List String :=
  path :: existing

/-- Running tallies, log lines and file system during create_bins. -/
structure BatchState where
  successCount : Nat
  errorCount : Nat
  log : List String
  fs : List String

/-- binsmith-gui.py lines 439-455: one row of the bins table (bin name,
output directory).  log() prepends "ERROR: " for error lines. -/
def createBinsStep (bs : BatchState) (row : String × String) : BatchState :=
  let fullPath := if row.2 ≠ "" then pyJoin row.2 row.1 else row.1
  match resolvePath bs.fs fullPath false with
  | .ok p =>
    { bs with
      fs := createBin bs.fs p,
      successCount := bs.successCount + 1,
      log := bs.log ++ ["Created bin at " ++ p] }
  | .error e =>
    { bs with
      errorCount := bs.errorCount + 1,
      log := bs.log ++ ["ERROR: Error creating bin '" ++ row.1 ++ "': " ++ e] }

/-- binsmith-gui.py lines 436-456: the whole batch loop with its final
summary log line. -/
def createBins (rows : List (String × String)) (fs : List String) : BatchState :=
  let final := rows.foldl createBinsStep
    { successCount := 0, errorCount := 0, log := [], fs := fs }
  { final with
    log := final.log ++
      ["Bin creation completed. Successfully created " ++ toString final.successCount ++
       " bins with " ++ toString final.errorCount ++ " errors."] }

mutual

/-- The Metadata Document invariant of the spec: every leaf (non-container
node) is a string, integer, boolean or None. -/
def docLeavesOk : PVal → Bool
  | .str _ => true
  | .int _ => true
  | .bool _ => true
  | .pynone => true
  | .dt _ => false
  | .gen _ _ => false
  | .obj _ => false
  | .plist l => docLeavesOkL l
  | .pdict e => docLeavesOkE e

def docLeavesOkL : VList → Bool
  | .nil => true
  | .cons v tl => docLeavesOk v && docLeavesOkL tl

def docLeavesOkE : Entries → Bool
  | .nil => true
  | .cons _ v tl => docLeavesOk v && docLeavesOkE tl

end

/-- The components of a media_info dict: duration_frames is copied verbatim
(unchecked), everything else the walker puts there is scalar-filtered. -/
def mediaInfoPolicy (v : PVal) : Bool :=
  match v with
  | .pdict e => (e.toList).all (fun kv =>
      if kv.1 == "duration_frames" then true else docLeavesOk kv.2)
  | _ => false

/-- One clip-record entry: name and mob_type_id are copied verbatim, the
user-comment values are copied verbatim, media_info has its own exemption;
every other entry satisfies the leaf invariant. -/
def clipEntryPolicy (kv : String × PVal) : Bool :=
  if kv.1 == "name" || kv.1 == "mob_type_id" || kv.1 == "user_comments" then true
  else if kv.1 == "media_info" then mediaInfoPolicy kv.2 || docLeavesOk kv.2
  else docLeavesOk kv.2

def clipPolicy (v : PVal) : Bool :=
  match v with
  | .pdict e => (e.toList).all clipEntryPolicy
  | _ => false

/-- One component-record entry: start, length, source_position, cutpoint
and effect_id are copied verbatim. -/
def componentEntryPolicy (kv : String × PVal) : Bool :=
  if kv.1 == "start" || kv.1 == "length" || kv.1 == "source_position"
      || kv.1 == "cutpoint" || kv.1 == "effect_id" then true
  else docLeavesOk kv.2

def componentPolicy (v : PVal) : Bool :=
  match v with
  | .pdict e => (e.toList).all componentEntryPolicy
  | _ => false

/-- One track-record entry: the identity fields and the effect name/value
pairs are copied verbatim; the nested component records have their own
policy. -/
def trackEntryPolicy (kv : String × PVal) : Bool :=
  if kv.1 == "name" || kv.1 == "type" || kv.1 == "length" || kv.1 == "id"
      || kv.1 == "enabled" || kv.1 == "effects" then true
  else if kv.1 == "clips" then
    (match kv.2 with
     | .plist l => (l.toList).all componentPolicy
     | _ => false) || docLeavesOk kv.2
  else docLeavesOk kv.2

def trackPolicy (v : PVal) : Bool :=
  match v with
  | .pdict e => (e.toList).all trackEntryPolicy
  | _ => false

/-- One sequence-record entry: name, settings, user-comment values and the
marker fields are copied verbatim; tracks have their own policy. -/
def seqEntryPolicy (kv : String × PVal) : Bool :=
  if kv.1 == "name" || kv.1 == "user_comments" || kv.1 == "settings"
      || kv.1 == "markers" then true
  else if kv.1 == "tracks" then
    match kv.2 with
    | .plist l => (l.toList).all trackPolicy
    | _ => false
  else docLeavesOk kv.2

def seqPolicy (v : PVal) : Bool :=
  match v with
  | .pdict e => (e.toList).all seqEntryPolicy
  | _ => false

/-- One basic_info entry: bin_name and every file_header field are copied
verbatim, and the view-settings name entry is copied verbatim before the
filtered pass. -/
def basicInfoEntryPolicy (kv : String × PVal) : Bool :=
  if kv.1 == "bin_name" || kv.1 == "file_header" then true
  else if kv.1 == "view_settings" then
    match kv.2 with
    | .pdict e => (e.toList).all (fun kv2 =>
        if kv2.1 == "name" then true else docLeavesOk kv2.2)
    | _ => false
  else docLeavesOk kv.2

def basicInfoPolicy (v : PVal) : Bool :=
  match v with
  | .pdict e => (e.toList).all basicInfoEntryPolicy
  | _ => false

/-- The amended leaf invariant of the whole Metadata Document: the leaf
invariant holds at every scalar-filtered insertion point, while the
verbatim-copied fields listed in the entry policies are exempt. -/
def metadataPolicy (md : Dict) : Bool :=
  md.all (fun kv =>
    if kv.1 == "basic_info" then basicInfoPolicy kv.2
    else if kv.1 == "clips" then
      match kv.2 with
      | .plist l => (l.toList).all clipPolicy
      | _ => false
    else if kv.1 == "sequences" then
      match kv.2 with
      | .plist l => (l.toList).all seqPolicy
      | _ => false
    else docLeavesOk kv.2)

/-- Well-formedness of an object as Python guarantees it: the instance
__dict__ cannot hold a duplicated key. -/
def objWf (v : PVal) : Bool :=
  match v with
  | .obj o =>
    match o.instAttrs with
    | .noDict => true
    | .someDict e => entKeysNodup e
  | _ => true

mutual

/-- Fuel that suffices for the json parser on this value's rendering. -/
def pfuel : PVal → Nat
  | .str _ => 1
  | .int _ => 1
  | .bool _ => 1
  | .pynone => 1
  | .dt _ => 1
  | .gen _ _ => 1
  | .obj _ => 1
  | .plist l => lfuel l + 1
  | .pdict e => efuel e + 1

def lfuel : VList → Nat
  | .nil => 1
  | .cons v tl => pfuel v + lfuel tl + 1

def efuel : Entries → Nat
  | .nil => 1
  | .cons _ v tl => pfuel v + efuel tl + 1

end

/-- A shared session environment for the concrete runs. -/
def envA : ExtractEnv :=
  { viewModes := [("LIST", 1)],
    binDisplays := [("OPT_A", 1), ("OPT_B", 2), ("OPT_C", 4)],
    fileSize := 2048, fileMtime := "2024-03-01 12:00:00" }

/-- A non-scalar attribute value (an opaque object handle). -/
def leakObj : PVal := .obj (.mk "AttrHandle" "<AttrHandle>" false .nil .noDict)

def cexComment : PObj :=
  .mk "Comment" "<comment>" false
    (.cons "name" (.ok (.str "Note")) (.cons "value" (.ok leakObj) .nil)) .noDict

def cexParam : PObj :=
  .mk "Param" "<param>" false
    (.cons "name" (.ok (.str "Blur")) (.cons "value" (.ok leakObj) .nil)) .noDict

def cexTrackComp : PObj :=
  .mk "Sequence" "<seq>" false
    (.cons "parameters" (.ok (.plist (.cons (.obj cexParam) .nil))) .nil) .noDict

def cexTrack : PObj :=
  .mk "Track" "<track>" false
    (.cons "component" (.ok (.obj cexTrackComp)) .nil) .noDict

def cexDesc : PObj :=
  .mk "MediaDescriptor" "<desc>" false
    (.cons "frame_rate" (.ok leakObj) .nil) .noDict

def cexSeqMob : PObj :=
  .mk "CompositionMob" "<mob>" false
    (.cons "name" (.ok (.str "Seq 1"))
    (.cons "descriptor" (.ok (.obj cexDesc))
    (.cons "user_comments" (.ok (.plist (.cons (.obj cexComment) .nil)))
    (.cons "tracks" (.ok (.plist (.cons (.obj cexTrack) .nil))) .nil)))) .noDict

def cexHeader : PObj :=
  .mk "FileHeader" "<hdr>" false
    (.cons "major_version" (.ok leakObj) .nil) .noDict

def cexContent : PObj :=
  .mk "Bin" "<bin>" false
    (.cons "display_mode" (.ok (.int 1))
    (.cons "mobs" (.ok (.plist (.cons (.obj cexSeqMob) .nil))) .nil)) .noDict

def cexFile : AvbFile := { content := cexContent, header := some cexHeader }

def cexState : Explorer :=
  { binPath := some "/proj/bin1.avb", binFile := some cexFile, metadata := [] }

/-- A bin whose display_mode is not a ViewModes member, so
extract_basic_info raises ValueError. -/
def badModeContent : PObj :=
  .mk "Bin" "<bin>" false (.cons "display_mode" (.ok (.int 99)) .nil) .noDict

def badModeState : Explorer :=
  { binPath := some "/proj/bin2.avb",
    binFile := some { content := badModeContent, header := Option.none },
    metadata := [] }

/-- A mob with an attribute whose read raises during the callable check. -/
def badAttrMob : PObj :=
  .mk "MasterMob" "<mob>" false
    (.cons "bad_attr" (.raise "boom: unreadable property") .nil) .noDict

def badAttrSeqMob : PObj :=
  .mk "CompositionMob" "<mob>" false
    (.cons "bad_attr" (.raise "boom: unreadable property") .nil) .noDict

def badAttrContent : PObj :=
  .mk "Bin" "<bin>" false
    (.cons "display_mode" (.ok (.int 1))
    (.cons "mobs" (.ok (.plist (.cons (.obj badAttrMob) (.cons (.obj badAttrSeqMob) .nil))))
     .nil)) .noDict

def badAttrFile : AvbFile := { content := badAttrContent, header := Option.none }

def badAttrState : Explorer :=
  { binPath := some "/proj/bin4.avb", binFile := some badAttrFile, metadata := [] }

/-- An item whose marker collection is an empty list. -/
def emptyMarkersMob : PVal :=
  .obj (.mk "MasterMob" "<mob>" false (.cons "markers" (.ok (.plist .nil)) .nil) .noDict)

/-- An item whose marker collection raises while being iterated. -/
def raisingMarkersMob : PVal :=
  .obj (.mk "MasterMob" "<mob>" false
    (.cons "markers"
      (.ok (.gen (.cons (.obj (.mk "Marker" "<m>" false .nil .noDict)) .nil)
        (some "marker iteration failed"))) .nil) .noDict)

/-- A bin exposing a display_mask with bits 1 and 4 set. -/
def maskContent : PObj :=
  .mk "Bin" "<bin>" false
    (.cons "display_mode" (.ok (.int 1))
    (.cons "display_mask" (.ok (.int 5)) .nil)) .noDict

def maskState : Explorer :=
  { binPath := some "/proj/bin3.avb",
    binFile := some { content := maskContent, header := Option.none },
    metadata := [] }

/-- An explorer whose metadata is already populated (export does not
re-extract). -/
def readyState : Explorer :=
  { binPath := some "/media/project.avb", binFile := Option.none,
    metadata := [("basic_info", toPdictV [("filename", .str "project.avb"),
                                          ("file_size", .int 2048)])] }

def goodMobId : PVal := .obj (.mk "MobID" "id-123" false .nil .noDict)

def goodMobId2 : PVal := .obj (.mk "MobID" "id-456" false .nil .noDict)

def goodMarker : PObj :=
  .mk "Marker" "<marker>" false
    (.cons "position" (.ok (.int 10)) (.cons "color" (.ok (.str "Red")) .nil)) .noDict

def goodComment : PObj :=
  .mk "Comment" "<c>" false
    (.cons "name" (.ok (.str "Note")) (.cons "value" (.ok (.str "great take")) .nil)) .noDict

def goodMediaDesc : PObj :=
  .mk "MediaDescriptor" "<md>" false
    (.cons "frame_rate" (.ok (.str "24")) .nil) .noDict

def goodClipMob : PObj :=
  .mk "MasterMob" "<mob>" false
    (.cons "name" (.ok (.str "Clip A"))
    (.cons "mob_id" (.ok goodMobId)
    (.cons "creation_time" (.ok (.dt "2024-01-01 10:00:00"))
    (.cons "length" (.ok (.int 100))
    (.cons "media_descriptor" (.ok (.obj goodMediaDesc))
    (.cons "markers" (.ok (.plist (.cons (.obj goodMarker) .nil)))
    (.cons "user_comments" (.ok (.plist (.cons (.obj goodComment) .nil)))
     .nil))))))) .noDict

def goodSubComp : PObj :=
  .mk "SourceClip" "<sc>" false
    (.cons "start_time" (.ok (.int 0))
    (.cons "length" (.ok (.int 25))
    (.cons "mob_id" (.ok goodMobId2) .nil))) .noDict

def goodTrackComp : PObj :=
  .mk "Sequence" "<tc>" false
    (.cons "components" (.ok (.plist (.cons (.obj goodSubComp) .nil))) .nil) .noDict

def goodTrack : PObj :=
  .mk "Track" "<t>" false
    (.cons "name" (.ok (.str "V1"))
    (.cons "track_type" (.ok (.str "video"))
    (.cons "length" (.ok (.int 50))
    (.cons "component" (.ok (.obj goodTrackComp)) .nil)))) .noDict

def goodSeqMob : PObj :=
  .mk "CompositionMob" "<mob>" false
    (.cons "name" (.ok (.str "Seq 1"))
    (.cons "tracks" (.ok (.plist (.cons (.obj goodTrack) .nil))) .nil)) .noDict

def goodContent : PObj :=
  .mk "Bin" "<bin>" false
    (.cons "display_mode" (.ok (.int 1))
    (.cons "display_mask" (.ok (.int 3))
    (.cons "mobs" (.ok (.plist (.cons (.obj goodClipMob) (.cons (.obj goodSeqMob) .nil))))
     .nil))) .noDict

def goodFile : AvbFile := { content := goodContent, header := Option.none }

def goodState : Explorer :=
  { binPath := some "/proj/good.avb", binFile := some goodFile, metadata := [] }

/-- Three batch rows whose second target already exists on disk. -/
def batchRows : List (String × String) :=
  [("reel1.avb", "/bins"), ("reel2.avb", "/bins"), ("reel3.avb", "/bins")]

def batchFs : List String := ["/bins/reel2.avb"]

theorem dlookup_dinsert_self (d : Dict) (k : String) (v : PVal) :
    dlookup (dinsert d k v) k = some v := by
  induction d with
  | nil => simp [dinsert, dlookup]
  | cons kv tl ih =>
    by_cases h : kv.1 = k
    · simp [dinsert, dlookup, h]
    · simp [dinsert, dlookup, h, ih]

theorem dlookup_dinsert_ne (d : Dict) (k k' : String) (v : PVal) (h : k ≠ k') :
    dlookup (dinsert d k' v) k = dlookup d k := by
  induction d with
  | nil => simp [dinsert, dlookup, Ne.symm h]
  | cons kv tl ih =>
    by_cases hk : kv.1 = k'
    · simp [dinsert, dlookup, hk, Ne.symm h]
    · by_cases hk2 : kv.1 = k
      · simp [dinsert, dlookup, hk, hk2, h]
      · simp [dinsert, dlookup, hk, hk2, ih]

theorem dmem_dinsert_self (d : Dict) (k : String) (v : PVal) :
    dmem (dinsert d k v) k = true := by
  induction d with
  | nil => simp [dinsert, dmem]
  | cons kv tl ih =>
    by_cases h : kv.1 = k
    · simp [dinsert, dmem, h]
    · simp [dinsert, dmem, h, ih]

theorem dmem_dinsert_ne (d : Dict) (k k' : String) (v : PVal) (h : k ≠ k') :
    dmem (dinsert d k' v) k = dmem d k := by
  induction d with
  | nil => simp [dinsert, dmem, Ne.symm h]
  | cons kv tl ih =>
    by_cases hk : kv.1 = k'
    · simp [dinsert, dmem, hk, Ne.symm h]
    · simp [dinsert, dmem, hk, ih]

theorem dinsert_dinsert_same (d : Dict) (k : String) (v : PVal) :
    dinsert (dinsert d k v) k v = dinsert d k v := by
  induction d with
  | nil => simp [dinsert]
  | cons kv tl ih =>
    by_cases h : kv.1 = k
    · simp [dinsert, h]
    · simp [dinsert, h, ih]

/-- C2: the claim is right and the effective code is wrong.  At a bin whose
display_mode is not a ViewModes member, extract_basic_info raises ValueError
and the effective extract_all_metadata (lines 1814-1819, the revision that
is in force at runtime) propagates it: the call raises and the caller gets
no document at all.  The guarded variant that the first two revisions
define (lines 588-600) returns exactly the document the claim describes,
with the basic_info error placeholder and the extraction_error field. -/
theorem extract_all_metadata_error_behavior :
    extractAllMetadataM envA badModeState =
      .error (badModeState, "ValueError: not a valid enum member") ∧
    (extractAllGuardedM envA badModeState).2 =
      [("basic_info", toPdictV [("error", .str "ValueError: not a valid enum member")]),
       ("extraction_error", .str "ValueError: not a valid enum member")] := by
  exact ⟨rfl, rfl⟩

/-- C3: the claim is right and the code is wrong.  A mob exposing one
attribute whose property read raises makes the callable test
callable(getattr(mob, attr_name)) raise outside every try block (line 1443
in extract_clips, line 1673 in extract_sequences), so the walk aborts
instead of omitting the attribute: both extractors propagate the raise. -/
theorem walk_raises_on_callable_check :
    extractClips badAttrFile = .error "boom: unreadable property" ∧
    extractSeqs badAttrFile = .error "boom: unreadable property" := by
  exact ⟨by decide, by decide⟩

theorem createBinsStep_tally (bs : BatchState) (r : String × String) :
    (createBinsStep bs r).successCount + (createBinsStep bs r).errorCount =
      bs.successCount + bs.errorCount + 1 := by
  unfold createBinsStep
  split <;> dsimp only <;> split <;> simp <;> omega

theorem createBins_foldl_tally (rows : List (String × String)) :
    ∀ bs : BatchState,
      (rows.foldl createBinsStep bs).successCount + (rows.foldl createBinsStep bs).errorCount =
        bs.successCount + bs.errorCount + rows.length := by
  induction rows with
  | nil => intro bs; simp
  | cons r tl ih =>
    intro bs
    simp only [List.foldl_cons, List.length_cons]
    rw [ih]
    rw [createBinsStep_tally]
    omega

/-- C9: batch bin creation processes every row with independent per-item
accounting (the final tally always sums to the row count, so no failure
stops the batch), a pre-existing target is rejected by the create-only
resolve step and counted as an error, and on the 3-row scenario whose 2nd
target already exists the tally is success_count = 2, error_count = 1 with
the failing name in the log. -/
theorem batch_creation_accounting :
    (∀ rows fs, (createBins rows fs).successCount + (createBins rows fs).errorCount
        = rows.length) ∧
    (createBins batchRows batchFs).successCount = 2 ∧
    (createBins batchRows batchFs).errorCount = 1 ∧
    (createBins batchRows batchFs).log.contains
      "ERROR: Error creating bin 'reel2.avb': Path already exists: /bins/reel2.avb" = true ∧
    (createBins batchRows batchFs).log.contains
      "Bin creation completed. Successfully created 2 bins with 1 errors." = true := by
  refine ⟨fun rows fs => ?_, by decide, by decide, by decide, by decide⟩
  unfold createBins
  simpa using createBins_foldl_tally rows
    { successCount := 0, errorCount := 0, log := [], fs := fs }

/-- C10: open_bin raises ValueError when no (truthy) bin path was supplied
at construction or in the call, and each extractor raises ValueError when
no bin file is open; in every case the error carries the state unchanged,
so the stored metadata mapping is untouched. -/
theorem precondition_value_errors :
    (∀ opener st arg, (st.binPath = Option.none ∨ st.binPath = some "") →
        (arg = Option.none ∨ arg = some "") →
        openBinM opener st arg = .error (st, "ValueError: No bin path specified")) ∧
    (∀ env st, st.binFile = Option.none →
        extractBasicInfoM env st = .error (st, "ValueError: No bin file is currently open")) ∧
    (∀ st, st.binFile = Option.none →
        extractClipsM st = .error (st, "ValueError: No bin file is currently open")) ∧
    (∀ st, st.binFile = Option.none →
        extractSeqsM st = .error (st, "ValueError: No bin file is currently open")) := by
  refine ⟨fun opener st arg hp ha => ?_, fun env st h => ?_, fun st h => ?_, fun st h => ?_⟩
  · unfold openBinM
    rcases ha with rfl | rfl <;> rcases hp with hp | hp <;> simp [hp]
  · unfold extractBasicInfoM; rw [h]
  · unfold extractClipsM; rw [h]
  · unfold extractSeqsM; rw [h]

def c10State : Explorer :=
  { binPath := Option.none, binFile := Option.none, metadata := [("probe", .int 7)] }

theorem precondition_value_errors_witness :
    openBinM (fun _ => .error "no fs") c10State Option.none =
      .error (c10State, "ValueError: No bin path specified") ∧
    extractBasicInfoM envA c10State =
      .error (c10State, "ValueError: No bin file is currently open") ∧
    extractClipsM c10State = .error (c10State, "ValueError: No bin file is currently open") ∧
    extractSeqsM c10State = .error (c10State, "ValueError: No bin file is currently open") := by
  refine ⟨?_, ?_, ?_, ?_⟩
  · exact precondition_value_errors.1 _ c10State Option.none (Or.inl rfl) (Or.inl rfl)
  · exact precondition_value_errors.2.1 envA c10State rfl
  · exact precondition_value_errors.2.2.1 c10State rfl
  · exact precondition_value_errors.2.2.2 c10State rfl

theorem binNameBlock_display_options (f : AvbFile) (bi bi' : Dict)
    (h : binNameBlock f bi = .ok bi') :
    dlookup bi' "display_options" = dlookup bi "display_options" := by
  unfold binNameBlock at h
  repeat' split at h
  all_goals first
    | (simp only [Except.ok.injEq] at h; subst h;
       first
         | rfl
         | exact dlookup_dinsert_ne _ _ _ _ (by decide)
         | rw [dlookup_dinsert_ne _ _ _ _ (by decide), dlookup_dinsert_ne _ _ _ _ (by decide)]
         | (split
            · rfl
            · exact dlookup_dinsert_ne _ _ _ _ (by decide)))
    | simp at h

theorem viewSettingsBlock_display_options (f : AvbFile) (bi bi' : Dict)
    (h : viewSettingsBlock f bi = .ok bi') :
    dlookup bi' "display_options" = dlookup bi "display_options" := by
  unfold viewSettingsBlock at h
  repeat' split at h
  all_goals first
    | (simp only [Except.ok.injEq] at h; subst h;
       first
         | rfl
         | exact dlookup_dinsert_ne _ _ _ _ (by decide)
         | rw [dlookup_dinsert_ne _ _ _ _ (by decide), dlookup_dinsert_ne _ _ _ _ (by decide)]
         | (split
            · rfl
            · exact dlookup_dinsert_ne _ _ _ _ (by decide)))
    | simp at h

theorem attributesBlock_display_options (f : AvbFile) (bi bi' : Dict)
    (h : attributesBlock f bi = .ok bi') :
    dlookup bi' "display_options" = dlookup bi "display_options" := by
  unfold attributesBlock at h
  repeat' split at h
  all_goals first
    | (simp only [Except.ok.injEq] at h; subst h;
       first
         | rfl
         | exact dlookup_dinsert_ne _ _ _ _ (by decide)
         | rw [dlookup_dinsert_ne _ _ _ _ (by decide), dlookup_dinsert_ne _ _ _ _ (by decide)]
         | (split
            · rfl
            · exact dlookup_dinsert_ne _ _ _ _ (by decide)))
    | simp at h

theorem itemCountsBlock_display_options (f : AvbFile) (bi bi' : Dict)
    (h : itemCountsBlock f bi = .ok bi') :
    dlookup bi' "display_options" = dlookup bi "display_options" := by
  unfold itemCountsBlock at h
  simp only [bind, Except.bind, pure, Except.pure] at h
  repeat' split at h
  all_goals first
    | (simp only [Except.ok.injEq] at h; subst h;
       first
         | rfl
         | exact dlookup_dinsert_ne _ _ _ _ (by decide)
         | rw [dlookup_dinsert_ne _ _ _ _ (by decide), dlookup_dinsert_ne _ _ _ _ (by decide)]
         | (split
            · rfl
            · exact dlookup_dinsert_ne _ _ _ _ (by decide)))
    | simp at h

theorem binTimesBlock_display_options (f : AvbFile) (bi bi' : Dict)
    (h : binTimesBlock f bi = .ok bi') :
    dlookup bi' "display_options" = dlookup bi "display_options" := by
  unfold binTimesBlock at h
  simp only [bind, Except.bind, pure, Except.pure] at h
  repeat' split at h
  all_goals first
    | (simp only [Except.ok.injEq] at h; subst h;
       first
         | rfl
         | exact dlookup_dinsert_ne _ _ _ _ (by decide)
         | rw [dlookup_dinsert_ne _ _ _ _ (by decide), dlookup_dinsert_ne _ _ _ _ (by decide)]
         | (split
            · rfl
            · exact dlookup_dinsert_ne _ _ _ _ (by decide)))
    | simp at h

theorem headerBlock_display_options (f : AvbFile) (bi bi' : Dict)
    (h : headerBlock f bi = .ok bi') :
    dlookup bi' "display_options" = dlookup bi "display_options" := by
  unfold headerBlock at h
  simp only [bind, Except.bind, pure, Except.pure] at h
  repeat' split at h
  all_goals first
    | (simp only [Except.ok.injEq] at h; subst h;
       first
         | rfl
         | exact dlookup_dinsert_ne _ _ _ _ (by decide)
         | rw [dlookup_dinsert_ne _ _ _ _ (by decide), dlookup_dinsert_ne _ _ _ _ (by decide)]
         | (split
            · rfl
            · exact dlookup_dinsert_ne _ _ _ _ (by decide)))
    | simp at h

theorem decodeOptions_eq (enum : List (String × Int)) (mask : Int) :
    decodeOptions enum mask =
      (enum.filter (fun p => (Int.land mask p.2) != 0)).map Prod.fst := by
  have haux : ∀ (l : List (String × Int)) (acc : List String),
      l.foldl (fun acc opt => if Int.land mask opt.2 ≠ 0 then acc ++ [opt.1] else acc) acc =
        acc ++ (l.filter (fun p => (Int.land mask p.2) != 0)).map Prod.fst := by
    intro l
    induction l with
    | nil => intro acc; simp
    | cons p tl ih =>
      intro acc
      rcases eq_or_ne (Int.land mask p.2) 0 with hp | hp
      · rw [List.foldl_cons, if_neg (by simp [hp]), ih]
        simp [List.filter_cons, hp]
      · rw [List.foldl_cons, if_pos hp, ih]
        simp [List.filter_cons, hp, List.append_assoc]
  simpa [decodeOptions] using haux enum []

/-- C5: when the bin exposes an int display_mask, extract_basic_info stores
under display_options exactly the names of the enum members whose bit is
set in the mask, in enum declaration order (the order-preserving filter of
the declaration list). -/
theorem display_options_decoding (env : ExtractEnv) (st : Explorer) (f : AvbFile) (mask : Int)
    (st' : Explorer) (bi : Dict)
    (hf : st.binFile = some f)
    (hm : getattrOpt (.obj f.content) "display_mask" = some (.ok (.int mask)))
    (hex : extractBasicInfoM env st = .ok (st', bi)) :
    dlookup bi "display_options" =
      some (plistOfStrs ((env.binDisplays.filter (fun p => (Int.land mask p.2) != 0)).map Prod.fst)) := by
  unfold extractBasicInfoM at hex
  simp only [hf] at hex
  cases hebi : extractBasicInfo env (st.binPath.getD "") f <;> simp [hebi] at hex
  case ok bi0 =>
    obtain ⟨-, rfl⟩ := hex
    unfold extractBasicInfo at hebi
    simp only [bind, Except.bind] at hebi
    cases hbs : biStart env (st.binPath.getD "") f <;> simp only [hbs] at hebi
    case error => exact absurd hebi (by simp)
    case ok bi1 =>
    have hD : displayOptionsBlock env f bi1 =
        dinsert bi1 "display_options" (plistOfStrs (decodeOptions env.binDisplays mask)) := by
      unfold displayOptionsBlock
      rw [hm]
      rfl
    rw [hD] at hebi
    cases h1 : binNameBlock f
        (dinsert bi1 "display_options" (plistOfStrs (decodeOptions env.binDisplays mask)))
      <;> simp only [h1] at hebi
    case error => exact absurd hebi (by simp)
    case ok bi3 =>
    cases h2 : viewSettingsBlock f bi3 <;> simp only [h2] at hebi
    case error => exact absurd hebi (by simp)
    case ok bi4 =>
    cases h3 : attributesBlock f bi4 <;> simp only [h3] at hebi
    case error => exact absurd hebi (by simp)
    case ok bi5 =>
    cases h4 : itemCountsBlock f bi5 <;> simp only [h4] at hebi
    case error => exact absurd hebi (by simp)
    case ok bi6 =>
    cases h5 : binTimesBlock f bi6 <;> simp only [h5] at hebi
    case error => exact absurd hebi (by simp)
    case ok bi7 =>
    rw [headerBlock_display_options f bi7 bi0 hebi,
        binTimesBlock_display_options f bi6 bi7 h5,
        itemCountsBlock_display_options f bi5 bi6 h4,
        attributesBlock_display_options f bi4 bi5 h3,
        viewSettingsBlock_display_options f bi3 bi4 h2,
        binNameBlock_display_options f _ bi3 h1,
        dlookup_dinsert_self, decodeOptions_eq]

def maskBi : Dict :=
  [("filename", .str "bin3.avb"), ("filepath", .str "/proj/bin3.avb"),
   ("file_size", .int 2048), ("last_modified", .str "2024-03-01 12:00:00"),
   ("view_mode", .str "LIST"),
   ("display_options", plistOfStrs ["OPT_A", "OPT_C"])]

theorem display_options_decoding_witness :
    dlookup maskBi "display_options" = some (plistOfStrs ["OPT_A", "OPT_C"]) := by
  have h := display_options_decoding envA maskState
    { content := maskContent, header := Option.none } 5
    { maskState with metadata := [("basic_info", toPdictV maskBi)] } maskBi
    rfl (by decide) (by decide)
  rw [show ((envA.binDisplays.filter (fun p => (Int.land 5 p.2) != 0)).map Prod.fst) =
      ["OPT_A", "OPT_C"] from by decide] at h
  exact h

/-- C8: with no output path, export_metadata_json derives the target by
replacing the bin file's extension with the fixed _metadata.json suffix;
exactly one write is attempted (no retry); an I/O failure is surfaced to
the caller as the raised wrapped error, and on success the returned value
is the written path. -/
theorem export_path_and_errors (env : ExtractEnv) (fsErr : String → Option String)
    (st : Explorer) (p : String) (txt : String)
    (hmd : st.metadata.isEmpty = false)
    (hp : st.binPath = some p)
    (hr : renderJson (toPdictV st.metadata) = .ok txt) :
    (exportMetadataJsonM env fsErr st Option.none).attempts =
      [splitextRoot p ++ "_metadata.json"] ∧
    (fsErr (splitextRoot p ++ "_metadata.json") = Option.none →
      (exportMetadataJsonM env fsErr st Option.none).result =
          .ok (splitextRoot p ++ "_metadata.json") ∧
        (exportMetadataJsonM env fsErr st Option.none).written = some txt) ∧
    (∀ m, fsErr (splitextRoot p ++ "_metadata.json") = some m →
      (exportMetadataJsonM env fsErr st Option.none).result =
          .error ("Error writing metadata to JSON: " ++ m) ∧
        (exportMetadataJsonM env fsErr st Option.none).written = Option.none) := by
  unfold exportMetadataJsonM
  simp only [hmd, hp, Bool.false_eq_true, if_false, Option.getD_some]
  refine ⟨?_, ?_, ?_⟩
  · cases hE : fsErr (splitextRoot p ++ "_metadata.json") <;> simp [hE, hr]
  · intro hE
    simp [hE, hr]
  · intro m hE
    simp [hE, hr]

def okFs : String → Option String := fun _ => Option.none

def badFs : String → Option String := fun _ => some "Permission denied"

def exportTxt : String :=
  "\x7b\n  \"basic_info\": \x7b\n    \"filename\": \"project.avb\",\n    \"file_size\": 2048\n  \x7d\n\x7d"

theorem export_path_and_errors_witness :
    (exportMetadataJsonM envA okFs readyState Option.none).attempts =
      ["/media/project_metadata.json"] ∧
    (exportMetadataJsonM envA okFs readyState Option.none).result =
      .ok "/media/project_metadata.json" ∧
    (exportMetadataJsonM envA okFs readyState Option.none).written = some exportTxt ∧
    (exportMetadataJsonM envA badFs readyState Option.none).result =
      .error "Error writing metadata to JSON: Permission denied" := by
  have h1 := export_path_and_errors envA okFs readyState "/media/project.avb" exportTxt
    (by decide) rfl (by decide)
  have h2 := export_path_and_errors envA badFs readyState "/media/project.avb" exportTxt
    (by decide) rfl (by decide)
  rw [show splitextRoot "/media/project.avb" ++ "_metadata.json" =
      "/media/project_metadata.json" from by decide] at h1 h2
  obtain ⟨ha1, hok, -⟩ := h1
  obtain ⟨-, -, hbad⟩ := h2
  obtain ⟨hr1, hw1⟩ := hok rfl
  obtain ⟨hr2, -⟩ := hbad "Permission denied" rfl
  exact ⟨ha1, hr1, hw1, hr2⟩

theorem dinsert_of_dlookup (d : Dict) (k : String) (v : PVal)
    (h : dlookup d k = some v) : dinsert d k v = d := by
  induction d with
  | nil => simp [dlookup] at h
  | cons kv tl ih =>
    obtain ⟨a, b⟩ := kv
    by_cases hk : a = k
    · subst hk
      simp [dlookup] at h
      simp [dinsert, h]
    · simp [dlookup, hk] at h
      simp [dinsert, hk, ih h]

/-- C7: running the full extraction a second time on the same unchanged
bin overwrites each metadata key with the identical value, so the second
call returns the same document and the same state, and the exported JSON
output of the two runs is byte-identical. -/
theorem extraction_idempotent (env : ExtractEnv) (st st1 : Explorer) (md1 : Dict)
    (h1 : extractAllMetadataM env st = .ok (st1, md1)) :
    extractAllMetadataM env st1 = .ok (st1, md1) ∧
    ∀ st2 md2 fsErr, extractAllMetadataM env st1 = .ok (st2, md2) →
      (exportMetadataJsonM env fsErr st2 Option.none).written =
      (exportMetadataJsonM env fsErr st1 Option.none).written := by
  have main : extractAllMetadataM env st1 = .ok (st1, md1) := by
    unfold extractAllMetadataM runStages at h1
    cases hb : extractBasicInfoM env st <;> simp only [hb] at h1
    case error => exact absurd h1 (by simp)
    case ok pA =>
    obtain ⟨stA, bi⟩ := pA
    cases hc : extractClipsM stA <;> simp only [hc] at h1
    case error => exact absurd h1 (by simp)
    case ok pB =>
    obtain ⟨stB, cs⟩ := pB
    cases hs : extractSeqsM stB <;> simp only [hs] at h1
    case error => exact absurd h1 (by simp)
    case ok pC =>
    obtain ⟨stC, ss⟩ := pC
    simp only [Except.ok.injEq, Prod.mk.injEq] at h1
    obtain ⟨rfl, rfl⟩ := h1
    -- unpack stage 1
    unfold extractBasicInfoM at hb
    cases hf : st.binFile <;> simp only [hf] at hb
    case none => exact absurd hb (by simp)
    case some f =>
    cases he : extractBasicInfo env (st.binPath.getD "") f <;> simp only [he] at hb
    case error => exact absurd hb (by simp)
    case ok bi0 =>
    simp only [Except.ok.injEq, Prod.mk.injEq] at hb
    obtain ⟨hbA, rfl⟩ := hb
    subst hbA
    -- unpack stage 2
    unfold extractClipsM at hc
    simp only at hc
    cases hcl : extractClips f <;> simp only [hcl] at hc
    case error => exact absurd hc (by simp)
    case ok cs0 =>
    simp only [Except.ok.injEq, Prod.mk.injEq] at hc
    obtain ⟨hcB, rfl⟩ := hc
    subst hcB
    -- unpack stage 3
    unfold extractSeqsM at hs
    simp only at hs
    cases hsq : extractSeqs f <;> simp only [hsq] at hs
    case error => exact absurd hs (by simp)
    case ok ss0 =>
    simp only [Except.ok.injEq, Prod.mk.injEq] at hs
    obtain ⟨hsC, rfl⟩ := hs
    subst hsC
    -- the second run recomputes the same stage outputs and re-inserts the
    -- same values, which leaves the metadata dict unchanged
    unfold extractAllMetadataM runStages
    unfold extractBasicInfoM
    simp only [hf, he]
    have hlb : dlookup (dinsert (dinsert (dinsert st.metadata "basic_info" (toPdictV bi0))
        "clips" (plistOfDicts cs0)) "sequences" (plistOfDicts ss0)) "basic_info" =
        some (toPdictV bi0) := by
      rw [dlookup_dinsert_ne _ _ _ _ (by decide), dlookup_dinsert_ne _ _ _ _ (by decide),
        dlookup_dinsert_self]
    rw [dinsert_of_dlookup _ _ _ hlb]
    unfold extractClipsM
    simp only [hf, hcl]
    have hlc : dlookup (dinsert (dinsert (dinsert st.metadata "basic_info" (toPdictV bi0))
        "clips" (plistOfDicts cs0)) "sequences" (plistOfDicts ss0)) "clips" =
        some (plistOfDicts cs0) := by
      rw [dlookup_dinsert_ne _ _ _ _ (by decide), dlookup_dinsert_self]
    rw [dinsert_of_dlookup _ _ _ hlc]
    unfold extractSeqsM
    simp only [hf, hsq]
    have hls : dlookup (dinsert (dinsert (dinsert st.metadata "basic_info" (toPdictV bi0))
        "clips" (plistOfDicts cs0)) "sequences" (plistOfDicts ss0)) "sequences" =
        some (plistOfDicts ss0) := by
      rw [dlookup_dinsert_self]
    rw [dinsert_of_dlookup _ _ _ hls]
  refine ⟨main, fun st2 md2 fsErr h2 => ?_⟩
  rw [main] at h2
  simp only [Except.ok.injEq, Prod.mk.injEq] at h2
  rw [h2.1]

theorem extraction_idempotent_witness :
    extractAllMetadataM envA ((extractAllMetadataM envA goodState).toOption.getD
      (goodState, [])).1 =
    .ok (((extractAllMetadataM envA goodState).toOption.getD (goodState, [])).1,
         ((extractAllMetadataM envA goodState).toOption.getD (goodState, [])).2) := by
  have h := extraction_idempotent envA goodState
    ((extractAllMetadataM envA goodState).toOption.getD (goodState, [])).1
    ((extractAllMetadataM envA goodState).toOption.getD (goodState, [])).2
    (by decide)
  exact h.1

theorem charValidRange (c : Char) :
    c.toNat < 55296 ∨ (57343 < c.toNat ∧ c.toNat < 1114112) := c.valid

theorem toNat_ofNat_valid (n : Nat) (h : n.isValidChar) : (Char.ofNat n).toNat = n := by
  simp [Char.ofNat, dif_pos h, Char.ofNatAux, Char.toNat, UInt32.toNat, BitVec.toNat_ofNatLt]

theorem toNat_ofNat_small (n : Nat) (h : n < 55296) : (Char.ofNat n).toNat = n :=
  toNat_ofNat_valid n (Or.inl h)

theorem hexVal_hexDigitChar : ∀ x < 16, hexVal (hexDigitChar x) = some x := by decide

theorem hex4_recombine (n : Nat) (h : n < 65536) :
    ((n / 4096 % 16 * 16 + n / 256 % 16) * 16 + n / 16 % 16) * 16 + n % 16 = n := by
  omega

theorem skipWs_cons_ws (c : Char) (h : isWsChar c = true) (cs : List Char) :
    skipWs (c :: cs) = skipWs cs := by
  simp [skipWs, h]

theorem skipWs_cons_not (c : Char) (h : isWsChar c = false) (cs : List Char) :
    skipWs (c :: cs) = c :: cs := by
  simp [skipWs, h]

theorem skipWs_replicate_space (k : Nat) (cs : List Char) :
    skipWs (List.replicate k ' ' ++ cs) = skipWs cs := by
  induction k with
  | zero => simp
  | succ m ih =>
    rw [List.replicate_succ, List.cons_append, skipWs_cons_ws _ (by decide), ih]

theorem skipWs_indent (lvl : Nat) (cs : List Char) :
    skipWs (indentChars lvl ++ cs) = skipWs cs := by
  unfold indentChars
  exact skipWs_replicate_space _ _

theorem skipWs_nl_indent (lvl : Nat) (cs : List Char) :
    skipWs ('\n' :: (indentChars lvl ++ cs)) = skipWs cs := by
  rw [skipWs_cons_ws _ (by decide), skipWs_indent]

theorem parseV_congr_ws (fuel : Nat) (x y : List Char) (h : skipWs x = skipWs y) :
    parseV fuel x = parseV fuel y := by
  cases fuel with
  | zero => rfl
  | succ fl => unfold parseV; rw [h]

theorem hex4FromChars_digits (n : Nat) (h : n < 65536) :
    hex4FromChars (hexDigitChar (n / 4096 % 16)) (hexDigitChar (n / 256 % 16))
      (hexDigitChar (n / 16 % 16)) (hexDigitChar (n % 16)) = some n := by
  have h1 := hexVal_hexDigitChar (n / 4096 % 16) (by omega)
  have h2 := hexVal_hexDigitChar (n / 256 % 16) (by omega)
  have h3 := hexVal_hexDigitChar (n / 16 % 16) (by omega)
  have h4 := hexVal_hexDigitChar (n % 16) (by omega)
  simp [hex4FromChars, h1, h2, h3, h4]
  omega

theorem parseUEscape_bmp (n : Nat) (h : n < 65536) (hs : ¬(55296 ≤ n ∧ n < 57344))
    (tail : List Char) :
    parseUEscape (hex4 n ++ tail) = some (Char.ofNat n, tail) := by
  simp only [hex4, List.cons_append, List.nil_append, parseUEscape, hex4FromChars_digits n h]
  rw [if_neg (by omega), if_neg (by omega)]

theorem parseUEscape_surrogate (n m : Nat)
    (hn1 : 55296 ≤ n) (hn2 : n < 56320) (hm1 : 56320 ≤ m) (hm2 : m < 57344)
    (tail : List Char) :
    parseUEscape (hex4 n ++ '\\' :: 'u' :: (hex4 m ++ tail)) =
      some (Char.ofNat ((n - 55296) * 1024 + (m - 56320) + 65536), tail) := by
  simp only [hex4, List.cons_append, List.nil_append, parseUEscape,
    hex4FromChars_digits n (by omega), hex4FromChars_digits m (by omega)]
  rw [if_pos ⟨hn1, hn2⟩]
  rw [if_pos (by simp), if_pos ⟨hm1, hm2⟩]

theorem parseStrBody_escape (c : Char) (fuel : Nat) (tail acc : List Char) :
    parseStrBody (fuel + 1) (escapeChar c ++ tail) acc = parseStrBody fuel tail (c :: acc) := by
  by_cases h1 : c = '"'
  · subst h1; rfl
  by_cases h2 : c = '\\'
  · subst h2; rfl
  by_cases h3 : c = '\n'
  · subst h3; rfl
  by_cases h4 : c = '\t'
  · subst h4; rfl
  by_cases h5 : c = '\r'
  · subst h5; rfl
  by_cases h6 : c.toNat = 8
  · have hc : c = Char.ofNat 8 := by rw [← h6, Char.ofNat_toNat]
    subst hc; rfl
  by_cases h7 : c.toNat = 12
  · have hc : c = Char.ofNat 12 := by rw [← h7, Char.ofNat_toNat]
    subst hc; rfl
  by_cases h8 : c.toNat < 32 ∨ 127 ≤ c.toNat
  · have hne : ¬(c.toNat < 32) ∨ True := Or.inr trivial
    by_cases h9 : c.toNat ≤ 65535
    · -- basic-plane u-escape
      have hesc : escapeChar c = '\\' :: 'u' :: hex4 c.toNat := by
        unfold escapeChar
        rw [if_neg h1, if_neg h2, if_neg h3, if_neg h4, if_neg h5, if_neg h6, if_neg h7,
          if_pos h8, if_pos h9]
      rw [hesc, List.cons_append, List.cons_append, parseStrBody]
      rw [if_neg (by decide), if_pos rfl]
      have hu : parseEsc ('u' :: (hex4 c.toNat ++ tail)) = some (Char.ofNat c.toNat, tail) := by
        rw [parseEsc, if_pos rfl]
        exact parseUEscape_bmp c.toNat (by omega)
          (by rcases charValidRange c with hv | hv <;> omega) tail
      rw [hu, Char.ofNat_toNat]
    · -- astral-plane surrogate pair
      have hlt : c.toNat < 1114112 := by
        rcases charValidRange c with hv | hv <;> omega
      have hesc : escapeChar c =
          ('\\' :: 'u' :: hex4 (55296 + (c.toNat - 65536) / 1024)) ++
          ('\\' :: 'u' :: hex4 (56320 + (c.toNat - 65536) % 1024)) := by
        unfold escapeChar
        rw [if_neg h1, if_neg h2, if_neg h3, if_neg h4, if_neg h5, if_neg h6, if_neg h7,
          if_pos h8, if_neg h9]
      rw [hesc]
      rw [List.append_assoc, List.cons_append, List.cons_append, parseStrBody]
      rw [if_neg (by decide), if_pos rfl]
      have hu : parseEsc ('u' :: (hex4 (55296 + (c.toNat - 65536) / 1024) ++
          ('\\' :: 'u' :: hex4 (56320 + (c.toNat - 65536) % 1024) ++ tail))) =
          some (c, tail) := by
        rw [parseEsc, if_pos rfl]
        rw [show hex4 (55296 + (c.toNat - 65536) / 1024) ++
            ('\\' :: 'u' :: hex4 (56320 + (c.toNat - 65536) % 1024) ++ tail) =
            hex4 (55296 + (c.toNat - 65536) / 1024) ++
            '\\' :: 'u' :: (hex4 (56320 + (c.toNat - 65536) % 1024) ++ tail) from by simp]
        rw [parseUEscape_surrogate _ _ (by omega) (by omega) (by omega) (by omega)]
        have harith : (55296 + (c.toNat - 65536) / 1024 - 55296) * 1024 +
            (56320 + (c.toNat - 65536) % 1024 - 56320) + 65536 = c.toNat := by omega
        rw [harith, Char.ofNat_toNat]
      rw [hu]
  · -- plain printable character
    have hesc : escapeChar c = [c] := by
      unfold escapeChar
      rw [if_neg h1, if_neg h2, if_neg h3, if_neg h4, if_neg h5, if_neg h6, if_neg h7, if_neg h8]
    rw [hesc, List.cons_append, List.nil_append, parseStrBody]
    rw [if_neg h1, if_neg h2, if_neg (by omega)]

theorem parseStrBody_escaped (l : List Char) : ∀ (fuel : Nat) (acc rest : List Char),
    l.length < fuel →
    parseStrBody fuel ((l.flatMap escapeChar) ++ '"' :: rest) acc =
      some (String.mk (acc.reverse ++ l), rest) := by
  induction l with
  | nil =>
    intro fuel acc rest hf
    cases fuel with
    | zero => omega
    | succ fl =>
      simp [parseStrBody]
  | cons c tl ih =>
    intro fuel acc rest hf
    cases fuel with
    | zero => simp at hf
    | succ fl =>
      rw [List.flatMap_cons, List.append_assoc, parseStrBody_escape, ih fl (c :: acc) rest
        (by simp at hf; omega)]
      simp

theorem natReprAux_append (fuel : Nat) : ∀ (n : Nat) (acc : List Char),
    natReprAux fuel n acc = natReprAux fuel n [] ++ acc := by
  induction fuel with
  | zero => intro n acc; simp [natReprAux]
  | succ fl ih =>
    intro n acc
    by_cases h : n < 10
    · simp [natReprAux, h]
    · rw [natReprAux, if_neg h, ih (n / 10) (Char.ofNat (48 + n % 10) :: acc),
        natReprAux, if_neg h, ih (n / 10) [Char.ofNat (48 + n % 10)]]
      simp

theorem natReprAux_fuel_irrel (n : Nat) : ∀ fuel, n < fuel →
    natReprAux fuel n [] = natReprChars n := by
  induction n using Nat.strong_induction_on with
  | _ n ih =>
    intro fuel hf
    cases fuel with
    | zero => omega
    | succ fl =>
      have hnc : natReprChars n = natReprAux (n + 1) n [] := rfl
      by_cases h : n < 10
      · rw [hnc, natReprAux, if_pos h, natReprAux, if_pos h]
      · have e1 : natReprAux (fl + 1) n [] =
            natReprChars (n / 10) ++ [Char.ofNat (48 + n % 10)] := by
          rw [natReprAux, if_neg h, natReprAux_append, ih (n / 10) (by omega) fl (by omega)]
        have e2 : natReprAux (n + 1) n [] =
            natReprChars (n / 10) ++ [Char.ofNat (48 + n % 10)] := by
          rw [natReprAux, if_neg h, natReprAux_append, ih (n / 10) (by omega) n (by omega)]
        rw [hnc, e1, e2]

theorem natReprChars_decomp (n : Nat) (h : ¬ n < 10) :
    natReprChars n = natReprChars (n / 10) ++ [Char.ofNat (48 + n % 10)] := by
  have hnc : natReprChars n = natReprAux (n + 1) n [] := rfl
  rw [hnc, natReprAux, if_neg h, natReprAux_append,
    natReprAux_fuel_irrel (n / 10) n (by omega)]

theorem toNat_digitChar (k : Nat) (h : k < 10) : (Char.ofNat (48 + k)).toNat = 48 + k :=
  toNat_ofNat_small _ (by omega)

theorem natReprChars_digits (n : Nat) : ∀ c ∈ natReprChars n, isDigitChar c = true := by
  induction n using Nat.strong_induction_on with
  | _ n ih =>
    by_cases h : n < 10
    · intro c hc
      have hnc : natReprChars n = [Char.ofNat (48 + n)] := by
        have : natReprChars n = natReprAux (n + 1) n [] := rfl
        rw [this, natReprAux, if_pos h]
      rw [hnc] at hc
      simp at hc
      subst hc
      simp [isDigitChar, toNat_digitChar n h]
      omega
    · intro c hc
      rw [natReprChars_decomp n h] at hc
      rcases List.mem_append.mp hc with hc | hc
      · exact ih (n / 10) (by omega) c hc
      · simp at hc
        subst hc
        simp [isDigitChar, toNat_digitChar (n % 10) (by omega)]
        omega

theorem natReprChars_ne_nil (n : Nat) : natReprChars n ≠ [] := by
  by_cases h : n < 10
  · have hnc : natReprChars n = [Char.ofNat (48 + n)] := by
      have : natReprChars n = natReprAux (n + 1) n [] := rfl
      rw [this, natReprAux, if_pos h]
    simp [hnc]
  · rw [natReprChars_decomp n h]
    simp

theorem charToNat_inj (a b : Char) (h : a.toNat = b.toNat) : a = b := by
  rw [← Char.ofNat_toNat a, h, Char.ofNat_toNat]

theorem stringMk_data (s : String) : String.mk s.data = s := rfl

theorem escapeChar_length_pos (c : Char) : 0 < (escapeChar c).length := by
  unfold escapeChar
  repeat' split
  all_goals simp

theorem length_le_flatMap_escape (l : List Char) :
    l.length ≤ (l.flatMap escapeChar).length := by
  induction l with
  | nil => simp
  | cons c tl ih =>
    rw [List.flatMap_cons, List.length_cons, List.length_append]
    have := escapeChar_length_pos c
    omega

theorem parseStrBody_quote (s : String) (fuel : Nat) (rest : List Char)
    (hf : s.data.length < fuel) :
    parseStrBody fuel (s.data.flatMap escapeChar ++ '"' :: rest) [] = some (s, rest) := by
  rw [parseStrBody_escaped s.data fuel [] rest hf]
  simp [stringMk_data]

theorem parseDigits_digits_append (ds : List Char) (hds : ∀ c ∈ ds, isDigitChar c = true) :
    ∀ (tail : List Char) (a : Nat),
      parseDigits (ds ++ tail) a =
        parseDigits tail (ds.foldl (fun a c => a * 10 + (c.toNat - 48)) a) := by
  induction ds with
  | nil => intro tail a; simp
  | cons c tl ih =>
    intro tail a
    rw [List.cons_append, parseDigits, if_pos (hds c (by simp)), List.foldl_cons]
    exact ih (fun x hx => hds x (by simp [hx])) tail _

theorem parseDigits_stop (tail : List Char) (h : noDigitHead tail = true) (a : Nat) :
    parseDigits tail a = (a, tail) := by
  cases tail with
  | nil => rfl
  | cons c cs =>
    simp only [noDigitHead, Bool.not_eq_true'] at h
    rw [parseDigits, if_neg (by simp [h])]

theorem foldDigits_natReprChars (n : Nat) :
    ∀ a, (natReprChars n).foldl (fun a c => a * 10 + (c.toNat - 48)) a =
      a * 10 ^ (natReprChars n).length + n := by
  induction n using Nat.strong_induction_on with
  | _ n ih =>
    intro a
    by_cases h : n < 10
    · have hnc : natReprChars n = [Char.ofNat (48 + n)] := by
        have h0 : natReprChars n = natReprAux (n + 1) n [] := rfl
        rw [h0, natReprAux, if_pos h]
      rw [hnc]
      simp only [List.foldl_cons, List.foldl_nil, List.length_cons, List.length_nil,
        toNat_digitChar n h, pow_one]
      omega
    · rw [natReprChars_decomp n h, List.foldl_append, ih (n / 10) (by omega),
        List.length_append]
      simp only [List.foldl_cons, List.foldl_nil, List.length_cons, List.length_nil,
        toNat_digitChar (n % 10) (by omega)]
      have harith : (a * 10 ^ (natReprChars (n / 10)).length + n / 10) * 10 + (48 + n % 10 - 48) =
          a * (10 ^ (natReprChars (n / 10)).length * 10) + (n / 10 * 10 + n % 10) := by
        have : 48 + n % 10 - 48 = n % 10 := by omega
        rw [this]; ring
      rw [harith]
      have hdm : n / 10 * 10 + n % 10 = n := by omega
      rw [hdm, pow_succ]

theorem parseDigits_natReprChars (n : Nat) (tail : List Char) (h : noDigitHead tail = true) :
    parseDigits (natReprChars n ++ tail) 0 = (n, tail) := by
  rw [parseDigits_digits_append _ (natReprChars_digits n), parseDigits_stop tail h,
    foldDigits_natReprChars]
  simp

theorem digit_head_facts (d : Char) (hd : isDigitChar d = true) :
    isWsChar d = false ∧ d ≠ '"' ∧ d ≠ '[' ∧ d ≠ lbrace ∧ d ≠ 'n' ∧ d ≠ 't' ∧ d ≠ 'f'
      ∧ d ≠ ']' ∧ d ≠ '-' := by
  simp only [isDigitChar, Bool.and_eq_true, decide_eq_true_eq] at hd
  refine ⟨?_, ?_, ?_, ?_, ?_, ?_, ?_, ?_, ?_⟩
  · simp only [isWsChar, Bool.or_eq_false_iff, decide_eq_false_iff_not]
    refine ⟨⟨⟨?_, ?_⟩, ?_⟩, ?_⟩ <;> intro hq <;> rw [hq] at hd <;> revert hd <;> decide
  all_goals intro hq; rw [hq] at hd; revert hd; decide

theorem natReprChars_head (m : Nat) :
    ∃ d ds, natReprChars m = d :: ds ∧ isDigitChar d = true := by
  cases hnc : natReprChars m with
  | nil => exact absurd hnc (natReprChars_ne_nil m)
  | cons d ds =>
    exact ⟨d, ds, rfl, natReprChars_digits m d (by rw [hnc]; simp)⟩

theorem parseNum_intRepr (n : Int) (tail : List Char) (ht : noDigitHead tail = true) :
    parseNum (intReprChars n ++ tail) = some (.int n, tail) := by
  by_cases hn : n < 0
  · obtain ⟨d, ds, hds, hd⟩ := natReprChars_head (-n).toNat
    have hpd := parseDigits_natReprChars (-n).toNat tail ht
    rw [hds] at hpd
    simp only [List.cons_append] at hpd
    have hL : intReprChars n ++ tail = '-' :: (d :: (ds ++ tail)) := by
      rw [intReprChars, if_pos hn, hds]; simp
    rw [hL]
    simp only [parseNum, if_pos (show ('-' : Char) = '-' from rfl), hd, if_pos hd, hpd]
    have h2 : -(((-n).toNat : ℕ) : ℤ) = n := by omega
    rw [h2]
    simp
  · obtain ⟨d, ds, hds, hd⟩ := natReprChars_head n.toNat
    have hpd := parseDigits_natReprChars n.toNat tail ht
    rw [hds] at hpd
    simp only [List.cons_append] at hpd
    have hL : intReprChars n ++ tail = d :: (ds ++ tail) := by
      rw [intReprChars, if_neg hn, hds]; simp
    rw [hL]
    simp only [parseNum, if_neg (digit_head_facts d hd).2.2.2.2.2.2.2.2, if_pos hd, hpd]
    have h2 : ((n.toNat : ℕ) : ℤ) = n := by omega
    rw [h2]

theorem parseV_num (n : Int) (tail : List Char) (fuel : Nat) (ht : noDigitHead tail = true) :
    parseV (fuel + 1) (intReprChars n ++ tail) = some (.int n, tail) := by
  have hnum := parseNum_intRepr n tail ht
  by_cases hn : n < 0
  · have hskip : skipWs (intReprChars n ++ tail) =
        '-' :: (natReprChars (-n).toNat ++ tail) := by
      rw [intReprChars, if_pos hn, List.cons_append, skipWs_cons_not _ (by decide)]
    simp only [parseV, hskip, if_neg (show ¬(('-' : Char) = '"') from by decide),
      if_neg (show ¬(('-' : Char) = '[') from by decide),
      if_neg (show ¬(('-' : Char) = lbrace) from by decide),
      if_neg (show ¬(('-' : Char) = 'n') from by decide),
      if_neg (show ¬(('-' : Char) = 't') from by decide),
      if_neg (show ¬(('-' : Char) = 'f') from by decide)]
    rw [intReprChars, if_pos hn, List.cons_append] at hnum
    exact hnum
  · obtain ⟨d, ds, hds, hd⟩ := natReprChars_head n.toNat
    obtain ⟨hws, hq, hbk, hbr, hnn, htt, hff, _, _⟩ := digit_head_facts d hd
    have hskip : skipWs (intReprChars n ++ tail) = d :: (ds ++ tail) := by
      rw [intReprChars, if_neg hn, hds, List.cons_append, skipWs_cons_not _ hws]
    simp only [parseV, hskip, if_neg hq, if_neg hbk, if_neg hbr, if_neg hnn,
      if_neg htt, if_neg hff]
    rw [intReprChars, if_neg hn, hds, List.cons_append] at hnum
    exact hnum

theorem noDigitHead_cons (c : Char) (X : List Char) (h : isDigitChar c = false) :
    noDigitHead (c :: X) = true := by
  simp [noDigitHead, h]

theorem pfuel_pos (v : PVal) : 0 < pfuel v := by
  cases v <;> simp [pfuel]

theorem lfuel_pos (l : VList) : 0 < lfuel l := by
  cases l <;> simp [lfuel]

theorem efuel_pos (e : Entries) : 0 < efuel e := by
  cases e <;> simp [efuel]

theorem parseArrStart_close (fuel : Nat) (X : List Char) :
    parseArrStart (fuel + 1) (']' :: X) = some (.plist .nil, X) := rfl

theorem parseArrRest_close (fuel : Nat) (X : List Char) :
    parseArrRest (fuel + 1) (']' :: X) = some (.nil, X) := rfl

theorem parseArrRest_comma (fuel : Nat) (X : List Char) :
    parseArrRest (fuel + 1) (',' :: X) =
      (match parseV fuel X with
       | some (v, r) =>
         match parseArrRest fuel r with
         | some (tl, r2) => some (.cons v tl, r2)
         | Option.none => Option.none
       | Option.none => Option.none) := rfl

theorem parseObjStart_close (fuel : Nat) (X : List Char) :
    parseObjStart (fuel + 1) (rbrace :: X) = some (.pdict .nil, X) := rfl

theorem parseObjStart_quote (fuel : Nat) (X : List Char) :
    parseObjStart (fuel + 1) ('"' :: X) =
      (match parsePair fuel ('"' :: X) with
       | some (k, v, r) =>
         match parseObjRest fuel r with
         | some (prs, r2) =>
           some (.pdict (((k, v) :: prs).foldl (fun acc kv => entInsert acc kv.1 kv.2) .nil), r2)
         | Option.none => Option.none
       | Option.none => Option.none) := rfl

theorem parseObjRest_close (fuel : Nat) (X : List Char) :
    parseObjRest (fuel + 1) (rbrace :: X) = some ([], X) := rfl

theorem parseObjRest_comma (fuel : Nat) (X : List Char) :
    parseObjRest (fuel + 1) (',' :: X) =
      (match parsePair fuel X with
       | some (k, v, r) =>
         match parseObjRest fuel r with
         | some (prs, r2) => some ((k, v) :: prs, r2)
         | Option.none => Option.none
       | Option.none => Option.none) := rfl

theorem parsePair_quote (fuel : Nat) (X : List Char) :
    parsePair (fuel + 1) ('"' :: X) =
      (match parseStrBody (X.length + 1) X [] with
       | some (k, r) =>
         match skipWs r with
         | colon :: r2 =>
           if colon = ':' then
             match parseV fuel r2 with
             | some (v, r3) => some (k, v, r3)
             | Option.none => Option.none
           else Option.none
         | [] => Option.none
       | Option.none => Option.none) := rfl

theorem parseArrStart_cons (fuel : Nat) (c : Char) (X : List Char)
    (hws : isWsChar c = false) (hc : c ≠ ']') :
    parseArrStart (fuel + 1) (c :: X) =
      (match parseV fuel (c :: X) with
       | some (v, r) =>
         match parseArrRest fuel r with
         | some (tl, r2) => some (.plist (.cons v tl), r2)
         | Option.none => Option.none
       | Option.none => Option.none) := by
  simp only [parseArrStart, skipWs_cons_not c hws]
  split
  · next rest heq =>
    rw [List.cons.injEq] at heq
    exact absurd heq.1 hc
  · rfl

theorem renderV_head (v : PVal) (lvl : Nat) (cs : List Char)
    (h : renderV v lvl = .ok cs) :
    ∃ c t, cs = c :: t ∧ isWsChar c = false ∧ c ≠ ']' := by
  cases v with
  | str s =>
    simp only [renderV, Except.ok.injEq] at h
    subst h
    exact ⟨'"', _, rfl, by decide, by decide⟩
  | int n =>
    simp only [renderV, Except.ok.injEq] at h
    subst h
    by_cases hn : n < 0
    · rw [intReprChars, if_pos hn]
      exact ⟨'-', _, rfl, by decide, by decide⟩
    · obtain ⟨d, ds, hds, hd⟩ := natReprChars_head n.toNat
      rw [intReprChars, if_neg hn, hds]
      obtain ⟨hws, _, _, _, _, _, _, hrb, _⟩ := digit_head_facts d hd
      exact ⟨d, ds, rfl, hws, hrb⟩
  | bool b =>
    cases b <;> simp only [renderV, Except.ok.injEq] at h <;> subst h
    · exact ⟨'f', _, rfl, by decide, by decide⟩
    · exact ⟨'t', _, rfl, by decide, by decide⟩
  | pynone =>
    simp only [renderV, Except.ok.injEq] at h
    subst h
    exact ⟨'n', _, rfl, by decide, by decide⟩
  | dt f => exact absurd h (by simp [renderV])
  | gen items ie => exact absurd h (by simp [renderV])
  | obj o => exact absurd h (by simp [renderV])
  | plist l =>
    cases l with
    | nil =>
      simp only [renderV, Except.ok.injEq] at h
      subst h
      exact ⟨'[', _, rfl, by decide, by decide⟩
    | cons v tl =>
      simp only [renderV, bind, Except.bind] at h
      repeat' split at h
      all_goals first
        | (simp only [Except.ok.injEq] at h; subst h
           exact ⟨'[', _, rfl, by decide, by decide⟩)
        | simp at h
  | pdict e =>
    cases e with
    | nil =>
      simp only [renderV, Except.ok.injEq] at h
      subst h
      exact ⟨lbrace, _, rfl, by decide, by decide⟩
    | cons k v tl =>
      simp only [renderV, bind, Except.bind] at h
      repeat' split at h
      all_goals first
        | (simp only [Except.ok.injEq] at h; subst h
           exact ⟨lbrace, _, rfl, by decide, by decide⟩)
        | simp at h

theorem renderItems_shape (l : VList) (lvl : Nat) (cs : List Char)
    (h : renderItems l lvl = .ok cs) :
    cs = [] ∨ ∃ t, cs = ',' :: t := by
  cases l with
  | nil =>
    simp only [renderItems, Except.ok.injEq] at h
    exact Or.inl h.symm
  | cons v tl =>
    simp only [renderItems, bind, Except.bind] at h
    repeat' split at h
    all_goals first
      | (simp only [Except.ok.injEq] at h; subst h; exact Or.inr ⟨_, rfl⟩)
      | simp at h

theorem renderEntries_shape (e : Entries) (lvl : Nat) (cs : List Char)
    (h : renderEntries e lvl = .ok cs) :
    cs = [] ∨ ∃ t, cs = ',' :: t := by
  cases e with
  | nil =>
    simp only [renderEntries, Except.ok.injEq] at h
    exact Or.inl h.symm
  | cons k v tl =>
    simp only [renderEntries, bind, Except.bind] at h
    repeat' split at h
    all_goals first
      | (simp only [Except.ok.injEq] at h; subst h; exact Or.inr ⟨_, rfl⟩)
      | simp at h

/-- The key-value pairs of an entry list, in order. -/
def pairsOf : Entries → List (String × PVal)
  | .nil => []
  | .cons k v tl => (k, v) :: pairsOf tl

theorem eappend_nil : ∀ (e : Entries), eappend e .nil = e
  | .nil => rfl
  | .cons k v tl => by rw [eappend, eappend_nil tl]

theorem entHasKey_entAppend : ∀ (a : Entries) (k : String) (v : PVal) (key : String),
    entHasKey (entAppend a k v) key = (entHasKey a key || k == key)
  | .nil, k, v, key => by simp [entAppend, entHasKey]
  | .cons k0 v0 tl, k, v, key => by
    rw [entAppend, entHasKey, entHasKey_entAppend tl k v key, entHasKey]
    cases k0 == key <;> simp

theorem eappend_entAppend : ∀ (a : Entries) (k : String) (v : PVal) (t : Entries),
    eappend (entAppend a k v) t = eappend a (.cons k v t)
  | .nil, _, _, _ => rfl
  | .cons k0 v0 tl, k, v, t => by
    rw [entAppend, eappend, eappend_entAppend tl k v t, eappend]

theorem foldl_entInsert_pairs_general : ∀ (e : Entries) (acc : Entries),
    (∀ key, entHasKey e key = true → entHasKey acc key = false) →
    entKeysNodup e = true →
    (pairsOf e).foldl (fun acc kv => entInsert acc kv.1 kv.2) acc = eappend acc e
  | .nil, acc, _, _ => by
    rw [eappend_nil]
    rfl
  | .cons k v tl, acc, hdis, hnd => by
    simp only [entKeysNodup, Bool.and_eq_true, Bool.not_eq_true'] at hnd
    have hknot : entHasKey acc k = false :=
      hdis k (by rw [entHasKey]; simp)
    rw [pairsOf, List.foldl_cons]
    have hins : entInsert acc k v = entAppend acc k v := by
      rw [entInsert, hknot]
      simp
    rw [hins]
    have hdis2 : ∀ key, entHasKey tl key = true → entHasKey (entAppend acc k v) key = false := by
      intro key hkey
      rw [entHasKey_entAppend]
      have hacc : entHasKey acc key = false :=
        hdis key (by rw [entHasKey, hkey]; simp)
      have hne : (k == key) = false := by
        by_cases hkk : k = key
        · rw [hkk] at hnd
          exact absurd hkey (by rw [hnd.1]; simp)
        · simp [hkk]
      rw [hacc, hne]
      rfl
    rw [foldl_entInsert_pairs_general tl (entAppend acc k v) hdis2 hnd.2, eappend_entAppend]

theorem foldl_entInsert_pairs (e : Entries) (hnd : entKeysNodup e = true) :
    (pairsOf e).foldl (fun acc kv => entInsert acc kv.1 kv.2) .nil = e :=
  foldl_entInsert_pairs_general e .nil (fun _ _ => rfl) hnd

theorem parseV_quote (fuel : Nat) (X : List Char) :
    parseV (fuel + 1) ('"' :: X) =
      (match parseStrBody (X.length + 1) X [] with
       | some (s, r) => some (.str s, r)
       | Option.none => Option.none) := rfl

theorem parseV_true (fuel : Nat) (X : List Char) :
    parseV (fuel + 1) ('t' :: 'r' :: 'u' :: 'e' :: X) = some (.bool true, X) := rfl

theorem parseV_false (fuel : Nat) (X : List Char) :
    parseV (fuel + 1) ('f' :: 'a' :: 'l' :: 's' :: 'e' :: X) = some (.bool false, X) := rfl

theorem parseV_null (fuel : Nat) (X : List Char) :
    parseV (fuel + 1) ('n' :: 'u' :: 'l' :: 'l' :: X) = some (.pynone, X) := rfl

theorem parseV_openBracket (fuel : Nat) (X : List Char) :
    parseV (fuel + 1) ('[' :: X) = parseArrStart fuel X := rfl

theorem parseV_openBrace (fuel : Nat) (X : List Char) :
    parseV (fuel + 1) (lbrace :: X) = parseObjStart fuel X := rfl

theorem parseArrStart_congr_ws (fuel : Nat) (x y : List Char) (h : skipWs x = skipWs y) :
    parseArrStart fuel x = parseArrStart fuel y := by
  cases fuel with
  | zero => rfl
  | succ fl => unfold parseArrStart; rw [h]

theorem parseArrRest_congr_ws (fuel : Nat) (x y : List Char) (h : skipWs x = skipWs y) :
    parseArrRest fuel x = parseArrRest fuel y := by
  cases fuel with
  | zero => rfl
  | succ fl => unfold parseArrRest; rw [h]

theorem parseObjStart_congr_ws (fuel : Nat) (x y : List Char) (h : skipWs x = skipWs y) :
    parseObjStart fuel x = parseObjStart fuel y := by
  cases fuel with
  | zero => rfl
  | succ fl => unfold parseObjStart; rw [h]

theorem parseObjRest_congr_ws (fuel : Nat) (x y : List Char) (h : skipWs x = skipWs y) :
    parseObjRest fuel x = parseObjRest fuel y := by
  cases fuel with
  | zero => rfl
  | succ fl => unfold parseObjRest; rw [h]

theorem parsePair_render (k : String) (sv TAIL2 : List Char) (fl3 : Nat) (v : PVal)
    (hv : parseV fl3 (sv ++ TAIL2) = some (v, TAIL2)) :
    parsePair (fl3 + 1) (quoteJsonChars k ++ (':' :: (' ' :: (sv ++ TAIL2)))) =
      some (k, v, TAIL2) := by
  have hL : quoteJsonChars k ++ (':' :: (' ' :: (sv ++ TAIL2))) =
      '"' :: (k.data.flatMap escapeChar ++ ('"' :: (':' :: (' ' :: (sv ++ TAIL2))))) := by
    rw [quoteJsonChars]
    simp
  rw [hL, parsePair_quote]
  have hq : parseStrBody
      ((k.data.flatMap escapeChar ++ ('"' :: (':' :: (' ' :: (sv ++ TAIL2))))).length + 1)
      (k.data.flatMap escapeChar ++ ('"' :: (':' :: (' ' :: (sv ++ TAIL2))))) [] =
      some (k, ':' :: (' ' :: (sv ++ TAIL2))) :=
    parseStrBody_quote k _ _ (by
      have hle := length_le_flatMap_escape k.data
      simp only [List.length_append, List.length_cons]
      omega)
  simp only [hq, skipWs_cons_not ':' (by decide) (' ' :: (sv ++ TAIL2)),
    if_pos (show (':' : Char) = ':' from rfl),
    parseV_congr_ws fl3 (' ' :: (sv ++ TAIL2)) (sv ++ TAIL2)
      (skipWs_cons_ws ' ' (by decide) (sv ++ TAIL2)), hv]
  simp

theorem parsePair_congr_ws (fuel : Nat) (x y : List Char) (h : skipWs x = skipWs y) :
    parsePair fuel x = parsePair fuel y := by
  cases fuel with
  | zero => rfl
  | succ fl => unfold parsePair; rw [h]

mutual

theorem parse_render_val : ∀ (v : PVal) (lvl fuel : Nat) (cs rest : List Char),
    renderV v lvl = .ok cs →
    jsonClean v = true →
    pfuel v ≤ fuel →
    noDigitHead rest = true →
    parseV fuel (cs ++ rest) = some (v, rest)
  | .str s, lvl, fuel, cs, rest => fun h _ hfu _ => by
    simp only [renderV, Except.ok.injEq] at h
    subst h
    cases fuel with
    | zero => simp [pfuel] at hfu
    | succ fl =>
      have hL : quoteJsonChars s ++ rest =
          '"' :: (s.data.flatMap escapeChar ++ ('"' :: rest)) := by
        rw [quoteJsonChars]
        simp
      rw [hL, parseV_quote]
      have hq : parseStrBody ((s.data.flatMap escapeChar ++ ('"' :: rest)).length + 1)
          (s.data.flatMap escapeChar ++ ('"' :: rest)) [] = some (s, rest) :=
        parseStrBody_quote s _ _ (by
          have hle := length_le_flatMap_escape s.data
          simp only [List.length_append, List.length_cons]
          omega)
      simp only [hq]
  | .int n, lvl, fuel, cs, rest => fun h _ hfu hnd => by
    simp only [renderV, Except.ok.injEq] at h
    subst h
    cases fuel with
    | zero => simp [pfuel] at hfu
    | succ fl => exact parseV_num n rest fl hnd
  | .bool b, lvl, fuel, cs, rest => fun h _ hfu _ => by
    cases fuel with
    | zero => simp [pfuel] at hfu
    | succ fl =>
      cases b with
      | true =>
        simp only [renderV, if_pos rfl, Except.ok.injEq] at h
        subst h
        exact parseV_true fl rest
      | false =>
        simp only [renderV, if_neg (show ¬(false = true) from by decide),
          Except.ok.injEq] at h
        subst h
        exact parseV_false fl rest
  | .pynone, lvl, fuel, cs, rest => fun h _ hfu _ => by
    simp only [renderV, Except.ok.injEq] at h
    subst h
    cases fuel with
    | zero => simp [pfuel] at hfu
    | succ fl => exact parseV_null fl rest
  | .dt f, lvl, fuel, cs, rest => fun h _ _ _ =>
    absurd h (by simp [renderV])
  | .gen items ie, lvl, fuel, cs, rest => fun h _ _ _ =>
    absurd h (by simp [renderV])
  | .obj o, lvl, fuel, cs, rest => fun h _ _ _ =>
    absurd h (by simp [renderV])
  | .plist .nil, lvl, fuel, cs, rest => fun h _ hfu _ => by
    simp only [renderV, Except.ok.injEq] at h
    subst h
    simp only [pfuel, lfuel] at hfu
    cases fuel with
    | zero => omega
    | succ fl =>
      cases fl with
      | zero => omega
      | succ fl2 =>
        have hL : (['[', ']'] : List Char) ++ rest = '[' :: (']' :: rest) := rfl
        rw [hL, parseV_openBracket]
        exact parseArrStart_close _ rest
  | .plist (.cons v tl), lvl, fuel, cs, rest => fun h hclean hfu hnd => by
    simp only [renderV, bind] at h
    cases hf : renderV v (lvl + 1) with
    | error m =>
      simp only [hf, Except.bind] at h
      exact absurd h (by simp)
    | ok first =>
      simp only [hf, Except.bind] at h
      cases hr : renderItems tl (lvl + 1) with
      | error m =>
        simp only [hr, Except.bind] at h
        exact absurd h (by simp)
      | ok rcs =>
        simp only [hr, Except.bind, Except.ok.injEq] at h
        subst h
        simp only [jsonClean, jsonCleanL, Bool.and_eq_true] at hclean
        obtain ⟨hcv, hctl⟩ := hclean
        simp only [pfuel, lfuel] at hfu
        have hpv := pfuel_pos v
        have hlt := lfuel_pos tl
        cases fuel with
        | zero => omega
        | succ fl =>
        cases fl with
        | zero => omega
        | succ fl2 =>
        obtain ⟨c0, t0, hf0, hc0ws, hc0ne⟩ := renderV_head v (lvl + 1) first hf
        have hndt : noDigitHead (rcs ++ ('\n' :: (indentChars lvl ++ (']' :: rest)))) = true := by
          rcases renderItems_shape tl (lvl + 1) rcs hr with hsh | ⟨t, hsh⟩
          · rw [hsh, List.nil_append]
            exact noDigitHead_cons _ _ (by decide)
          · rw [hsh, List.cons_append]
            exact noDigitHead_cons _ _ (by decide)
        have hv := parse_render_val v (lvl + 1) fl2 first
          (rcs ++ ('\n' :: (indentChars lvl ++ (']' :: rest)))) hf hcv (by omega) hndt
        have hitems := parse_render_items tl lvl fl2 rcs rest hr hctl (by omega)
        have hL : ('[' :: '\n' :: indentChars (lvl + 1) ++ first ++ rcs ++
            '\n' :: indentChars lvl ++ [']']) ++ rest =
            '[' :: ('\n' :: (indentChars (lvl + 1) ++ (first ++
              (rcs ++ ('\n' :: (indentChars lvl ++ (']' :: rest))))))) := by
          simp
        rw [hL, parseV_openBracket]
        rw [parseArrStart_congr_ws _ _ _
          (skipWs_nl_indent (lvl + 1)
            (first ++ (rcs ++ ('\n' :: (indentChars lvl ++ (']' :: rest))))))]
        rw [hf0, List.cons_append]
        rw [parseArrStart_cons _ c0 _ hc0ws hc0ne]
        rw [← List.cons_append, ← hf0]
        simp only [hv, hitems]
  | .pdict .nil, lvl, fuel, cs, rest => fun h _ hfu _ => by
    simp only [renderV, Except.ok.injEq] at h
    subst h
    simp only [pfuel, efuel] at hfu
    cases fuel with
    | zero => omega
    | succ fl =>
      cases fl with
      | zero => omega
      | succ fl2 =>
        have hL : ([lbrace, rbrace] : List Char) ++ rest = lbrace :: (rbrace :: rest) := rfl
        rw [hL, parseV_openBrace]
        exact parseObjStart_close _ rest
  | .pdict (.cons k v tl), lvl, fuel, cs, rest => fun h hclean hfu hnd => by
    simp only [renderV, bind] at h
    cases hf : renderV v (lvl + 1) with
    | error m =>
      simp only [hf, Except.bind] at h
      exact absurd h (by simp)
    | ok sv =>
      simp only [hf, Except.bind] at h
      cases hr : renderEntries tl (lvl + 1) with
      | error m =>
        simp only [hr, Except.bind] at h
        exact absurd h (by simp)
      | ok rcs =>
        simp only [hr, Except.bind, Except.ok.injEq] at h
        subst h
        simp only [jsonClean, Bool.and_eq_true] at hclean
        obtain ⟨hnodup, hce⟩ := hclean
        simp only [jsonCleanE, Bool.and_eq_true] at hce
        obtain ⟨hcv, hctl⟩ := hce
        simp only [pfuel, efuel] at hfu
        have hpv := pfuel_pos v
        have het := efuel_pos tl
        cases fuel with
        | zero => omega
        | succ fl =>
        cases fl with
        | zero => omega
        | succ fl2 =>
        cases fl2 with
        | zero => omega
        | succ fl3 =>
        have hndt : noDigitHead (rcs ++ ('\n' :: (indentChars lvl ++ (rbrace :: rest)))) = true := by
          rcases renderEntries_shape tl (lvl + 1) rcs hr with hsh | ⟨t, hsh⟩
          · rw [hsh, List.nil_append]
            exact noDigitHead_cons _ _ (by decide)
          · rw [hsh, List.cons_append]
            exact noDigitHead_cons _ _ (by decide)
        have hv := parse_render_val v (lvl + 1) fl3 sv
          (rcs ++ ('\n' :: (indentChars lvl ++ (rbrace :: rest)))) hf hcv (by omega) hndt
        have hpair := parsePair_render k sv _ fl3 v hv
        have hitems := parse_render_entries tl lvl (fl3 + 1) rcs rest hr hctl (by omega)
        have hfold : (((k, v) :: pairsOf tl).foldl
            (fun acc kv => entInsert acc kv.1 kv.2) .nil) = Entries.cons k v tl := by
          have hpp : ((k, v) :: pairsOf tl) = pairsOf (.cons k v tl) := rfl
          rw [hpp]
          exact foldl_entInsert_pairs _ hnodup
        have hL : (lbrace :: '\n' :: indentChars (lvl + 1) ++ quoteJsonChars k ++
            ':' :: ' ' :: sv ++ rcs ++ '\n' :: indentChars lvl ++ [rbrace]) ++ rest =
            lbrace :: ('\n' :: (indentChars (lvl + 1) ++ (quoteJsonChars k ++
              (':' :: (' ' :: (sv ++ (rcs ++ ('\n' :: (indentChars lvl ++ (rbrace :: rest)))))))))) := by
          simp
        rw [hL, parseV_openBrace]
        rw [parseObjStart_congr_ws _ _ _
          (skipWs_nl_indent (lvl + 1) (quoteJsonChars k ++
            (':' :: (' ' :: (sv ++ (rcs ++ ('\n' :: (indentChars lvl ++ (rbrace :: rest)))))))))]
        have hLq : quoteJsonChars k ++
            (':' :: (' ' :: (sv ++ (rcs ++ ('\n' :: (indentChars lvl ++ (rbrace :: rest))))))) =
            '"' :: (k.data.flatMap escapeChar ++ ('"' ::
              (':' :: (' ' :: (sv ++ (rcs ++ ('\n' :: (indentChars lvl ++ (rbrace :: rest))))))))) := by
          rw [quoteJsonChars]
          simp
        rw [hLq, parseObjStart_quote, ← hLq]
        simp only [hpair, hitems, hfold]

theorem parse_render_items : ∀ (l : VList) (lvl0 fuel : Nat) (cs rest : List Char),
    renderItems l (lvl0 + 1) = .ok cs →
    jsonCleanL l = true →
    lfuel l ≤ fuel →
    parseArrRest fuel (cs ++ ('\n' :: (indentChars lvl0 ++ (']' :: rest)))) = some (l, rest)
  | .nil, lvl0, fuel, cs, rest => fun h _ hfu => by
    simp only [renderItems, Except.ok.injEq] at h
    subst h
    simp only [lfuel] at hfu
    cases fuel with
    | zero => omega
    | succ fl =>
      rw [List.nil_append,
        parseArrRest_congr_ws _ _ _ (skipWs_nl_indent lvl0 (']' :: rest))]
      exact parseArrRest_close _ rest
  | .cons v tl, lvl0, fuel, cs, rest => fun h hclean hfu => by
    simp only [renderItems, bind] at h
    cases hf : renderV v (lvl0 + 1) with
    | error m =>
      simp only [hf, Except.bind] at h
      exact absurd h (by simp)
    | ok sv =>
      simp only [hf, Except.bind] at h
      cases hr : renderItems tl (lvl0 + 1) with
      | error m =>
        simp only [hr, Except.bind] at h
        exact absurd h (by simp)
      | ok rcs =>
        simp only [hr, Except.bind, Except.ok.injEq] at h
        subst h
        simp only [jsonCleanL, Bool.and_eq_true] at hclean
        obtain ⟨hcv, hctl⟩ := hclean
        simp only [lfuel] at hfu
        have hpv := pfuel_pos v
        have hlt := lfuel_pos tl
        cases fuel with
        | zero => omega
        | succ fl =>
        have hndt : noDigitHead (rcs ++ ('\n' :: (indentChars lvl0 ++ (']' :: rest)))) = true := by
          rcases renderItems_shape tl (lvl0 + 1) rcs hr with hsh | ⟨t, hsh⟩
          · rw [hsh, List.nil_append]
            exact noDigitHead_cons _ _ (by decide)
          · rw [hsh, List.cons_append]
            exact noDigitHead_cons _ _ (by decide)
        have hv := parse_render_val v (lvl0 + 1) fl sv
          (rcs ++ ('\n' :: (indentChars lvl0 ++ (']' :: rest)))) hf hcv (by omega) hndt
        have hitems := parse_render_items tl lvl0 fl rcs rest hr hctl (by omega)
        have hL : (',' :: '\n' :: indentChars (lvl0 + 1) ++ sv ++ rcs) ++
            ('\n' :: (indentChars lvl0 ++ (']' :: rest))) =
            ',' :: ('\n' :: (indentChars (lvl0 + 1) ++ (sv ++
              (rcs ++ ('\n' :: (indentChars lvl0 ++ (']' :: rest))))))) := by
          simp
        rw [hL, parseArrRest_comma]
        rw [parseV_congr_ws _ _ _
          (skipWs_nl_indent (lvl0 + 1)
            (sv ++ (rcs ++ ('\n' :: (indentChars lvl0 ++ (']' :: rest))))))]
        simp only [hv, hitems]

theorem parse_render_entries : ∀ (e : Entries) (lvl0 fuel : Nat) (cs rest : List Char),
    renderEntries e (lvl0 + 1) = .ok cs →
    jsonCleanE e = true →
    efuel e ≤ fuel →
    parseObjRest fuel (cs ++ ('\n' :: (indentChars lvl0 ++ (rbrace :: rest)))) =
      some (pairsOf e, rest)
  | .nil, lvl0, fuel, cs, rest => fun h _ hfu => by
    simp only [renderEntries, Except.ok.injEq] at h
    subst h
    simp only [efuel] at hfu
    cases fuel with
    | zero => omega
    | succ fl =>
      rw [List.nil_append,
        parseObjRest_congr_ws _ _ _ (skipWs_nl_indent lvl0 (rbrace :: rest))]
      exact parseObjRest_close _ rest
  | .cons k v tl, lvl0, fuel, cs, rest => fun h hclean hfu => by
    simp only [renderEntries, bind] at h
    cases hf : renderV v (lvl0 + 1) with
    | error m =>
      simp only [hf, Except.bind] at h
      exact absurd h (by simp)
    | ok sv =>
      simp only [hf, Except.bind] at h
      cases hr : renderEntries tl (lvl0 + 1) with
      | error m =>
        simp only [hr, Except.bind] at h
        exact absurd h (by simp)
      | ok rcs =>
        simp only [hr, Except.bind, Except.ok.injEq] at h
        subst h
        simp only [jsonCleanE, Bool.and_eq_true] at hclean
        obtain ⟨hcv, hctl⟩ := hclean
        simp only [efuel] at hfu
        have hpv := pfuel_pos v
        have het := efuel_pos tl
        cases fuel with
        | zero => omega
        | succ fl =>
        cases fl with
        | zero => omega
        | succ fl3 =>
        have hndt : noDigitHead (rcs ++ ('\n' :: (indentChars lvl0 ++ (rbrace :: rest)))) = true := by
          rcases renderEntries_shape tl (lvl0 + 1) rcs hr with hsh | ⟨t, hsh⟩
          · rw [hsh, List.nil_append]
            exact noDigitHead_cons _ _ (by decide)
          · rw [hsh, List.cons_append]
            exact noDigitHead_cons _ _ (by decide)
        have hv := parse_render_val v (lvl0 + 1) fl3 sv
          (rcs ++ ('\n' :: (indentChars lvl0 ++ (rbrace :: rest)))) hf hcv (by omega) hndt
        have hpair := parsePair_render k sv _ fl3 v hv
        have hitems := parse_render_entries tl lvl0 (fl3 + 1) rcs rest hr hctl (by omega)
        have hL : (',' :: '\n' :: indentChars (lvl0 + 1) ++ quoteJsonChars k ++
            ':' :: ' ' :: sv ++ rcs) ++ ('\n' :: (indentChars lvl0 ++ (rbrace :: rest))) =
            ',' :: ('\n' :: (indentChars (lvl0 + 1) ++ (quoteJsonChars k ++
              (':' :: (' ' :: (sv ++ (rcs ++ ('\n' :: (indentChars lvl0 ++ (rbrace :: rest)))))))))) := by
          simp
        rw [hL, parseObjRest_comma]
        rw [parsePair_congr_ws _ _ _
          (skipWs_nl_indent (lvl0 + 1) (quoteJsonChars k ++
            (':' :: (' ' :: (sv ++ (rcs ++ ('\n' :: (indentChars lvl0 ++ (rbrace :: rest))))))))) ]
        simp only [hpair, hitems, pairsOf]

end

mutual

theorem renderV_pfuel_le : ∀ (v : PVal) (lvl : Nat) (cs : List Char),
    renderV v lvl = .ok cs → pfuel v ≤ cs.length
  | .str s, lvl, cs => fun h => by
    simp only [renderV, Except.ok.injEq] at h
    subst h
    simp only [pfuel, quoteJsonChars, List.length_cons, List.length_append]
    omega
  | .int n, lvl, cs => fun h => by
    simp only [renderV, Except.ok.injEq] at h
    subst h
    simp only [pfuel]
    by_cases hn : n < 0
    · rw [intReprChars, if_pos hn]
      simp only [List.length_cons]
      omega
    · obtain ⟨d, ds, hds, _⟩ := natReprChars_head n.toNat
      rw [intReprChars, if_neg hn, hds]
      simp only [List.length_cons]
      omega
  | .bool b, lvl, cs => fun h => by
    cases b with
    | true =>
      simp only [renderV, if_pos rfl, Except.ok.injEq] at h
      subst h
      decide
    | false =>
      simp only [renderV, if_neg (show ¬(false = true) from by decide),
        Except.ok.injEq] at h
      subst h
      decide
  | .pynone, lvl, cs => fun h => by
    simp only [renderV, Except.ok.injEq] at h
    subst h
    decide
  | .dt f, lvl, cs => fun h => absurd h (by simp [renderV])
  | .gen items ie, lvl, cs => fun h => absurd h (by simp [renderV])
  | .obj o, lvl, cs => fun h => absurd h (by simp [renderV])
  | .plist .nil, lvl, cs => fun h => by
    simp only [renderV, Except.ok.injEq] at h
    subst h
    decide
  | .plist (.cons v tl), lvl, cs => fun h => by
    simp only [renderV, bind] at h
    cases hf : renderV v (lvl + 1) with
    | error m =>
      simp only [hf, Except.bind] at h
      exact absurd h (by simp)
    | ok first =>
      simp only [hf, Except.bind] at h
      cases hr : renderItems tl (lvl + 1) with
      | error m =>
        simp only [hr, Except.bind] at h
        exact absurd h (by simp)
      | ok rcs =>
        simp only [hr, Except.bind, Except.ok.injEq] at h
        subst h
        have h1 := renderV_pfuel_le v (lvl + 1) first hf
        have h2 := renderItems_lfuel_le tl (lvl + 1) rcs hr
        simp only [pfuel, lfuel, List.length_cons, List.length_append]
        omega
  | .pdict .nil, lvl, cs => fun h => by
    simp only [renderV, Except.ok.injEq] at h
    subst h
    decide
  | .pdict (.cons k v tl), lvl, cs => fun h => by
    simp only [renderV, bind] at h
    cases hf : renderV v (lvl + 1) with
    | error m =>
      simp only [hf, Except.bind] at h
      exact absurd h (by simp)
    | ok sv =>
      simp only [hf, Except.bind] at h
      cases hr : renderEntries tl (lvl + 1) with
      | error m =>
        simp only [hr, Except.bind] at h
        exact absurd h (by simp)
      | ok rcs =>
        simp only [hr, Except.bind, Except.ok.injEq] at h
        subst h
        have h1 := renderV_pfuel_le v (lvl + 1) sv hf
        have h2 := renderEntries_efuel_le tl (lvl + 1) rcs hr
        simp only [pfuel, efuel, List.length_cons, List.length_append]
        omega

theorem renderItems_lfuel_le : ∀ (l : VList) (lvl : Nat) (cs : List Char),
    renderItems l lvl = .ok cs → lfuel l ≤ cs.length + 1
  | .nil, lvl, cs => fun h => by
    simp only [renderItems, Except.ok.injEq] at h
    subst h
    decide
  | .cons v tl, lvl, cs => fun h => by
    simp only [renderItems, bind] at h
    cases hf : renderV v lvl with
    | error m =>
      simp only [hf, Except.bind] at h
      exact absurd h (by simp)
    | ok sv =>
      simp only [hf, Except.bind] at h
      cases hr : renderItems tl lvl with
      | error m =>
        simp only [hr, Except.bind] at h
        exact absurd h (by simp)
      | ok rcs =>
        simp only [hr, Except.bind, Except.ok.injEq] at h
        subst h
        have h1 := renderV_pfuel_le v lvl sv hf
        have h2 := renderItems_lfuel_le tl lvl rcs hr
        simp only [lfuel, List.length_cons, List.length_append]
        omega

theorem renderEntries_efuel_le : ∀ (e : Entries) (lvl : Nat) (cs : List Char),
    renderEntries e lvl = .ok cs → efuel e ≤ cs.length + 1
  | .nil, lvl, cs => fun h => by
    simp only [renderEntries, Except.ok.injEq] at h
    subst h
    decide
  | .cons k v tl, lvl, cs => fun h => by
    simp only [renderEntries, bind] at h
    cases hf : renderV v lvl with
    | error m =>
      simp only [hf, Except.bind] at h
      exact absurd h (by simp)
    | ok sv =>
      simp only [hf, Except.bind] at h
      cases hr : renderEntries tl lvl with
      | error m =>
        simp only [hr, Except.bind] at h
        exact absurd h (by simp)
      | ok rcs =>
        simp only [hr, Except.bind, Except.ok.injEq] at h
        subst h
        have h1 := renderV_pfuel_le v lvl sv hf
        have h2 := renderEntries_efuel_le tl lvl rcs hr
        simp only [efuel, List.length_cons, List.length_append]
        omega

end

/-- json.loads inverts json.dump on any serializable value with distinct
dict keys: the parser recovers the exact structure from the rendered
text. -/
theorem pyJsonLoads_render (v : PVal) (txt : String)
    (hclean : jsonClean v = true)
    (hr : renderJson v = .ok txt) :
    pyJsonLoads txt = some v := by
  unfold renderJson at hr
  cases hrv : renderV v 0 with
  | error m =>
    rw [hrv] at hr
    exact absurd hr (by simp)
  | ok cs =>
    rw [hrv] at hr
    simp only [Except.ok.injEq] at hr
    subst hr
    have hfu : pfuel v ≤ cs.length + 1 := by
      have := renderV_pfuel_le v 0 cs hrv
      omega
    have hp := parse_render_val v 0 (cs.length + 1) cs [] hrv hclean hfu rfl
    rw [List.append_nil] at hp
    unfold pyJsonLoads
    have hdata : (String.mk cs).data = cs := rfl
    rw [hdata, hp]
    rfl

/-- C6: Round-trip: for every metadata document in memory, exporting it via
export_metadata_json and re-parsing the written JSON text with json.loads
yields a structure equal to the in-memory document (the document holds only
JSON-serializable values with distinct dict keys, as every document the
walker builds does). -/
theorem export_roundtrip (env : ExtractEnv) (fsErr : String → Option String)
    (st : Explorer) (outPath : Option String) (txt : String)
    (hmd : st.metadata.isEmpty = false)
    (hclean : jsonClean (toPdictV st.metadata) = true)
    (hw : (exportMetadataJsonM env fsErr st outPath).written = some txt) :
    pyJsonLoads txt = some (toPdictV st.metadata) := by
  unfold exportMetadataJsonM at hw
  simp only [hmd, Bool.false_eq_true, if_false] at hw
  cases hrj : renderJson (toPdictV st.metadata) with
  | error m =>
    rw [hrj] at hw
    split at hw <;> simp at hw
  | ok txt0 =>
    rw [hrj] at hw
    split at hw
    · simp at hw
    · simp at hw
      subst hw
      exact pyJsonLoads_render _ txt0 hclean hrj

theorem export_roundtrip_witness :
    readyState.metadata.isEmpty = false ∧
    jsonClean (toPdictV readyState.metadata) = true ∧
    (exportMetadataJsonM envA okFs readyState Option.none).written = some exportTxt ∧
    pyJsonLoads exportTxt = some (toPdictV readyState.metadata) :=
  ⟨by decide, by decide, by decide,
    export_roundtrip envA okFs readyState Option.none exportTxt
      (by decide) (by decide) (by decide)⟩

theorem entHasKey_toList : ∀ (e : Entries) (k : String) (w : PVal),
    (k, w) ∈ e.toList → entHasKey e k = true
  | .nil, k, w => fun h => by simp [Entries.toList] at h
  | .cons k0 v0 tl, k, w => fun h => by
    simp only [Entries.toList, List.mem_cons] at h
    rw [entHasKey]
    rcases h with heq | hmem
    · simp only [Prod.mk.injEq] at heq
      simp [heq.1]
    · rw [entHasKey_toList tl k w hmem]
      simp

theorem find_toList_nodup : ∀ (e : Entries) (k : String) (w : PVal),
    entKeysNodup e = true → (k, w) ∈ e.toList →
    (e.toList).find? (fun kv => kv.1 == k) = some (k, w)
  | .nil, k, w => fun _ h => by simp [Entries.toList] at h
  | .cons k0 v0 tl, k, w => fun hnd h => by
    simp only [entKeysNodup, Bool.and_eq_true, Bool.not_eq_true'] at hnd
    simp only [Entries.toList, List.mem_cons] at h
    rcases h with heq | hmem
    · simp only [Prod.mk.injEq] at heq
      obtain ⟨hk, hw⟩ := heq
      subst hk
      subst hw
      simp [Entries.toList, List.find?]
    · have hne : (k0 == k) = false := by
        by_cases hkk : k0 = k
        · subst hkk
          rw [entHasKey_toList tl k0 w hmem] at hnd
          exact absurd hnd.1 (by simp)
        · simp [hkk]
      simp only [Entries.toList, List.find?, hne]
      exact find_toList_nodup tl k w hnd.2 hmem

theorem instItems_getattr (mob : PVal) (items : Dict) (k : String) (w : PVal)
    (hii : instItems mob = some items) (hwf : objWf mob = true)
    (hmem : (k, w) ∈ items) : getattrOpt mob k = some (.ok w) := by
  cases mob
  case obj o =>
    obtain ⟨cn, so, cf, da, ia⟩ := o
    cases ia with
    | noDict => simp [instItems, PObj.instAttrs] at hii
    | someDict e =>
      simp only [instItems, PObj.instAttrs, Option.some.injEq] at hii
      subst hii
      simp only [objWf, PObj.instAttrs] at hwf
      simp only [getattrOpt, PObj.instAttrs, PObj.dirAttrs,
        find_toList_nodup e k w hwf hmem]
  all_goals exact Option.noConfusion hii

theorem dictLoop_foldl_dlookup (k : String) :
    ∀ (items : List (String × PVal)) (d : Dict),
      (∀ w, (k, w) ∈ items → isScalarV w = false ∧ hasStrftime w = false) →
      dlookup (items.foldl
        (fun (d : Dict) kv =>
          if underscoreName kv.1 then d
          else if ["name", "mob_id", "creation_time", "last_modified", "mob_type_id"].contains kv.1 then d
          else if isScalarV kv.2 then dinsert d kv.1 kv.2
          else if hasStrftime kv.2 then
            match pyStrftime kv.2 with
            | .ok s => dinsert d kv.1 (.str s)
            | .error _ => d
          else d) d) k = dlookup d k
  | [], d => fun _ => rfl
  | kv :: tl, d => fun hcond => by
    rw [List.foldl_cons]
    rw [dictLoop_foldl_dlookup k tl _ (fun w hw => hcond w (List.mem_cons_of_mem kv hw))]
    by_cases hk : kv.1 = k
    · obtain ⟨hs, hd⟩ := hcond kv.2 (by
        have hkv : (k, kv.2) = kv := by rw [← hk]
        rw [hkv]
        exact List.mem_cons_self kv tl)
      simp only [hs, hd, Bool.false_eq_true, if_false]
      repeat' split
      all_goals rfl
    · repeat' split
      all_goals first
        | rfl
        | exact dlookup_dinsert_ne d k kv.1 _ (fun hh => hk hh.symm)

theorem mobDictLoop_dlookup (mob : PVal) (ci : Dict) (k : String)
    (hwf : objWf mob = true)
    (hval : ∀ w, getattrOpt mob k = some (.ok w) →
      isScalarV w = false ∧ hasStrftime w = false) :
    dlookup (mobDictLoop mob ci) k = dlookup ci k := by
  unfold mobDictLoop
  cases hii : instItems mob with
  | none => rfl
  | some items =>
    exact dictLoop_foldl_dlookup k items ci
      (fun w hw => hval w (instItems_getattr mob items k w hii hwf hw))

theorem foldlM_dlookup_pres (step : Dict → String → Except String Dict) (k : String)
    (hstep : ∀ d n r, step d n = .ok r → dlookup r k = dlookup d k) :
    ∀ (l : List String) (d r : Dict), l.foldlM step d = .ok r → dlookup r k = dlookup d k
  | [], d, r => fun h => by
    simp only [List.foldlM_nil, pure, Except.pure, Except.ok.injEq] at h
    subst h
    rfl
  | n :: tl, d, r => fun h => by
    rw [List.foldlM_cons] at h
    cases hs : step d n with
    | error m =>
      rw [hs] at h
      simp [bind, Except.bind] at h
    | ok d1 =>
      rw [hs] at h
      simp only [bind, Except.bind] at h
      rw [foldlM_dlookup_pres step k hstep tl d1 r h, hstep d n d1 hs]

theorem dirLoopStep_ok (mob : PVal) (k : String) (d : Dict) (n : String) (r : Dict)
    (hval : ∀ w, getattrOpt mob k = some (.ok w) →
      isScalarV w = false ∧ hasStrftime w = false)
    (h : (do
      if underscoreName n then pure d
      else do
        let v ← pyGetattrE mob n
        if pyCallable v then pure d
        else if dmem d n then pure d
        else if isScalarV v then pure (dinsert d n v)
        else if hasStrftime v then
          match pyStrftime v with
          | .ok s => pure (dinsert d n (.str s))
          | .error _ => pure d
        else pure d : Except String Dict) = .ok r) :
    dlookup r k = dlookup d k := by
  by_cases hu : underscoreName n = true
  · rw [if_pos hu] at h
    simp only [pure, Except.pure, Except.ok.injEq] at h
    subst h
    rfl
  · rw [if_neg hu] at h
    cases hg : pyGetattrE mob n with
    | error m =>
      rw [hg] at h
      simp [bind, Except.bind] at h
    | ok v =>
      rw [hg] at h
      simp only [bind, Except.bind] at h
      by_cases hnk : n = k
      · subst hnk
        have hga : getattrOpt mob n = some (.ok v) := by
          unfold pyGetattrE at hg
          cases hgo : getattrOpt mob n with
          | none =>
            rw [hgo] at hg
            simp at hg
          | some rr =>
            cases rr with
            | ok w =>
              rw [hgo] at hg
              simp only [Except.ok.injEq] at hg
              subst hg
              rfl
            | raise m =>
              rw [hgo] at hg
              simp at hg
        obtain ⟨hs, hd⟩ := hval v hga
        rw [hs, hd] at h
        simp only [Bool.false_eq_true, if_false] at h
        repeat' split at h
        all_goals simp only [pure, Except.pure, Except.ok.injEq] at h
        all_goals subst h
        all_goals rfl
      · repeat' split at h
        all_goals simp only [pure, Except.pure, Except.ok.injEq] at h
        all_goals subst h
        all_goals first
          | rfl
          | exact dlookup_dinsert_ne d k n _ (fun hh => hnk hh.symm)

theorem mobDirLoop_dlookup (mob : PVal) (ci : Dict) (k : String) (r : Dict)
    (hval : ∀ w, getattrOpt mob k = some (.ok w) →
      isScalarV w = false ∧ hasStrftime w = false)
    (h : mobDirLoop mob ci = .ok r) :
    dlookup r k = dlookup ci k := by
  unfold mobDirLoop at h
  exact foldlM_dlookup_pres _ k
    (fun d n r2 hstep => dirLoopStep_ok mob k d n r2 hval hstep) _ _ _ h

theorem clipIdentity_dlookup (mob : PVal) (ci : Dict) (k : String)
    (hk : k ≠ "name" ∧ k ≠ "mob_id" ∧ k ≠ "type" ∧ k ≠ "creation_time" ∧
      k ≠ "last_modified" ∧ k ≠ "mob_type_id")
    (h : clipIdentity mob = .ok ci) :
    dlookup ci k = Option.none := by
  unfold clipIdentity at h
  simp only [bind, Except.bind, pure, Except.pure] at h
  repeat' split at h
  all_goals first
    | (simp only [Except.ok.injEq] at h
       subst h
       simp [dlookup, Ne.symm hk.1, Ne.symm hk.2.1, Ne.symm hk.2.2.1,
         Ne.symm hk.2.2.2.1, Ne.symm hk.2.2.2.2.1, Ne.symm hk.2.2.2.2.2])
    | simp at h

theorem nestedCommentInsert_dlookup (ci : Dict) (kk : String) (v : PVal) (k : String)
    (hk : k ≠ "user_comments") :
    dlookup (nestedCommentInsert ci kk v) k = dlookup ci k := by
  unfold nestedCommentInsert
  split
  · exact dlookup_dinsert_ne _ _ _ _ hk
  · rfl

theorem commentAttrsInsert_dlookup (ci : Dict) (cname attr : String) (v : PVal) (k : String)
    (hk : k ≠ "comment_attributes") :
    dlookup (commentAttrsInsert ci cname attr v) k = dlookup ci k := by
  unfold commentAttrsInsert
  exact dlookup_dinsert_ne _ _ _ _ hk

theorem commentAttrStep_dlookup (cm : PVal) (ci : Dict) (n : String) (r : Dict) (k : String)
    (hk : k ≠ "comment_attributes")
    (h : commentAttrStep cm ci n = .ok r) :
    dlookup r k = dlookup ci k := by
  unfold commentAttrStep at h
  simp only [bind, Except.bind, pure, Except.pure] at h
  repeat' split at h
  all_goals first
    | (simp only [Except.ok.injEq] at h
       subst h
       first
         | rfl
         | exact commentAttrsInsert_dlookup ci _ n _ k hk)
    | simp at h

theorem commentInner_foldlM (cm : PVal) (k : String) (hk : k ≠ "comment_attributes") :
    ∀ (l : List String) (d : Dict),
      (∀ r, (l.foldlM (fun (d : Dict) n =>
          match commentAttrStep cm d n with
          | .ok d2 => pure d2
          | .error m => throw (d, m)) d : Except (Dict × String) Dict) = .ok r →
        dlookup r k = dlookup d k) ∧
      (∀ dp m, (l.foldlM (fun (d : Dict) n =>
          match commentAttrStep cm d n with
          | .ok d2 => pure d2
          | .error m => throw (d, m)) d : Except (Dict × String) Dict) = .error (dp, m) →
        dlookup dp k = dlookup d k)
  | [], d => by
    constructor
    · intro r h
      simp only [List.foldlM_nil, pure, Except.pure, Except.ok.injEq] at h
      subst h
      rfl
    · intro dp m h
      simp [List.foldlM_nil, pure, Except.pure] at h
  | n :: tl, d => by
    constructor
    · intro r h
      rw [List.foldlM_cons] at h
      cases hs : commentAttrStep cm d n with
      | error m =>
        rw [hs] at h
        simp [bind, Except.bind, throw, throwThe, MonadExceptOf.throw] at h
      | ok d2 =>
        rw [hs] at h
        simp only [bind, Except.bind, pure, Except.pure] at h
        rw [(commentInner_foldlM cm k hk tl d2).1 r h,
          commentAttrStep_dlookup cm d n d2 k hk hs]
    · intro dp m h
      rw [List.foldlM_cons] at h
      cases hs : commentAttrStep cm d n with
      | error m2 =>
        rw [hs] at h
        simp only [bind, Except.bind, throw, throwThe, MonadExceptOf.throw,
          Except.error.injEq, Prod.mk.injEq] at h
        rw [← h.1]
      | ok d2 =>
        rw [hs] at h
        simp only [bind, Except.bind, pure, Except.pure] at h
        rw [(commentInner_foldlM cm k hk tl d2).2 dp m h,
          commentAttrStep_dlookup cm d n d2 k hk hs]

theorem commentStep_dlookup (cm : PVal) (ci : Dict) (k : String)
    (hk1 : k ≠ "user_comments") (hk2 : k ≠ "comment_attributes") :
    (∀ r, commentStep ci cm = .ok r → dlookup r k = dlookup ci k) ∧
    (∀ dp m, commentStep ci cm = .error (dp, m) → dlookup dp k = dlookup ci k) := by
  constructor
  · intro r h
    unfold commentStep at h
    simp only [bind, Except.bind, pure, Except.pure, throw, throwThe,
      MonadExceptOf.throw] at h
    repeat' split at h
    all_goals first
      | exact (commentInner_foldlM cm k hk2 (dirNames cm) ci).1 r h
      | exact ((commentInner_foldlM cm k hk2 (dirNames cm) _).1 r h).trans
          (nestedCommentInsert_dlookup ci _ _ k hk1)
      | simp at h
  · intro dp m h
    unfold commentStep at h
    simp only [bind, Except.bind, pure, Except.pure, throw, throwThe,
      MonadExceptOf.throw] at h
    repeat' split at h
    all_goals first
      | (simp only [Except.error.injEq, Prod.mk.injEq] at h
         rw [← h.1])
      | exact (commentInner_foldlM cm k hk2 (dirNames cm) ci).2 dp m h
      | exact ((commentInner_foldlM cm k hk2 (dirNames cm) _).2 dp m h).trans
          (nestedCommentInsert_dlookup ci _ _ k hk1)
      | simp at h

theorem commentsFold_dlookup (k : String) (hk1 : k ≠ "user_comments")
    (hk2 : k ≠ "comment_attributes") :
    ∀ (cl : List PVal) (d : Dict),
      (∀ r, commentsFold cl d = .ok r → dlookup r k = dlookup d k) ∧
      (∀ dp m, commentsFold cl d = .error (dp, m) → dlookup dp k = dlookup d k)
  | [], d => by
    constructor
    · intro r h
      simp only [commentsFold, Except.ok.injEq] at h
      subst h
      rfl
    · intro dp m h
      simp [commentsFold] at h
  | c :: cl, d => by
    constructor
    · intro r h
      rw [commentsFold] at h
      cases hs : commentStep d c with
      | error e =>
        rw [hs] at h
        simp at h
      | ok d2 =>
        rw [hs] at h
        rw [(commentsFold_dlookup k hk1 hk2 cl d2).1 r h,
          (commentStep_dlookup c d k hk1 hk2).1 d2 hs]
    · intro dp m h
      rw [commentsFold] at h
      cases hs : commentStep d c with
      | error e =>
        rw [hs] at h
        simp only [Except.error.injEq] at h
        subst h
        exact (commentStep_dlookup c d k hk1 hk2).2 dp m hs
      | ok d2 =>
        rw [hs] at h
        rw [(commentsFold_dlookup k hk1 hk2 cl d2).2 dp m h,
          (commentStep_dlookup c d k hk1 hk2).1 d2 hs]

theorem commentsSection_dlookup (mob : PVal) (ci : Dict) (k : String) (r : Dict)
    (hk1 : k ≠ "user_comments") (hk2 : k ≠ "comment_attributes")
    (hk3 : k ≠ "user_comments_error")
    (h : commentsSection mob ci = .ok r) :
    dlookup r k = dlookup ci k := by
  unfold commentsSection at h
  cases hga : getattrOpt mob "user_comments" with
  | none =>
    rw [hga] at h
    simp only [Except.ok.injEq] at h
    subst h
    rfl
  | some rr =>
    cases rr with
    | raise m =>
      rw [hga] at h
      simp at h
    | ok uc =>
      simp only [hga] at h
      by_cases ht : pyTruthy uc = true
      · rw [if_pos ht] at h
        cases hlo : (if hasIterV uc then pyListOf uc else .ok []) with
        | error m =>
          rw [hlo] at h
          simp only [Except.ok.injEq] at h
          subst h
          exact dlookup_dinsert_ne _ _ _ _ hk3
        | ok cl =>
          simp only [hlo] at h
          cases hcf : commentsFold cl (dinsert ci "user_comments" (toPdictV [])) with
          | ok d =>
            simp only [hcf, Except.ok.injEq] at h
            subst h
            rw [(commentsFold_dlookup k hk1 hk2 cl _).1 _ hcf]
            exact dlookup_dinsert_ne _ _ _ _ hk1
          | error e =>
            obtain ⟨dp, m⟩ := e
            simp only [hcf, Except.ok.injEq] at h
            subst h
            rw [dlookup_dinsert_ne _ _ _ _ hk3,
              (commentsFold_dlookup k hk1 hk2 cl _).2 dp m hcf,
              dlookup_dinsert_ne _ _ _ _ hk1]
      · rw [if_neg ht] at h
        simp only [Except.ok.injEq] at h
        subst h
        rfl

theorem mediaSection_dlookup (mob : PVal) (ci : Dict) (k : String) (r : Dict)
    (hk : k ≠ "media_info")
    (h : mediaSection mob ci = .ok r) :
    dlookup r k = dlookup ci k := by
  unfold mediaSection at h
  simp only [bind, Except.bind, pure, Except.pure, throw, throwThe,
    MonadExceptOf.throw] at h
  repeat' split at h
  all_goals first
    | (simp only [Except.ok.injEq] at h
       subst h
       first
         | rfl
         | exact dlookup_dinsert_ne _ _ _ _ hk)
    | simp at h

theorem tcSection_dlookup (mob : PVal) (ci : Dict) (k : String) (r : Dict)
    (hk1 : k ≠ "timecode") (hk2 : k ≠ "timecode_error")
    (h : tcSection mob ci = .ok r) :
    dlookup r k = dlookup ci k := by
  unfold tcSection at h
  repeat' split at h
  all_goals first
    | (simp only [Except.ok.injEq] at h
       subst h
       first
         | rfl
         | exact dlookup_dinsert_ne _ _ _ _ hk1
         | exact dlookup_dinsert_ne _ _ _ _ hk2)
    | simp at h

theorem essenceSection_dlookup (mob : PVal) (ci : Dict) (k : String) (r : Dict)
    (hk1 : k ≠ "essence") (hk2 : k ≠ "essence_error")
    (h : essenceSection mob ci = .ok r) :
    dlookup r k = dlookup ci k := by
  unfold essenceSection at h
  repeat' split at h
  all_goals first
    | (simp only [Except.ok.injEq] at h
       subst h
       first
         | rfl
         | exact dlookup_dinsert_ne _ _ _ _ hk1
         | exact dlookup_dinsert_ne _ _ _ _ hk2)
    | simp at h

theorem markersSection_empty (mob : PVal) (ci : Dict)
    (hmk : getattrOpt mob "markers" = some (.ok (.plist .nil))) :
    markersSection mob ci = .ok ci := by
  unfold markersSection
  simp only [hmk]
  rfl

theorem markersSection_raise (mob : PVal) (ci : Dict) (its : VList) (msg : String)
    (hmk : getattrOpt mob "markers" = some (.ok (.gen its (some msg)))) :
    markersSection mob ci = .ok (dinsert ci "markers_error" (.str msg)) := by
  unfold markersSection
  simp only [hmk]
  rfl

theorem extractClipOne_markers_chain (mob : PVal) (ci : Dict) (MS : Dict → Dict)
    (hwf : objWf mob = true)
    (hvalM : ∀ w, getattrOpt mob "markers" = some (.ok w) →
      isScalarV w = false ∧ hasStrftime w = false)
    (hne : getattrOpt mob "markers_error" = Option.none)
    (hM : ∀ d, markersSection mob d = .ok (MS d))
    (hok : extractClipOne mob = .ok ci) :
    ∃ d, dlookup d "markers" = Option.none ∧ dlookup d "markers_error" = Option.none ∧
      dlookup ci "markers" = dlookup (MS d) "markers" ∧
      dlookup ci "markers_error" = dlookup (MS d) "markers_error" := by
  have hvalE : ∀ w, getattrOpt mob "markers_error" = some (.ok w) →
      isScalarV w = false ∧ hasStrftime w = false := by
    intro w hw
    rw [hne] at hw
    exact Option.noConfusion hw
  unfold extractClipOne at hok
  simp only [bind, Except.bind] at hok
  cases h0 : clipIdentity mob with
  | error m =>
    simp only [h0] at hok
    exact absurd hok (by simp)
  | ok ci0 =>
    simp only [h0] at hok
    cases h2 : mobDirLoop mob (mobDictLoop mob ci0) with
    | error m =>
      simp only [h2] at hok
      exact absurd hok (by simp)
    | ok ci2 =>
      simp only [h2] at hok
      cases h3 : commentsSection mob ci2 with
      | error m =>
        simp only [h3] at hok
        exact absurd hok (by simp)
      | ok ci3 =>
        simp only [h3] at hok
        cases h4 : mediaSection mob ci3 with
        | error m =>
          simp only [h4] at hok
          exact absurd hok (by simp)
        | ok ci4 =>
          simp only [h4] at hok
          simp only [hM ci4] at hok
          cases h6 : tcSection mob (MS ci4) with
          | error m =>
            simp only [h6] at hok
            exact absurd hok (by simp)
          | ok ci6 =>
            simp only [h6] at hok
            refine ⟨ci4, ?_, ?_, ?_, ?_⟩
            · rw [mediaSection_dlookup mob ci3 "markers" ci4 (by decide) h4,
                commentsSection_dlookup mob ci2 "markers" ci3 (by decide) (by decide)
                  (by decide) h3,
                mobDirLoop_dlookup mob (mobDictLoop mob ci0) "markers" ci2 hvalM h2,
                mobDictLoop_dlookup mob ci0 "markers" hwf hvalM]
              exact clipIdentity_dlookup mob ci0 "markers" (by decide) h0
            · rw [mediaSection_dlookup mob ci3 "markers_error" ci4 (by decide) h4,
                commentsSection_dlookup mob ci2 "markers_error" ci3 (by decide) (by decide)
                  (by decide) h3,
                mobDirLoop_dlookup mob (mobDictLoop mob ci0) "markers_error" ci2 hvalE h2,
                mobDictLoop_dlookup mob ci0 "markers_error" hwf hvalE]
              exact clipIdentity_dlookup mob ci0 "markers_error" (by decide) h0
            · rw [essenceSection_dlookup mob ci6 "markers" ci (by decide) (by decide) hok,
                tcSection_dlookup mob (MS ci4) "markers" ci6 (by decide) (by decide) h6]
            · rw [essenceSection_dlookup mob ci6 "markers_error" ci (by decide) (by decide) hok,
                tcSection_dlookup mob (MS ci4) "markers_error" ci6 (by decide) (by decide) h6]

/-- C4: in extract_clips, an item whose marker collection is empty produces
a clip record with no markers key at all and no error field, while an item
whose marker collection raises during iteration produces a markers_error
string key and no partial markers list (the record's other sections cannot
introduce either key: the attribute filter skips the non-scalar collection
and the mob exposes no markers_error attribute). -/
theorem markers_boundary (mob mv : PVal) (ci : Dict)
    (hwf : objWf mob = true)
    (hmk : getattrOpt mob "markers" = some (.ok mv))
    (hne : getattrOpt mob "markers_error" = Option.none)
    (hok : extractClipOne mob = .ok ci) :
    (mv = .plist .nil →
      dlookup ci "markers" = Option.none ∧ dlookup ci "markers_error" = Option.none) ∧
    (∀ its msg, mv = .gen its (some msg) →
      dlookup ci "markers_error" = some (.str msg) ∧
        dlookup ci "markers" = Option.none) := by
  constructor
  · intro hemp
    subst hemp
    have hval : ∀ w, getattrOpt mob "markers" = some (.ok w) →
        isScalarV w = false ∧ hasStrftime w = false := by
      intro w hw
      rw [hmk] at hw
      simp only [Option.some.injEq, RRes.ok.injEq] at hw
      subst hw
      exact ⟨rfl, rfl⟩
    obtain ⟨d, hd1, hd2, hc1, hc2⟩ :=
      extractClipOne_markers_chain mob ci (fun d => d) hwf hval hne
        (fun d => markersSection_empty mob d hmk) hok
    exact ⟨hc1.trans hd1, hc2.trans hd2⟩
  · intro its msg hgen
    subst hgen
    have hval : ∀ w, getattrOpt mob "markers" = some (.ok w) →
        isScalarV w = false ∧ hasStrftime w = false := by
      intro w hw
      rw [hmk] at hw
      simp only [Option.some.injEq, RRes.ok.injEq] at hw
      subst hw
      exact ⟨rfl, rfl⟩
    obtain ⟨d, hd1, hd2, hc1, hc2⟩ :=
      extractClipOne_markers_chain mob ci
        (fun d => dinsert d "markers_error" (.str msg)) hwf hval hne
        (fun d => markersSection_raise mob d its msg hmk) hok
    constructor
    · rw [hc2, dlookup_dinsert_self]
    · rw [hc1, dlookup_dinsert_ne _ _ _ _ (by decide)]
      exact hd1

theorem markers_boundary_witness :
    ∃ ciE ciR,
      extractClipOne emptyMarkersMob = .ok ciE ∧
      extractClipOne raisingMarkersMob = .ok ciR ∧
      dlookup ciE "markers" = Option.none ∧
      dlookup ciE "markers_error" = Option.none ∧
      dlookup ciR "markers_error" = some (.str "marker iteration failed") ∧
      dlookup ciR "markers" = Option.none := by
  obtain ⟨ciE, hE⟩ : ∃ d, extractClipOne emptyMarkersMob = .ok d := ⟨_, rfl⟩
  obtain ⟨ciR, hR⟩ : ∃ d, extractClipOne raisingMarkersMob = .ok d := ⟨_, rfl⟩
  have h1 := markers_boundary emptyMarkersMob (.plist .nil) ciE
    (by decide) (by decide) (by decide) hE
  have h2 := markers_boundary raisingMarkersMob
    (.gen (.cons (.obj (.mk "Marker" "<m>" false .nil .noDict)) .nil)
      (some "marker iteration failed")) ciR
    (by decide) (by decide) (by decide) hR
  obtain ⟨hE1, hE2⟩ := h1.1 rfl
  obtain ⟨hR1, hR2⟩ := h2.2 _ _ rfl
  exact ⟨ciE, ciR, hE, hR, hE1, hE2, hR1, hR2⟩

theorem dinsert_all (p : String × PVal → Bool) :
    ∀ (d : Dict) (k : String) (v : PVal),
      d.all p = true → p (k, v) = true → (dinsert d k v).all p = true
  | [], k, v => fun _ hp => by simp [dinsert, hp]
  | kv :: tl, k, v => fun hall hp => by
    simp only [List.all_cons, Bool.and_eq_true] at hall
    rw [dinsert]
    by_cases hk : kv.1 == k
    · simp only [hk, if_true, List.all_cons, Bool.and_eq_true]
      exact ⟨hp, hall.2⟩
    · simp only [hk, Bool.false_eq_true, if_false, List.all_cons, Bool.and_eq_true]
      exact ⟨hall.1, dinsert_all p tl k v hall.2 hp⟩

theorem all_dlookup (p : String × PVal → Bool) :
    ∀ (d : Dict) (k : String) (v : PVal),
      d.all p = true → dlookup d k = some v → p (k, v) = true
  | [], k, v => fun _ hl => by simp [dlookup] at hl
  | kv :: tl, k, v => fun hall hl => by
    simp only [List.all_cons, Bool.and_eq_true] at hall
    rw [dlookup] at hl
    by_cases hk : kv.1 == k
    · rw [if_pos hk] at hl
      simp only [Option.some.injEq] at hl
      have hke : kv.1 = k := by simpa using hk
      have hkv : kv = (k, v) := by
        rw [← hke, ← hl]
      rw [← hkv]
      exact hall.1
    · rw [if_neg hk] at hl
      exact all_dlookup p tl k v hall.2 hl

theorem foldlM_all_pres (step : Dict → String → Except String Dict)
    (p : String × PVal → Bool)
    (hstep : ∀ d n r, step d n = .ok r → d.all p = true → r.all p = true) :
    ∀ (l : List String) (d r : Dict), l.foldlM step d = .ok r → d.all p = true →
      r.all p = true
  | [], d, r => fun h hall => by
    simp only [List.foldlM_nil, pure, Except.pure, Except.ok.injEq] at h
    subst h
    exact hall
  | n :: tl, d, r => fun h hall => by
    rw [List.foldlM_cons] at h
    cases hs : step d n with
    | error m =>
      rw [hs] at h
      simp [bind, Except.bind] at h
    | ok d1 =>
      rw [hs] at h
      simp only [bind, Except.bind] at h
      exact foldlM_all_pres step p hstep tl d1 r h (hstep d n d1 hs hall)

theorem scalar_docLeavesOk (v : PVal) (h : isScalarV v = true) : docLeavesOk v = true := by
  cases v <;> first | rfl | simp [isScalarV] at h

theorem entries_toList_ofList : ∀ (d : Dict), (Entries.ofList d).toList = d
  | [] => rfl
  | kv :: tl => by
    rw [Entries.ofList, Entries.toList, entries_toList_ofList tl]

theorem vlist_toList_ofList : ∀ (l : List PVal), (VList.ofList l).toList = l
  | [] => rfl
  | v :: tl => by
    rw [VList.ofList, VList.toList, vlist_toList_ofList tl]

theorem docLeavesOkE_toList : ∀ (e : Entries),
    docLeavesOkE e = (e.toList).all (fun kv => docLeavesOk kv.2)
  | .nil => rfl
  | .cons k v tl => by
    rw [docLeavesOkE, Entries.toList, List.all_cons, docLeavesOkE_toList tl]

theorem docLeavesOkL_toList : ∀ (l : VList),
    docLeavesOkL l = (l.toList).all docLeavesOk
  | .nil => rfl
  | .cons v tl => by
    rw [docLeavesOkL, VList.toList, List.all_cons, docLeavesOkL_toList tl]

theorem toPdictV_leaves (d : Dict) :
    docLeavesOk (toPdictV d) = d.all (fun kv => docLeavesOk kv.2) := by
  rw [toPdictV, docLeavesOk, docLeavesOkE_toList, entries_toList_ofList]

theorem plistOfDicts_leaves (l : List Dict) :
    docLeavesOk (plistOfDicts l) =
      l.all (fun d => d.all (fun kv => docLeavesOk kv.2)) := by
  rw [plistOfDicts, docLeavesOk, docLeavesOkL_toList, vlist_toList_ofList]
  induction l with
  | nil => rfl
  | cons d tl ih =>
    simp only [List.map_cons, List.all_cons, ih, toPdictV_leaves]

theorem plistOfStrs_leaves (l : List String) : docLeavesOk (plistOfStrs l) = true := by
  rw [plistOfStrs, docLeavesOk, docLeavesOkL_toList, vlist_toList_ofList]
  induction l with
  | nil => rfl
  | cons s tl ih =>
    simp only [List.map_cons, List.all_cons, ih]
    rfl

theorem clipPolicy_toPdictV (d : Dict) :
    clipPolicy (toPdictV d) = d.all clipEntryPolicy := by
  rw [toPdictV, clipPolicy, entries_toList_ofList]

theorem componentPolicy_toPdictV (d : Dict) :
    componentPolicy (toPdictV d) = d.all componentEntryPolicy := by
  rw [toPdictV, componentPolicy, entries_toList_ofList]

theorem trackPolicy_toPdictV (d : Dict) :
    trackPolicy (toPdictV d) = d.all trackEntryPolicy := by
  rw [toPdictV, trackPolicy, entries_toList_ofList]

theorem seqPolicy_toPdictV (d : Dict) :
    seqPolicy (toPdictV d) = d.all seqEntryPolicy := by
  rw [toPdictV, seqPolicy, entries_toList_ofList]

theorem basicInfoPolicy_toPdictV (d : Dict) :
    basicInfoPolicy (toPdictV d) = d.all basicInfoEntryPolicy := by
  rw [toPdictV, basicInfoPolicy, entries_toList_ofList]

theorem mediaInfoPolicy_toPdictV (d : Dict) :
    mediaInfoPolicy (toPdictV d) =
      d.all (fun kv => if kv.1 == "duration_frames" then true else docLeavesOk kv.2) := by
  rw [toPdictV, mediaInfoPolicy, entries_toList_ofList]

theorem scalarFilterFold_all (p : String × PVal → Bool)
    (hp : ∀ n v, isScalarV v = true → p (n, v) = true) :
    ∀ (l : List (String × PVal)) (acc : Dict),
      acc.all p = true →
      (l.foldl (fun acc kv => if isScalarV kv.2 then dinsert acc kv.1 kv.2 else acc) acc).all p
        = true
  | [], acc => fun hall => hall
  | kv :: tl, acc => fun hall => by
    rw [List.foldl_cons]
    apply scalarFilterFold_all p hp tl
    by_cases hs : isScalarV kv.2 = true
    · rw [if_pos hs]
      exact dinsert_all p acc kv.1 kv.2 hall (hp kv.1 kv.2 hs)
    · rw [if_neg hs]
      exact hall

theorem dirScalarFlatten_all (o : PVal) (excl : List String) (tgt r : Dict)
    (p : String × PVal → Bool)
    (hp : ∀ n v, excl.contains n = false → isScalarV v = true → p (n, v) = true)
    (hall : tgt.all p = true)
    (h : dirScalarFlatten o excl tgt = .ok r) :
    r.all p = true := by
  unfold dirScalarFlatten at h
  refine foldlM_all_pres _ p ?_ _ _ _ h hall
  intro d n r2 hstep hdall
  by_cases hu : underscoreName n = true
  · rw [if_pos hu] at hstep
    simp only [pure, Except.pure, Except.ok.injEq] at hstep
    subst hstep
    exact hdall
  · rw [if_neg hu] at hstep
    cases hg : pyGetattrE o n with
    | error m =>
      rw [hg] at hstep
      simp [bind, Except.bind] at hstep
    | ok v =>
      rw [hg] at hstep
      simp only [bind, Except.bind] at hstep
      repeat' split at hstep
      all_goals simp only [pure, Except.pure, Except.ok.injEq] at hstep
      all_goals subst hstep
      all_goals first
        | exact hdall
        | (rename_i hnex hsc
           refine dinsert_all p d n v hdall (hp n v ?_ hsc)
           simp only [List.contains, Bool.not_eq_true] at hnex ⊢
           exact Bool.not_eq_true _ ▸ (by simpa using hnex))

theorem clipEntryPolicy_scalar (n : String) (v : PVal) (h : isScalarV v = true) :
    clipEntryPolicy (n, v) = true := by
  unfold clipEntryPolicy
  repeat' split
  all_goals simp [scalar_docLeavesOk v h]

theorem componentEntryPolicy_scalar (n : String) (v : PVal) (h : isScalarV v = true) :
    componentEntryPolicy (n, v) = true := by
  unfold componentEntryPolicy
  repeat' split
  all_goals simp [scalar_docLeavesOk v h]

theorem trackEntryPolicy_scalar (n : String) (v : PVal) (h : isScalarV v = true) :
    trackEntryPolicy (n, v) = true := by
  unfold trackEntryPolicy
  repeat' split
  all_goals simp [scalar_docLeavesOk v h]

theorem seqEntryPolicy_scalar (n : String) (v : PVal) (h : isScalarV v = true)
    (hn : (n == "tracks") = false) :
    seqEntryPolicy (n, v) = true := by
  unfold seqEntryPolicy
  repeat' split
  all_goals simp_all [scalar_docLeavesOk v h]

theorem guardedStr_leaves (mob : PVal) (n : String) (v : PVal)
    (h : guardedStr mob n = .ok v) : docLeavesOk v = true := by
  unfold guardedStr at h
  repeat' split at h
  all_goals first
    | (simp only [Except.ok.injEq] at h; subst h; rfl)
    | simp at h

theorem guardedFmt_leaves (mob : PVal) (n : String) (v : PVal)
    (h : guardedFmt mob n = .ok v) : docLeavesOk v = true := by
  unfold guardedFmt at h
  simp only [bind, Except.bind, pure, Except.pure] at h
  repeat' split at h
  all_goals first
    | (simp only [Except.ok.injEq] at h; subst h; rfl)
    | simp at h

theorem clipIdentity_all (mob : PVal) (ci : Dict)
    (h : clipIdentity mob = .ok ci) :
    ci.all clipEntryPolicy = true := by
  unfold clipIdentity at h
  simp only [bind, Except.bind, pure, Except.pure] at h
  cases hmid : guardedStr mob "mob_id" with
  | error m =>
    rw [hmid] at h
    repeat' split at h
    all_goals simp_all
  | ok mid =>
    rw [hmid] at h
    cases hct : guardedFmt mob "creation_time" with
    | error m =>
      rw [hct] at h
      repeat' split at h
      all_goals simp_all
    | ok ct =>
      rw [hct] at h
      cases hlm : guardedFmt mob "last_modified" with
      | error m =>
        rw [hlm] at h
        repeat' split at h
        all_goals simp_all
      | ok lm =>
        rw [hlm] at h
        have hmidL := guardedStr_leaves mob "mob_id" mid hmid
        have hctL := guardedFmt_leaves mob "creation_time" ct hct
        have hlmL := guardedFmt_leaves mob "last_modified" lm hlm
        repeat' split at h
        all_goals try (simp_all; done)
        all_goals simp only [Except.ok.injEq] at h
        all_goals subst h
        all_goals simp only [List.all_cons, List.all_nil, Bool.and_true, Bool.and_eq_true]
        all_goals simp_all [clipEntryPolicy, docLeavesOk]
        all_goals (rintro a b (⟨rfl, rfl⟩ | ⟨rfl, rfl⟩ | ⟨rfl, rfl⟩ | ⟨rfl, rfl⟩ | ⟨rfl, rfl⟩ | ⟨rfl, rfl⟩) <;> first | rfl | simp_all [docLeavesOk])

theorem dictLoop_foldl_all (p : String × PVal → Bool)
    (hps : ∀ n v, isScalarV v = true → p (n, v) = true)
    (hpstr : ∀ n s, p (n, .str s) = true) :
    ∀ (items : List (String × PVal)) (d : Dict), d.all p = true →
      (items.foldl
        (fun (d : Dict) kv =>
          if underscoreName kv.1 then d
          else if ["name", "mob_id", "creation_time", "last_modified", "mob_type_id"].contains kv.1 then d
          else if isScalarV kv.2 then dinsert d kv.1 kv.2
          else if hasStrftime kv.2 then
            match pyStrftime kv.2 with
            | .ok s => dinsert d kv.1 (.str s)
            | .error _ => d
          else d) d).all p = true
  | [], d => fun hall => hall
  | kv :: tl, d => fun hall => by
    rw [List.foldl_cons]
    apply dictLoop_foldl_all p hps hpstr tl
    repeat' split
    all_goals first
      | exact hall
      | (rename_i hsc
         exact dinsert_all p d kv.1 kv.2 hall (hps kv.1 kv.2 hsc))
      | exact dinsert_all p d kv.1 _ hall (hpstr kv.1 _)

theorem mobDictLoop_all (mob : PVal) (ci : Dict) (p : String × PVal → Bool)
    (hps : ∀ n v, isScalarV v = true → p (n, v) = true)
    (hpstr : ∀ n s, p (n, .str s) = true)
    (hall : ci.all p = true) :
    (mobDictLoop mob ci).all p = true := by
  unfold mobDictLoop
  cases hii : instItems mob with
  | none => exact hall
  | some items => exact dictLoop_foldl_all p hps hpstr items ci hall

theorem mobDirLoop_all (mob : PVal) (ci : Dict) (r : Dict) (p : String × PVal → Bool)
    (hps : ∀ n v, isScalarV v = true → p (n, v) = true)
    (hpstr : ∀ n s, p (n, .str s) = true)
    (h : mobDirLoop mob ci = .ok r) (hall : ci.all p = true) :
    r.all p = true := by
  unfold mobDirLoop at h
  refine foldlM_all_pres _ p ?_ _ _ _ h hall
  intro d n r2 hstep hdall
  by_cases hu : underscoreName n = true
  · rw [if_pos hu] at hstep
    simp only [pure, Except.pure, Except.ok.injEq] at hstep
    subst hstep
    exact hdall
  · rw [if_neg hu] at hstep
    cases hg : pyGetattrE mob n with
    | error m =>
      rw [hg] at hstep
      simp [bind, Except.bind] at hstep
    | ok v =>
      rw [hg] at hstep
      simp only [bind, Except.bind] at hstep
      repeat' split at hstep
      all_goals simp only [pure, Except.pure, Except.ok.injEq] at hstep
      all_goals subst hstep
      all_goals first
        | exact hdall
        | (rename_i hsc
           exact dinsert_all p d n v hdall (hps n v hsc))
        | exact dinsert_all p d n _ hdall (hpstr n _)

theorem docLeavesOk_pdict (e : Entries) : docLeavesOk (.pdict e) = docLeavesOkE e := rfl

theorem clipEntryPolicy_ca (w : PVal) :
    clipEntryPolicy ("comment_attributes", w) = docLeavesOk w := rfl

theorem clipEntryPolicy_uc (w : PVal) :
    clipEntryPolicy ("user_comments", w) = true := rfl

theorem clipEntryPolicy_uce (w : PVal) :
    clipEntryPolicy ("user_comments_error", w) = docLeavesOk w := rfl

theorem nestedCommentInsert_all (ci : Dict) (kk : String) (v : PVal)
    (hall : ci.all clipEntryPolicy = true) :
    (nestedCommentInsert ci kk v).all clipEntryPolicy = true := by
  unfold nestedCommentInsert
  split
  · exact dinsert_all _ ci _ _ hall (clipEntryPolicy_uc _)
  · exact hall

theorem commentAttrsInsert_all (ci : Dict) (cname attr : String) (v : PVal)
    (hs : isScalarV v = true)
    (hall : ci.all clipEntryPolicy = true) :
    (commentAttrsInsert ci cname attr v).all clipEntryPolicy = true := by
  have hCA : (match dlookup ci "comment_attributes" with
      | some (.pdict e) => e.toList
      | _ => []).all (fun kv => docLeavesOk kv.2) = true := by
    split
    next e heq =>
      have hw := all_dlookup _ ci "comment_attributes" (.pdict e) hall heq
      rw [clipEntryPolicy_ca, docLeavesOk_pdict, docLeavesOkE_toList] at hw
      exact hw
    next => rfl
  unfold commentAttrsInsert
  apply dinsert_all _ ci _ _ hall
  rw [clipEntryPolicy_ca, toPdictV_leaves]
  apply dinsert_all _ _ _ _ hCA
  rw [toPdictV_leaves]
  apply dinsert_all
  · split
    next e heq =>
      have hw := all_dlookup _ _ cname (.pdict e) hCA heq
      rw [docLeavesOk_pdict, docLeavesOkE_toList] at hw
      exact hw
    next => rfl
  · exact scalar_docLeavesOk v hs

theorem commentAttrStep_all (cm : PVal) (ci : Dict) (n : String) (r : Dict)
    (hall : ci.all clipEntryPolicy = true)
    (h : commentAttrStep cm ci n = .ok r) :
    r.all clipEntryPolicy = true := by
  unfold commentAttrStep at h
  simp only [bind, Except.bind, pure, Except.pure] at h
  repeat' split at h
  all_goals first
    | (simp only [Except.ok.injEq] at h
       subst h
       first
         | exact hall
         | exact commentAttrsInsert_all ci _ n _ (by assumption) hall)
    | simp at h

theorem commentInner_foldlM_all (cm : PVal) :
    ∀ (l : List String) (d : Dict), d.all clipEntryPolicy = true →
      (∀ r, (l.foldlM (fun (d : Dict) n =>
          match commentAttrStep cm d n with
          | .ok d2 => pure d2
          | .error m => throw (d, m)) d : Except (Dict × String) Dict) = .ok r →
        r.all clipEntryPolicy = true) ∧
      (∀ dp m, (l.foldlM (fun (d : Dict) n =>
          match commentAttrStep cm d n with
          | .ok d2 => pure d2
          | .error m => throw (d, m)) d : Except (Dict × String) Dict) = .error (dp, m) →
        dp.all clipEntryPolicy = true)
  | [], d => fun hall => by
    constructor
    · intro r h
      simp only [List.foldlM_nil, pure, Except.pure, Except.ok.injEq] at h
      subst h
      exact hall
    · intro dp m h
      simp [List.foldlM_nil, pure, Except.pure] at h
  | n :: tl, d => fun hall => by
    constructor
    · intro r h
      rw [List.foldlM_cons] at h
      cases hs : commentAttrStep cm d n with
      | error m =>
        rw [hs] at h
        simp [bind, Except.bind, throw, throwThe, MonadExceptOf.throw] at h
      | ok d2 =>
        rw [hs] at h
        simp only [bind, Except.bind, pure, Except.pure] at h
        exact (commentInner_foldlM_all cm tl d2
          (commentAttrStep_all cm d n d2 hall hs)).1 r h
    · intro dp m h
      rw [List.foldlM_cons] at h
      cases hs : commentAttrStep cm d n with
      | error m2 =>
        rw [hs] at h
        simp only [bind, Except.bind, throw, throwThe, MonadExceptOf.throw,
          Except.error.injEq, Prod.mk.injEq] at h
        rw [← h.1]
        exact hall
      | ok d2 =>
        rw [hs] at h
        simp only [bind, Except.bind, pure, Except.pure] at h
        exact (commentInner_foldlM_all cm tl d2
          (commentAttrStep_all cm d n d2 hall hs)).2 dp m h

theorem commentStep_all (cm : PVal) (ci : Dict)
    (hall : ci.all clipEntryPolicy = true) :
    (∀ r, commentStep ci cm = .ok r → r.all clipEntryPolicy = true) ∧
    (∀ dp m, commentStep ci cm = .error (dp, m) → dp.all clipEntryPolicy = true) := by
  constructor
  · intro r h
    unfold commentStep at h
    simp only [bind, Except.bind, pure, Except.pure, throw, throwThe,
      MonadExceptOf.throw] at h
    repeat' split at h
    all_goals first
      | exact (commentInner_foldlM_all cm (dirNames cm) ci hall).1 r h
      | exact (commentInner_foldlM_all cm (dirNames cm) _
          (nestedCommentInsert_all ci _ _ hall)).1 r h
      | simp at h
  · intro dp m h
    unfold commentStep at h
    simp only [bind, Except.bind, pure, Except.pure, throw, throwThe,
      MonadExceptOf.throw] at h
    repeat' split at h
    all_goals first
      | (simp only [Except.error.injEq, Prod.mk.injEq] at h
         rw [← h.1]
         exact hall)
      | exact (commentInner_foldlM_all cm (dirNames cm) ci hall).2 dp m h
      | exact (commentInner_foldlM_all cm (dirNames cm) _
          (nestedCommentInsert_all ci _ _ hall)).2 dp m h
      | simp at h

theorem commentsFold_all :
    ∀ (cl : List PVal) (d : Dict), d.all clipEntryPolicy = true →
      (∀ r, commentsFold cl d = .ok r → r.all clipEntryPolicy = true) ∧
      (∀ dp m, commentsFold cl d = .error (dp, m) → dp.all clipEntryPolicy = true)
  | [], d => fun hall => by
    constructor
    · intro r h
      simp only [commentsFold, Except.ok.injEq] at h
      subst h
      exact hall
    · intro dp m h
      simp [commentsFold] at h
  | c :: cl, d => fun hall => by
    constructor
    · intro r h
      rw [commentsFold] at h
      cases hs : commentStep d c with
      | error e =>
        rw [hs] at h
        simp at h
      | ok d2 =>
        rw [hs] at h
        exact (commentsFold_all cl d2 ((commentStep_all c d hall).1 d2 hs)).1 r h
    · intro dp m h
      rw [commentsFold] at h
      cases hs : commentStep d c with
      | error e =>
        rw [hs] at h
        simp only [Except.error.injEq] at h
        subst h
        exact (commentStep_all c d hall).2 dp m hs
      | ok d2 =>
        rw [hs] at h
        exact (commentsFold_all cl d2 ((commentStep_all c d hall).1 d2 hs)).2 dp m h

theorem commentsSection_all (mob : PVal) (ci : Dict) (r : Dict)
    (hall : ci.all clipEntryPolicy = true)
    (h : commentsSection mob ci = .ok r) :
    r.all clipEntryPolicy = true := by
  unfold commentsSection at h
  cases hga : getattrOpt mob "user_comments" with
  | none =>
    rw [hga] at h
    simp only [Except.ok.injEq] at h
    subst h
    exact hall
  | some rr =>
    cases rr with
    | raise m =>
      rw [hga] at h
      simp at h
    | ok uc =>
      simp only [hga] at h
      by_cases ht : pyTruthy uc = true
      · rw [if_pos ht] at h
        cases hlo : (if hasIterV uc then pyListOf uc else .ok []) with
        | error m =>
          rw [hlo] at h
          simp only [Except.ok.injEq] at h
          subst h
          refine dinsert_all _ ci _ _ hall ?_
          rw [clipEntryPolicy_uce]
          rfl
        | ok cl =>
          simp only [hlo] at h
          have hall1 : (dinsert ci "user_comments" (toPdictV [])).all clipEntryPolicy = true :=
            dinsert_all _ ci _ _ hall (clipEntryPolicy_uc _)
          cases hcf : commentsFold cl (dinsert ci "user_comments" (toPdictV [])) with
          | ok d =>
            simp only [hcf, Except.ok.injEq] at h
            subst h
            exact (commentsFold_all cl _ hall1).1 _ hcf
          | error e =>
            obtain ⟨dp, m⟩ := e
            simp only [hcf, Except.ok.injEq] at h
            subst h
            refine dinsert_all _ dp _ _ ((commentsFold_all cl _ hall1).2 dp m hcf) ?_
            rw [clipEntryPolicy_uce]
            rfl
      · rw [if_neg ht] at h
        simp only [Except.ok.injEq] at h
        subst h
        exact hall

theorem listFold_all {α : Type} (f : α → Except String Dict) (q : Dict → Bool)
    (hf : ∀ a d, f a = .ok d → q d = true) :
    ∀ (l : List α) (acc r : List Dict),
      (l.foldlM (fun (acc : List Dict) a => do
        let d ← f a
        pure (acc ++ [d])) acc) = .ok r →
      acc.all q = true → r.all q = true
  | [], acc, r => fun h hall => by
    simp only [List.foldlM_nil, pure, Except.pure, Except.ok.injEq] at h
    subst h
    exact hall
  | a :: tl, acc, r => fun h hall => by
    rw [List.foldlM_cons] at h
    cases hs : f a with
    | error m =>
      rw [hs] at h
      simp [bind, Except.bind] at h
    | ok d =>
      rw [hs] at h
      simp only [bind, Except.bind, pure, Except.pure] at h
      refine listFold_all f q hf tl (acc ++ [d]) r h ?_
      rw [List.all_append]
      simp only [List.all_cons, List.all_nil, Bool.and_true, hall, hf a d hs]

theorem mediaEntry_scalar (n : String) (v : PVal) (h : isScalarV v = true) :
    (if n == "duration_frames" then true else docLeavesOk v) = true := by
  split
  · rfl
  · exact scalar_docLeavesOk v h

theorem locatorBlock_all (v : PVal) (mi : Dict)
    (hall : mi.all (fun kv => if kv.1 == "duration_frames" then true
      else docLeavesOk kv.2) = true) :
    (locatorBlock v mi).all (fun kv => if kv.1 == "duration_frames" then true
      else docLeavesOk kv.2) = true := by
  have hjp : ∀ (ls : List PVal) (paths : List Dict),
      (List.foldlM (fun (acc : List Dict) loc => do
        let li ← dirScalarFlatten loc [] []
        pure (acc ++ [li])) ([] : List Dict) ls) = .ok paths →
      paths.all (fun d => d.all (fun kv => docLeavesOk kv.2)) = true := by
    intro ls paths hp
    refine listFold_all (fun loc => dirScalarFlatten loc [] [])
      (fun d => d.all (fun kv => docLeavesOk kv.2)) ?_ ls [] paths hp rfl
    intro a d hd
    exact dirScalarFlatten_all a [] [] d _
      (fun n w _ hw => scalar_docLeavesOk w hw) rfl hd
  have hkey : ∀ paths : List Dict,
      paths.all (fun d => d.all (fun kv => docLeavesOk kv.2)) = true →
      (if paths.isEmpty then mi else dinsert mi "locators" (plistOfDicts paths)).all
        (fun kv => if kv.1 == "duration_frames" then true else docLeavesOk kv.2) = true := by
    intro paths hq
    split
    · exact hall
    · refine dinsert_all _ mi _ _ hall ?_
      show (if ("locators" == "duration_frames") = true then true
        else docLeavesOk (plistOfDicts paths)) = true
      rw [if_neg (by decide), plistOfDicts_leaves]
      exact hq
  unfold locatorBlock
  split
  · exact hall
  · rename_i paths hres
    refine hkey paths ?_
    simp only [bind, Except.bind, pure, Except.pure] at hres
    by_cases hit : hasIterV v = true
    · rw [if_pos hit] at hres
      cases hls : pyListOf v with
      | error m =>
        rw [hls] at hres
        simp at hres
      | ok ls =>
        rw [hls] at hres
        exact hjp ls paths hres
    · rw [if_neg hit] at hres
      simp only [List.foldlM_nil, pure, Except.pure, Except.ok.injEq] at hres
      subst hres
      rfl

theorem descDirLoop_all (desc : PVal) (mi0 r : Dict)
    (hall : mi0.all (fun kv => if kv.1 == "duration_frames" then true
      else docLeavesOk kv.2) = true)
    (h : descDirLoop desc mi0 = .ok r) :
    r.all (fun kv => if kv.1 == "duration_frames" then true
      else docLeavesOk kv.2) = true := by
  unfold descDirLoop at h
  refine foldlM_all_pres _ _ ?_ _ _ _ h hall
  intro d n r2 hstep hdall
  by_cases hu : underscoreName n = true
  · rw [if_pos hu] at hstep
    simp only [pure, Except.pure, Except.ok.injEq] at hstep
    subst hstep
    exact hdall
  · rw [if_neg hu] at hstep
    cases hg : pyGetattrE desc n with
    | error m =>
      rw [hg] at hstep
      simp [bind, Except.bind] at hstep
    | ok v =>
      rw [hg] at hstep
      simp only [bind, Except.bind] at hstep
      repeat' split at hstep
      all_goals simp only [pure, Except.pure, Except.ok.injEq] at hstep
      all_goals subst hstep
      all_goals first
        | exact hdall
        | exact dinsert_all _ d n v hdall (mediaEntry_scalar n v (by assumption))
        | exact locatorBlock_all v d hdall

theorem pmBlock_all (md : PVal) (mi r : Dict)
    (hall : mi.all (fun kv => if kv.1 == "duration_frames" then true
      else docLeavesOk kv.2) = true)
    (h : pmBlock md mi = .ok r) :
    r.all (fun kv => if kv.1 == "duration_frames" then true
      else docLeavesOk kv.2) = true := by
  unfold pmBlock at h
  repeat' split at h
  all_goals first
    | (simp only [Except.ok.injEq] at h
       subst h
       first
         | exact hall
         | (rename_i pmi hpmi hne
            refine dinsert_all _ mi _ _ hall ?_
            show (if ("physical_media" == "duration_frames") = true then true
              else docLeavesOk (toPdictV pmi)) = true
            rw [if_neg (by decide), toPdictV_leaves]
            exact dirScalarFlatten_all _ [] [] pmi _
              (fun n w _ hw => scalar_docLeavesOk w hw) rfl hpmi))
    | simp at h

theorem clipEntryPolicy_mi (w : PVal) :
    clipEntryPolicy ("media_info", w) = (mediaInfoPolicy w || docLeavesOk w) := rfl


theorem mediaSection_all (mob : PVal) (ci r : Dict)
    (hall : ci.all clipEntryPolicy = true)
    (h : mediaSection mob ci = .ok r) :
    r.all clipEntryPolicy = true := by
  unfold mediaSection at h
  cases hga : getattrOpt mob "media_descriptor" with
  | none =>
    rw [hga] at h
    simp only [Except.ok.injEq] at h
    subst h
    exact hall
  | some rr =>
    cases rr with
    | raise m =>
      rw [hga] at h
      simp at h
    | ok md =>
      simp only [hga] at h
      by_cases ht : pyTruthy md = true
      · rw [if_pos ht] at h
        simp only [bind, Except.bind, pure, Except.pure, throw, throwThe,
          MonadExceptOf.throw] at h
        cases hgl : getattrOpt mob "length" with
        | none =>
          simp only [hgl] at h
          cases h1 : dirScalarFlatten md ["descriptor"] ([] : Dict) with
          | error m =>
            simp only [h1] at h
            exact absurd h (by simp)
          | ok mi1 =>
            simp only [h1] at h
            have hmi1 := dirScalarFlatten_all md ["descriptor"] ([] : Dict) mi1
              (fun kv => if kv.1 == "duration_frames" then true else docLeavesOk kv.2)
              (fun n w _ hw => mediaEntry_scalar n w hw) (by rfl) h1
            cases hgd : getattrOpt md "descriptor" with
            | none =>
              simp only [hgd] at h
              cases h3 : pmBlock md mi1 with
              | error m =>
                simp only [h3] at h
                exact absurd h (by simp)
              | ok mi3 =>
                simp only [h3, Except.ok.injEq] at h
                subst h
                refine dinsert_all _ ci _ _ hall ?_
                rw [clipEntryPolicy_mi, mediaInfoPolicy_toPdictV,
                  pmBlock_all md mi1 mi3 hmi1 h3]
                rfl
            | some rr2 =>
              cases rr2 with
              | raise m =>
                simp only [hgd] at h
                exact absurd h (by simp)
              | ok desc =>
                simp only [hgd] at h
                cases h2 : descDirLoop desc mi1 with
                | error m =>
                  simp only [h2] at h
                  exact absurd h (by simp)
                | ok mi2 =>
                  simp only [h2] at h
                  have hmi2 := descDirLoop_all desc mi1 mi2 hmi1 h2
                  cases h3 : pmBlock md mi2 with
                  | error m =>
                    simp only [h3] at h
                    exact absurd h (by simp)
                  | ok mi3 =>
                    simp only [h3, Except.ok.injEq] at h
                    subst h
                    refine dinsert_all _ ci _ _ hall ?_
                    rw [clipEntryPolicy_mi, mediaInfoPolicy_toPdictV,
                      pmBlock_all md mi2 mi3 hmi2 h3]
                    rfl
        | some rr2 =>
          cases rr2 with
          | raise m =>
            simp only [hgl] at h
            exact absurd h (by simp)
          | ok lv =>
            simp only [hgl] at h
            cases h1 : dirScalarFlatten md ["descriptor"] (dinsert [] "duration_frames" lv) with
            | error m =>
              simp only [h1] at h
              exact absurd h (by simp)
            | ok mi1 =>
              simp only [h1] at h
              have hmi1 := dirScalarFlatten_all md ["descriptor"] (dinsert [] "duration_frames" lv) mi1
                (fun kv => if kv.1 == "duration_frames" then true else docLeavesOk kv.2)
                (fun n w _ hw => mediaEntry_scalar n w hw) (by rfl) h1
              cases hgd : getattrOpt md "descriptor" with
              | none =>
                simp only [hgd] at h
                cases h3 : pmBlock md mi1 with
                | error m =>
                  simp only [h3] at h
                  exact absurd h (by simp)
                | ok mi3 =>
                  simp only [h3, Except.ok.injEq] at h
                  subst h
                  refine dinsert_all _ ci _ _ hall ?_
                  rw [clipEntryPolicy_mi, mediaInfoPolicy_toPdictV,
                    pmBlock_all md mi1 mi3 hmi1 h3]
                  rfl
              | some rr2 =>
                cases rr2 with
                | raise m =>
                  simp only [hgd] at h
                  exact absurd h (by simp)
                | ok desc =>
                  simp only [hgd] at h
                  cases h2 : descDirLoop desc mi1 with
                  | error m =>
                    simp only [h2] at h
                    exact absurd h (by simp)
                  | ok mi2 =>
                    simp only [h2] at h
                    have hmi2 := descDirLoop_all desc mi1 mi2 hmi1 h2
                    cases h3 : pmBlock md mi2 with
                    | error m =>
                      simp only [h3] at h
                      exact absurd h (by simp)
                    | ok mi3 =>
                      simp only [h3, Except.ok.injEq] at h
                      subst h
                      refine dinsert_all _ ci _ _ hall ?_
                      rw [clipEntryPolicy_mi, mediaInfoPolicy_toPdictV,
                        pmBlock_all md mi2 mi3 hmi2 h3]
                      rfl
      · rw [if_neg ht] at h
        simp only [Except.ok.injEq] at h
        subst h
        exact hall

theorem clipEntryPolicy_markers (w : PVal) :
    clipEntryPolicy ("markers", w) = docLeavesOk w := rfl

theorem clipEntryPolicy_markers_error (w : PVal) :
    clipEntryPolicy ("markers_error", w) = docLeavesOk w := rfl

theorem clipEntryPolicy_timecode (w : PVal) :
    clipEntryPolicy ("timecode", w) = docLeavesOk w := rfl

theorem clipEntryPolicy_timecode_error (w : PVal) :
    clipEntryPolicy ("timecode_error", w) = docLeavesOk w := rfl

theorem clipEntryPolicy_essence (w : PVal) :
    clipEntryPolicy ("essence", w) = docLeavesOk w := rfl

theorem clipEntryPolicy_essence_error (w : PVal) :
    clipEntryPolicy ("essence_error", w) = docLeavesOk w := rfl

theorem markerFold_all (ls : List PVal) (ms : List Dict)
    (h : (List.foldlM (fun (acc : List Dict) mk => do
        let mi ← dirScalarFlatten mk [] []
        pure (acc ++ [mi])) ([] : List Dict) ls) = .ok ms) :
    ms.all (fun d => d.all (fun kv => docLeavesOk kv.2)) = true := by
  refine listFold_all (fun mk => dirScalarFlatten mk [] [])
    (fun d => d.all (fun kv => docLeavesOk kv.2)) ?_ ls [] ms h rfl
  intro a d hd
  exact dirScalarFlatten_all a [] [] d _
    (fun n w _ hw => scalar_docLeavesOk w hw) rfl hd

theorem markersSection_all (mob : PVal) (ci r : Dict)
    (hall : ci.all clipEntryPolicy = true)
    (h : markersSection mob ci = .ok r) :
    r.all clipEntryPolicy = true := by
  unfold markersSection at h
  cases hga : getattrOpt mob "markers" with
  | none =>
    rw [hga] at h
    simp only [Except.ok.injEq] at h
    subst h
    exact hall
  | some rr =>
    cases rr with
    | raise m =>
      rw [hga] at h
      simp at h
    | ok mv =>
      simp only [hga] at h
      by_cases ht : pyTruthy mv = true
      · rw [if_pos ht] at h
        simp only [bind, Except.bind, pure, Except.pure] at h
        by_cases hit : hasIterV mv = true
        · rw [if_pos hit] at h
          cases hls : pyListOf mv with
          | error m =>
            simp only [hls, Except.ok.injEq] at h
            subst h
            refine dinsert_all _ ci _ _ hall ?_
            rw [clipEntryPolicy_markers_error]
            rfl
          | ok ls =>
            simp only [hls] at h
            split at h
            · rename_i ms heq
              simp only [Except.ok.injEq] at h
              subst h
              refine dinsert_all _ ci _ _ hall ?_
              rw [clipEntryPolicy_markers, plistOfDicts_leaves]
              exact markerFold_all ls ms heq
            · rename_i m heq
              simp only [Except.ok.injEq] at h
              subst h
              refine dinsert_all _ ci _ _ hall ?_
              rw [clipEntryPolicy_markers_error]
              rfl
        · rw [if_neg hit] at h
          split at h
          · rename_i ms heq
            try simp only [List.foldlM_nil, pure, Except.pure, Except.ok.injEq] at heq
            subst heq
            simp only [Except.ok.injEq] at h
            subst h
            refine dinsert_all _ ci _ _ hall ?_
            rw [clipEntryPolicy_markers, plistOfDicts_leaves]
            rfl
          · rename_i m heq
            exact absurd heq (by simp [pure, Except.pure])
      · rw [if_neg ht] at h
        simp only [Except.ok.injEq] at h
        subst h
        exact hall

theorem tcSection_all (mob : PVal) (ci r : Dict)
    (hall : ci.all clipEntryPolicy = true)
    (h : tcSection mob ci = .ok r) :
    r.all clipEntryPolicy = true := by
  unfold tcSection at h
  cases hga : getattrOpt mob "timecode" with
  | none =>
    rw [hga] at h
    simp only [Except.ok.injEq] at h
    subst h
    exact hall
  | some rr =>
    cases rr with
    | raise m =>
      rw [hga] at h
      simp at h
    | ok tcv =>
      simp only [hga] at h
      cases hdf : dirScalarFlatten tcv [] [] with
      | error m =>
        simp only [hdf] at h
        simp only [Except.ok.injEq] at h
        subst h
        refine dinsert_all _ ci _ _ hall ?_
        rw [clipEntryPolicy_timecode_error]
        rfl
      | ok ti =>
        simp only [hdf] at h
        simp only [Except.ok.injEq] at h
        subst h
        refine dinsert_all _ ci _ _ hall ?_
        rw [clipEntryPolicy_timecode, toPdictV_leaves]
        exact dirScalarFlatten_all tcv [] [] ti _
          (fun n w _ hw => scalar_docLeavesOk w hw) rfl hdf

theorem essenceSection_all (mob : PVal) (ci r : Dict)
    (hall : ci.all clipEntryPolicy = true)
    (h : essenceSection mob ci = .ok r) :
    r.all clipEntryPolicy = true := by
  unfold essenceSection at h
  cases hga : getattrOpt mob "essence" with
  | none =>
    rw [hga] at h
    simp only [Except.ok.injEq] at h
    subst h
    exact hall
  | some rr =>
    cases rr with
    | raise m =>
      rw [hga] at h
      simp at h
    | ok ev =>
      simp only [hga] at h
      by_cases ht : pyTruthy ev = true
      · rw [if_pos ht] at h
        cases hdf : dirScalarFlatten ev [] [] with
        | error m =>
          simp only [hdf] at h
          simp only [Except.ok.injEq] at h
          subst h
          refine dinsert_all _ ci _ _ hall ?_
          rw [clipEntryPolicy_essence_error]
          rfl
        | ok ei =>
          simp only [hdf] at h
          simp only [Except.ok.injEq] at h
          subst h
          split
          · exact hall
          · refine dinsert_all _ ci _ _ hall ?_
            rw [clipEntryPolicy_essence, toPdictV_leaves]
            exact dirScalarFlatten_all ev [] [] ei _
              (fun n w _ hw => scalar_docLeavesOk w hw) rfl hdf
      · rw [if_neg ht] at h
        simp only [Except.ok.injEq] at h
        subst h
        exact hall

theorem extractClipOne_policy (mob : PVal) (ci : Dict)
    (h : extractClipOne mob = .ok ci) :
    ci.all clipEntryPolicy = true := by
  unfold extractClipOne at h
  simp only [bind, Except.bind] at h
  cases h0 : clipIdentity mob with
  | error m =>
    simp only [h0] at h
    exact absurd h (by simp)
  | ok ci0 =>
    simp only [h0] at h
    have hall1 := mobDictLoop_all mob ci0 clipEntryPolicy
      clipEntryPolicy_scalar (fun n s => clipEntryPolicy_scalar n (.str s) rfl)
      (clipIdentity_all mob ci0 h0)
    cases h2 : mobDirLoop mob (mobDictLoop mob ci0) with
    | error m =>
      simp only [h2] at h
      exact absurd h (by simp)
    | ok ci2 =>
      simp only [h2] at h
      have hall2 := mobDirLoop_all mob _ ci2 clipEntryPolicy
        clipEntryPolicy_scalar (fun n s => clipEntryPolicy_scalar n (.str s) rfl) h2 hall1
      cases h3 : commentsSection mob ci2 with
      | error m =>
        simp only [h3] at h
        exact absurd h (by simp)
      | ok ci3 =>
        simp only [h3] at h
        have hall3 := commentsSection_all mob ci2 ci3 hall2 h3
        cases h4 : mediaSection mob ci3 with
        | error m =>
          simp only [h4] at h
          exact absurd h (by simp)
        | ok ci4 =>
          simp only [h4] at h
          have hall4 := mediaSection_all mob ci3 ci4 hall3 h4
          cases h5 : markersSection mob ci4 with
          | error m =>
            simp only [h5] at h
            exact absurd h (by simp)
          | ok ci5 =>
            simp only [h5] at h
            have hall5 := markersSection_all mob ci4 ci5 hall4 h5
            cases h6 : tcSection mob ci5 with
            | error m =>
              simp only [h6] at h
              exact absurd h (by simp)
            | ok ci6 =>
              simp only [h6] at h
              exact essenceSection_all mob ci6 ci (tcSection_all mob ci5 ci6 hall5 h6) h

theorem extractClips_policy (f : AvbFile) (cs : List Dict)
    (h : extractClips f = .ok cs) :
    cs.all (fun d => d.all clipEntryPolicy) = true := by
  unfold extractClips at h
  cases hga : getattrOpt (.obj f.content) "mobs" with
  | none =>
    rw [hga] at h
    simp only [Except.ok.injEq] at h
    subst h
    rfl
  | some rr =>
    cases rr with
    | raise m =>
      rw [hga] at h
      simp at h
    | ok mv =>
      simp only [hga] at h
      simp only [bind, Except.bind, pure, Except.pure] at h
      by_cases hit : hasIterV mv = true
      · rw [if_pos hit] at h
        cases hls : pyListOf mv with
        | error m =>
          simp only [hls] at h
          exact absurd h (by simp)
        | ok mobs =>
          simp only [hls] at h
          exact listFold_all extractClipOne (fun d => d.all clipEntryPolicy)
            (fun a d hd => extractClipOne_policy a d hd) mobs [] cs h rfl
      · rw [if_neg hit] at h
        try simp only [List.foldlM_nil, pure, Except.pure, Except.ok.injEq] at h
        subst h
        rfl

theorem seqEntryPolicy_uc (w : PVal) :
    seqEntryPolicy ("user_comments", w) = true := rfl

theorem seqEntryPolicy_settings (w : PVal) :
    seqEntryPolicy ("settings", w) = true := rfl

theorem seqEntryPolicy_markers (w : PVal) :
    seqEntryPolicy ("markers", w) = true := rfl

theorem seqIdentity_all (mob : PVal) (ci : Dict)
    (h : seqIdentity mob = .ok ci) :
    ci.all seqEntryPolicy = true := by
  unfold seqIdentity at h
  simp only [bind, Except.bind, pure, Except.pure] at h
  cases hmid : guardedStr mob "mob_id" with
  | error m =>
    rw [hmid] at h
    repeat' split at h
    all_goals simp_all
  | ok mid =>
    rw [hmid] at h
    cases hct : guardedFmt mob "creation_time" with
    | error m =>
      rw [hct] at h
      repeat' split at h
      all_goals simp_all
    | ok ct =>
      rw [hct] at h
      cases hlm : guardedFmt mob "last_modified" with
      | error m =>
        rw [hlm] at h
        repeat' split at h
        all_goals simp_all
      | ok lm =>
        rw [hlm] at h
        have hmidL := guardedStr_leaves mob "mob_id" mid hmid
        have hctL := guardedFmt_leaves mob "creation_time" ct hct
        have hlmL := guardedFmt_leaves mob "last_modified" lm hlm
        repeat' split at h
        all_goals try (simp_all; done)
        all_goals simp only [Except.ok.injEq] at h
        all_goals subst h
        all_goals simp only [List.all_cons, List.all_nil, Bool.and_true, Bool.and_eq_true]
        all_goals simp_all [seqEntryPolicy, docLeavesOk]
        all_goals (rintro a b (⟨rfl, rfl⟩ | ⟨rfl, rfl⟩ | ⟨rfl, rfl⟩ | ⟨rfl, rfl⟩) <;> first | rfl | simp_all [docLeavesOk])

theorem seqEntry_scalar_excl (n : String) (v : PVal)
    (hne : (["name", "mob_id", "creation_time", "last_modified", "tracks"] : List String).contains n = false)
    (hs : isScalarV v = true) :
    seqEntryPolicy (n, v) = true := by
  refine seqEntryPolicy_scalar n v hs ?_
  by_cases hn : n = "tracks"
  · subst hn
    simp at hne
  · simp [hn]

theorem componentEntryPolicy_smi (s : String) :
    componentEntryPolicy ("source_mob_id", .str s) = true := rfl

theorem extractComponent_all (c : PVal) (cc : Dict)
    (h : extractComponent c = .ok cc) :
    cc.all componentEntryPolicy = true := by
  unfold extractComponent at h
  simp only [bind, Except.bind, pure, Except.pure, throw, throwThe,
    MonadExceptOf.throw] at h
  cases hst : guardedRead c "start_time" with
  | error m =>
    rw [hst] at h
    repeat' split at h
    all_goals simp_all
  | ok st =>
    rw [hst] at h
    cases hln : guardedRead c "length" with
    | error m =>
      rw [hln] at h
      repeat' split at h
      all_goals simp_all
    | ok ln =>
      rw [hln] at h
      have hbase : ∀ (w : PVal),
          ([("type", PVal.str (pyTypeName c)), ("start", st), ("length", ln)] : Dict).all
            componentEntryPolicy = true := fun _ => by
        simp only [List.all_cons, List.all_nil, Bool.and_true]
        rfl
      repeat' split at h
      all_goals try (simp_all; done)
      all_goals first
        | (refine dirScalarFlatten_all c _ _ cc componentEntryPolicy
             (fun n w _ hw => componentEntryPolicy_scalar n w hw) ?_ h
           repeat'
             first
               | exact hbase PVal.pynone
               | (refine dinsert_all _ _ _ _ ?_ (by first | rfl | exact componentEntryPolicy_smi _)))

theorem trackEntryPolicy_effects (w : PVal) :
    trackEntryPolicy ("effects", w) = true := rfl

theorem map_all_toPdict_pol (q : PVal → Bool) (q2 : Dict → Bool)
    (hq : ∀ d, q (toPdictV d) = q2 d) :
    ∀ (l : List Dict), (l.map toPdictV).all q = l.all q2
  | [] => rfl
  | d :: tl => by
    simp only [List.map_cons, List.all_cons, hq d, map_all_toPdict_pol q q2 hq tl]

theorem trackEntryPolicy_clips (clips : List Dict)
    (hc : clips.all (fun d => d.all componentEntryPolicy) = true) :
    trackEntryPolicy ("clips", plistOfDicts clips) = true := by
  have h0 : trackEntryPolicy ("clips", plistOfDicts clips) =
      (((VList.ofList (clips.map toPdictV)).toList).all componentPolicy
        || docLeavesOk (plistOfDicts clips)) := rfl
  rw [h0, vlist_toList_ofList,
    map_all_toPdict_pol componentPolicy _ componentPolicy_toPdictV, hc]
  rfl

theorem extractTrack_all (track : PVal) (ti : Dict)
    (h : extractTrack track = .ok ti) :
    ti.all trackEntryPolicy = true := by
  unfold extractTrack at h
  simp only [bind, Except.bind, pure, Except.pure, throw, throwThe,
    MonadExceptOf.throw] at h
  cases h1 : guardedRead track "name" with
  | error m =>
    rw [h1] at h
    repeat' split at h
    all_goals simp_all
  | ok nm =>
  rw [h1] at h
  cases h2 : guardedRead track "track_type" with
  | error m =>
    rw [h2] at h
    repeat' split at h
    all_goals simp_all
  | ok ty =>
  rw [h2] at h
  cases h3 : guardedRead track "length" with
  | error m =>
    rw [h3] at h
    repeat' split at h
    all_goals simp_all
  | ok ln =>
  rw [h3] at h
  cases h4 : guardedRead track "id" with
  | error m =>
    rw [h4] at h
    repeat' split at h
    all_goals simp_all
  | ok idv =>
  rw [h4] at h
  cases h5 : guardedRead track "enabled" with
  | error m =>
    rw [h5] at h
    repeat' split at h
    all_goals simp_all
  | ok en =>
  rw [h5] at h
  cases hdf : dirScalarFlatten track
      ["name", "track_type", "length", "id", "enabled", "component"]
      [("name", nm), ("type", ty), ("length", ln), ("id", idv), ("enabled", en)] with
  | error m =>
    simp only [hdf] at h
    exact absurd h (by simp)
  | ok ti1 =>
  simp only [hdf] at h
  have hti1 : ti1.all trackEntryPolicy = true := by
    refine dirScalarFlatten_all track _ _ ti1 trackEntryPolicy
      (fun n w _ hw => trackEntryPolicy_scalar n w hw) ?_ hdf
    rfl
  cases hc : getattrOpt track "component" with
  | none =>
    simp only [hc, Except.ok.injEq] at h
    subst h
    exact hti1
  | some rr =>
  cases rr with
  | raise m =>
    simp only [hc] at h
    exact absurd h (by simp)
  | ok comp =>
  simp only [hc] at h
  by_cases htr : pyTruthy comp = true
  case neg =>
    rw [if_neg htr] at h
    simp only [Except.ok.injEq] at h
    subst h
    exact hti1
  case pos =>
  rw [if_pos htr] at h
  cases hp : getattrOpt comp "parameters" with
  | none =>
    simp only [hp] at h
    cases hcm : getattrOpt comp "components" with
    | none =>
      simp only [hcm, Except.ok.injEq] at h
      subst h
      exact hti1
    | some rr3 =>
      cases rr3 with
      | raise m2 =>
        simp only [hcm] at h
        exact absurd h (by simp)
      | ok cs2 =>
        simp only [hcm] at h
        cases hcl : pyListOf cs2 with
        | error m2 =>
          simp only [hcl] at h
          exact absurd h (by simp)
        | ok cl =>
          simp only [hcl] at h
          split at h
          · rename_i m2 heqf
            exact absurd h (by simp)
          · rename_i clips heqf
            simp only [Except.ok.injEq] at h
            subst h
            refine dinsert_all _ _ _ _ hti1 ?_
            refine trackEntryPolicy_clips clips ?_
            exact listFold_all extractComponent (fun d => d.all componentEntryPolicy)
              (fun a d hd => extractComponent_all a d hd) cl [] clips heqf rfl
  | some rr2 =>
  cases rr2 with
  | raise m =>
    simp only [hp] at h
    exact absurd h (by simp)
  | ok ps =>
  simp only [hp] at h
  cases hpl : pyListOf ps with
  | error m =>
    simp only [hpl] at h
    exact absurd h (by simp)
  | ok pl =>
  simp only [hpl] at h
  split at h
  case h_1 m heqe =>
    exact absurd h (by simp)
  case h_2 effects heqe =>
  by_cases hemp : effects.isEmpty = true
  case pos =>
    rw [if_pos hemp] at h
    cases hcm : getattrOpt comp "components" with
    | none =>
      simp only [hcm, Except.ok.injEq] at h
      subst h
      exact hti1
    | some rr3 =>
      cases rr3 with
      | raise m2 =>
        simp only [hcm] at h
        exact absurd h (by simp)
      | ok cs2 =>
        simp only [hcm] at h
        cases hcl : pyListOf cs2 with
        | error m2 =>
          simp only [hcl] at h
          exact absurd h (by simp)
        | ok cl =>
          simp only [hcl] at h
          split at h
          · rename_i m2 heqf
            exact absurd h (by simp)
          · rename_i clips heqf
            simp only [Except.ok.injEq] at h
            subst h
            refine dinsert_all _ _ _ _ hti1 ?_
            refine trackEntryPolicy_clips clips ?_
            exact listFold_all extractComponent (fun d => d.all componentEntryPolicy)
              (fun a d hd => extractComponent_all a d hd) cl [] clips heqf rfl
  case neg =>
    rw [if_neg hemp] at h
    have hti2 : (dinsert ti1 "effects" (plistOfDicts effects)).all trackEntryPolicy = true :=
      dinsert_all _ ti1 _ _ hti1 (trackEntryPolicy_effects _)
    cases hcm : getattrOpt comp "components" with
    | none =>
      simp only [hcm, Except.ok.injEq] at h
      subst h
      exact hti2
    | some rr3 =>
      cases rr3 with
      | raise m2 =>
        simp only [hcm] at h
        exact absurd h (by simp)
      | ok cs2 =>
        simp only [hcm] at h
        cases hcl : pyListOf cs2 with
        | error m2 =>
          simp only [hcl] at h
          exact absurd h (by simp)
        | ok cl =>
          simp only [hcl] at h
          split at h
          · rename_i m2 heqf
            exact absurd h (by simp)
          · rename_i clips heqf
            simp only [Except.ok.injEq] at h
            subst h
            refine dinsert_all _ _ _ _ hti2 ?_
            refine trackEntryPolicy_clips clips ?_
            exact listFold_all extractComponent (fun d => d.all componentEntryPolicy)
              (fun a d hd => extractComponent_all a d hd) cl [] clips heqf rfl

theorem seqEntryPolicy_tracks (tracks : List Dict)
    (ht : tracks.all (fun d => d.all trackEntryPolicy) = true) :
    seqEntryPolicy ("tracks", plistOfDicts tracks) = true := by
  have h0 : seqEntryPolicy ("tracks", plistOfDicts tracks) =
      ((VList.ofList (tracks.map toPdictV)).toList).all trackPolicy := rfl
  rw [h0, vlist_toList_ofList,
    map_all_toPdict_pol trackPolicy _ trackPolicy_toPdictV, ht]

theorem tracksSection_all (mob : PVal) (ci r : Dict)
    (hall : ci.all seqEntryPolicy = true)
    (h : tracksSection mob ci = .ok r) :
    r.all seqEntryPolicy = true := by
  unfold tracksSection at h
  cases hga : getattrOpt mob "tracks" with
  | none =>
    rw [hga] at h
    simp only [Except.ok.injEq] at h
    subst h
    exact hall
  | some rr =>
    cases rr with
    | raise m =>
      rw [hga] at h
      simp at h
    | ok tv =>
      simp only [hga] at h
      simp only [bind, Except.bind, pure, Except.pure] at h
      cases hls : pyListOf tv with
      | error m =>
        simp only [hls] at h
        exact absurd h (by simp)
      | ok ts =>
        simp only [hls] at h
        split at h
        · rename_i m heqf
          exact absurd h (by simp)
        · rename_i tracks heqf
          simp only [Except.ok.injEq] at h
          subst h
          refine dinsert_all _ ci _ _ hall ?_
          refine seqEntryPolicy_tracks tracks ?_
          exact listFold_all extractTrack (fun d => d.all trackEntryPolicy)
            (fun a d hd => extractTrack_all a d hd) ts [] tracks heqf rfl

theorem seqCommentsSection_all (mob : PVal) (ci r : Dict)
    (hall : ci.all seqEntryPolicy = true)
    (h : seqCommentsSection mob ci = .ok r) :
    r.all seqEntryPolicy = true := by
  unfold seqCommentsSection at h
  cases hga : getattrOpt mob "user_comments" with
  | none =>
    rw [hga] at h
    simp only [Except.ok.injEq] at h
    subst h
    exact hall
  | some rr =>
    cases rr with
    | raise m =>
      rw [hga] at h
      simp at h
    | ok uc =>
      simp only [hga] at h
      by_cases ht : pyTruthy uc = true
      · rw [if_pos ht] at h
        simp only [bind, Except.bind, pure, Except.pure] at h
        cases hls : pyListOf uc with
        | error m =>
          simp only [hls] at h
          exact absurd h (by simp)
        | ok cl =>
          simp only [hls] at h
          split at h
          · rename_i m heqf
            exact absurd h (by simp)
          · rename_i ucd heqf
            simp only [Except.ok.injEq] at h
            subst h
            exact dinsert_all _ ci _ _ hall (seqEntryPolicy_uc _)
      · rw [if_neg ht] at h
        simp only [Except.ok.injEq] at h
        subst h
        exact hall

theorem settingsSection_all (mob : PVal) (ci r : Dict)
    (hall : ci.all seqEntryPolicy = true)
    (h : settingsSection mob ci = .ok r) :
    r.all seqEntryPolicy = true := by
  unfold settingsSection at h
  cases hga : getattrOpt mob "descriptor" with
  | none =>
    rw [hga] at h
    simp only [Except.ok.injEq] at h
    subst h
    exact hall
  | some rr =>
    cases rr with
    | raise m =>
      rw [hga] at h
      simp at h
    | ok desc =>
      simp only [hga] at h
      simp only [bind, Except.bind, pure, Except.pure, throw, throwThe,
        MonadExceptOf.throw] at h
      split at h
      · rename_i m heqf
        exact absurd h (by simp)
      · rename_i st heqf
        simp only [Except.ok.injEq] at h
        subst h
        split
        · exact hall
        · exact dinsert_all _ ci _ _ hall (seqEntryPolicy_settings _)

theorem seqMarkersSection_all (mob : PVal) (ci r : Dict)
    (hall : ci.all seqEntryPolicy = true)
    (h : seqMarkersSection mob ci = .ok r) :
    r.all seqEntryPolicy = true := by
  unfold seqMarkersSection at h
  cases hga : getattrOpt mob "markers" with
  | none =>
    rw [hga] at h
    simp only [Except.ok.injEq] at h
    subst h
    exact hall
  | some rr =>
    cases rr with
    | raise m =>
      rw [hga] at h
      simp at h
    | ok mv =>
      simp only [hga] at h
      by_cases ht : pyTruthy mv = true
      · rw [if_pos ht] at h
        simp only [bind, Except.bind, pure, Except.pure] at h
        cases hls : pyListOf mv with
        | error m =>
          simp only [hls] at h
          exact absurd h (by simp)
        | ok ml =>
          simp only [hls] at h
          split at h
          · rename_i m heqf
            exact absurd h (by simp)
          · rename_i ms heqf
            simp only [Except.ok.injEq] at h
            subst h
            exact dinsert_all _ ci _ _ hall (seqEntryPolicy_markers _)
      · rw [if_neg ht] at h
        simp only [Except.ok.injEq] at h
        subst h
        exact hall

theorem extractSeqOne_policy (mob : PVal) (si : Dict)
    (h : extractSeqOne mob = .ok si) :
    si.all seqEntryPolicy = true := by
  unfold extractSeqOne at h
  simp only [bind, Except.bind] at h
  cases h0 : seqIdentity mob with
  | error m =>
    simp only [h0] at h
    exact absurd h (by simp)
  | ok si0 =>
    simp only [h0] at h
    cases h1 : dirScalarFlatten mob
        ["name", "mob_id", "creation_time", "last_modified", "tracks"] si0 with
    | error m =>
      simp only [h1] at h
      exact absurd h (by simp)
    | ok si1 =>
      simp only [h1] at h
      have hall1 := dirScalarFlatten_all mob _ si0 si1 seqEntryPolicy
        (fun n w hne hw => seqEntry_scalar_excl n w hne hw)
        (seqIdentity_all mob si0 h0) h1
      cases h2 : seqCommentsSection mob si1 with
      | error m =>
        simp only [h2] at h
        exact absurd h (by simp)
      | ok si2 =>
        simp only [h2] at h
        have hall2 := seqCommentsSection_all mob si1 si2 hall1 h2
        cases h3 : settingsSection mob si2 with
        | error m =>
          simp only [h3] at h
          exact absurd h (by simp)
        | ok si3 =>
          simp only [h3] at h
          have hall3 := settingsSection_all mob si2 si3 hall2 h3
          cases h4 : tracksSection mob si3 with
          | error m =>
            simp only [h4] at h
            exact absurd h (by simp)
          | ok si4 =>
            simp only [h4] at h
            exact seqMarkersSection_all mob si4 si
              (tracksSection_all mob si3 si4 hall3 h4) h

theorem seqFold_all : ∀ (mobs : List PVal) (acc r : List Dict),
    (List.foldlM (fun (acc : List Dict) mob =>
      if pyTypeName mob == "CompositionMob" then do
        let si ← extractSeqOne mob
        pure (acc ++ [si])
      else pure acc) acc mobs) = .ok r →
    acc.all (fun d => d.all seqEntryPolicy) = true →
    r.all (fun d => d.all seqEntryPolicy) = true
  | [], acc, r => fun h hall => by
    simp only [List.foldlM_nil, pure, Except.pure, Except.ok.injEq] at h
    subst h
    exact hall
  | mob :: tl, acc, r => fun h hall => by
    rw [List.foldlM_cons] at h
    by_cases hty : (pyTypeName mob == "CompositionMob") = true
    · rw [if_pos hty] at h
      cases hs : extractSeqOne mob with
      | error m =>
        rw [hs] at h
        simp [bind, Except.bind] at h
      | ok si =>
        rw [hs] at h
        simp only [bind, Except.bind, pure, Except.pure] at h
        refine seqFold_all tl (acc ++ [si]) r h ?_
        rw [List.all_append]
        simp only [List.all_cons, List.all_nil, Bool.and_true, hall,
          extractSeqOne_policy mob si hs]
    · rw [if_neg hty] at h
      simp only [bind, Except.bind, pure, Except.pure] at h
      exact seqFold_all tl acc r h hall

theorem extractSeqs_policy (f : AvbFile) (ss : List Dict)
    (h : extractSeqs f = .ok ss) :
    ss.all (fun d => d.all seqEntryPolicy) = true := by
  unfold extractSeqs at h
  cases hga : getattrOpt (.obj f.content) "mobs" with
  | none =>
    rw [hga] at h
    simp only [Except.ok.injEq] at h
    subst h
    rfl
  | some rr =>
    cases rr with
    | raise m =>
      rw [hga] at h
      simp at h
    | ok mv =>
      simp only [hga] at h
      simp only [bind, Except.bind, pure, Except.pure] at h
      cases hls : pyListOf mv with
      | error m =>
        simp only [hls] at h
        exact absurd h (by simp)
      | ok mobs =>
        simp only [hls] at h
        exact seqFold_all mobs [] ss h rfl

theorem basicInfoEntry_leaf (n : String) (v : PVal)
    (hn : (n == "view_settings") = false) (hv : docLeavesOk v = true) :
    basicInfoEntryPolicy (n, v) = true := by
  unfold basicInfoEntryPolicy
  by_cases h1 : (n == "bin_name" || n == "file_header") = true
  · rw [if_pos h1]
  · rw [if_neg h1, if_neg (show ¬((n == "view_settings") = true) from by simp [hn])]
    exact hv

theorem basicInfoEntryPolicy_bn (w : PVal) :
    basicInfoEntryPolicy ("bin_name", w) = true := rfl

theorem basicInfoEntryPolicy_fh (w : PVal) :
    basicInfoEntryPolicy ("file_header", w) = true := rfl

theorem basicInfoEntryPolicy_vs (d : Dict) :
    basicInfoEntryPolicy ("view_settings", toPdictV d) =
      d.all (fun kv2 => if kv2.1 == "name" then true else docLeavesOk kv2.2) := by
  have h0 : basicInfoEntryPolicy ("view_settings", toPdictV d) =
      ((Entries.ofList d).toList).all (fun kv2 =>
        if kv2.1 == "name" then true else docLeavesOk kv2.2) := rfl
  rw [h0, entries_toList_ofList]

theorem all_ite (c : Prop) [Decidable c] (a b : Dict) (p : String × PVal → Bool)
    (ha : a.all p = true) (hb : b.all p = true) :
    (if c then a else b).all p = true := by
  split
  · exact ha
  · exact hb

theorem biStart_all (env : ExtractEnv) (binPath : String) (f : AvbFile) (bi : Dict)
    (h : biStart env binPath f = .ok bi) :
    bi.all basicInfoEntryPolicy = true := by
  unfold biStart at h
  simp only [bind, Except.bind] at h
  cases h1 : pyGetattrE (.obj f.content) "display_mode" with
  | error m =>
    simp only [h1] at h
    exact absurd h (by simp)
  | ok dm =>
    simp only [h1] at h
    cases h2 : enumNameOfValue env.viewModes dm with
    | error m =>
      simp only [h2] at h
      exact absurd h (by simp)
    | ok vm =>
      simp only [h2, Except.ok.injEq] at h
      subst h
      simp only [List.all_cons, List.all_nil, Bool.and_true, Bool.and_eq_true]
      exact ⟨basicInfoEntry_leaf _ _ (by decide) rfl,
             basicInfoEntry_leaf _ _ (by decide) rfl,
             basicInfoEntry_leaf _ _ (by decide) rfl,
             basicInfoEntry_leaf _ _ (by decide) rfl,
             basicInfoEntry_leaf _ _ (by decide) rfl⟩

theorem displayOptionsBlock_all (env : ExtractEnv) (f : AvbFile) (bi : Dict)
    (hall : bi.all basicInfoEntryPolicy = true) :
    (displayOptionsBlock env f bi).all basicInfoEntryPolicy = true := by
  unfold displayOptionsBlock
  split
  · exact dinsert_all _ bi _ _ hall
      (basicInfoEntry_leaf "display_options" _ (by decide) (plistOfStrs_leaves []))
  · exact dinsert_all _ _ _ _
      (dinsert_all _ bi _ _ hall
        (basicInfoEntry_leaf "display_options" _ (by decide) (plistOfStrs_leaves [])))
      (basicInfoEntry_leaf "display_options_error" _ (by decide) rfl)
  · split
    · exact dinsert_all _ bi _ _ hall
        (basicInfoEntry_leaf "display_options" _ (by decide) (plistOfStrs_leaves _))
    · exact dinsert_all _ bi _ _ hall
        (basicInfoEntry_leaf "display_options" _ (by decide) (plistOfStrs_leaves []))

theorem binNameBlock_all (f : AvbFile) (bi r : Dict)
    (hall : bi.all basicInfoEntryPolicy = true)
    (h : binNameBlock f bi = .ok r) :
    r.all basicInfoEntryPolicy = true := by
  unfold binNameBlock at h
  cases hga : getattrOpt (.obj f.content) "name" with
  | none =>
    simp only [hga, Except.ok.injEq] at h
    subst h
    exact hall
  | some rr =>
    cases rr with
    | raise m =>
      simp only [hga] at h
      exact absurd h (by simp)
    | ok v =>
      simp only [hga, Except.ok.injEq] at h
      subst h
      exact dinsert_all _ bi _ _ hall (basicInfoEntryPolicy_bn v)

theorem vsEntry_scalar (n : String) (v : PVal) (hs : isScalarV v = true) :
    (if n == "name" then true else docLeavesOk v) = true := by
  by_cases hn : (n == "name") = true
  · rw [if_pos hn]
  · rw [if_neg hn]
    exact scalar_docLeavesOk v hs

theorem viewSettingsBlock_all (f : AvbFile) (bi r : Dict)
    (hall : bi.all basicInfoEntryPolicy = true)
    (h : viewSettingsBlock f bi = .ok r) :
    r.all basicInfoEntryPolicy = true := by
  unfold viewSettingsBlock at h
  cases hga : getattrOpt (.obj f.content) "view_setting" with
  | none =>
    simp only [hga, Except.ok.injEq] at h
    subst h
    exact hall
  | some rr =>
    cases rr with
    | raise m =>
      simp only [hga] at h
      exact absurd h (by simp)
    | ok vsv =>
      simp only [hga] at h
      cases hpd : getattrOpt vsv "property_data" with
      | none =>
        simp only [hpd, Except.ok.injEq] at h
        subst h
        exact hall
      | some rr2 =>
        cases rr2 with
        | raise m =>
          simp only [hpd] at h
          exact absurd h (by simp)
        | ok pd =>
          simp only [hpd] at h
          cases pd
          case pdict e =>
            cases hfind : (e.toList).find? (fun (kv : String × PVal) => kv.1 == "name") with
            | none =>
              simp only [hfind, Except.ok.injEq] at h
              subst h
              refine dinsert_all _ bi _ _ hall ?_
              rw [basicInfoEntryPolicy_vs]
              exact scalarFilterFold_all _ (fun n v hs => vsEntry_scalar n v hs)
                (e.toList) [] rfl
            | some kv =>
              simp only [hfind, Except.ok.injEq] at h
              subst h
              refine dinsert_all _ bi _ _ hall ?_
              rw [basicInfoEntryPolicy_vs]
              exact scalarFilterFold_all _ (fun n v hs => vsEntry_scalar n v hs)
                (e.toList) (dinsert [] "name" kv.2) rfl
          all_goals simp at h

theorem attributesBlock_all (f : AvbFile) (bi r : Dict)
    (hall : bi.all basicInfoEntryPolicy = true)
    (h : attributesBlock f bi = .ok r) :
    r.all basicInfoEntryPolicy = true := by
  unfold attributesBlock at h
  cases hga : getattrOpt (.obj f.content) "attributes" with
  | none =>
    simp only [hga, Except.ok.injEq] at h
    subst h
    exact hall
  | some rr =>
    cases rr with
    | raise m =>
      simp only [hga] at h
      exact absurd h (by simp)
    | ok av =>
      simp only [hga] at h
      cases av
      case pdict e =>
        simp only [Except.ok.injEq] at h
        subst h
        apply all_ite
        · exact hall
        · refine dinsert_all _ bi _ _ hall ?_
          refine basicInfoEntry_leaf "attributes" _ (by decide) ?_
          rw [toPdictV_leaves]
          exact scalarFilterFold_all _ (fun n v hs => scalar_docLeavesOk v hs)
            (e.toList) [] rfl
      all_goals simp at h

theorem countsFold_all : ∀ (mobs : List PVal) (acc : Dict),
    acc.all (fun kv => docLeavesOk kv.2) = true →
    (mobs.foldl (fun acc mob =>
      let tn := pyTypeName mob
      match dlookup acc tn with
      | some (.int c) => dinsert acc tn (.int (c + 1))
      | _ => dinsert acc tn (.int 1)) acc).all (fun kv => docLeavesOk kv.2) = true
  | [], _ => fun hall => hall
  | mob :: tl, acc => fun hall => by
    rw [List.foldl_cons]
    apply countsFold_all tl
    cases hdl : dlookup acc (pyTypeName mob) with
    | none =>
      simp only [hdl]
      exact dinsert_all _ acc _ _ hall rfl
    | some w =>
      simp only [hdl]
      cases w
      all_goals exact dinsert_all _ acc _ _ hall rfl

theorem itemCountsBlock_all (f : AvbFile) (bi r : Dict)
    (hall : bi.all basicInfoEntryPolicy = true)
    (h : itemCountsBlock f bi = .ok r) :
    r.all basicInfoEntryPolicy = true := by
  unfold itemCountsBlock at h
  cases hga : getattrOpt (.obj f.content) "mobs" with
  | none =>
    simp only [hga, Except.ok.injEq] at h
    subst h
    exact hall
  | some rr =>
    cases rr with
    | raise m =>
      simp only [hga] at h
      exact absurd h (by simp)
    | ok mv =>
      simp only [hga] at h
      simp only [bind, Except.bind, pure, Except.pure] at h
      by_cases hit : hasIterV mv = true
      · rw [if_pos hit] at h
        cases hls : pyListOf mv with
        | error m =>
          simp only [hls] at h
          exact absurd h (by simp)
        | ok mobs =>
          simp only [hls] at h
          rw [ite_eq_iff] at h
          rcases h with ⟨-, h⟩ | ⟨-, h⟩
          · simp only [Except.ok.injEq] at h
            subst h
            exact hall
          · simp only [Except.ok.injEq] at h
            subst h
            refine dinsert_all _ _ _ _ (dinsert_all _ bi _ _ hall ?_)
              (basicInfoEntry_leaf "total_items" _ (by decide) rfl)
            refine basicInfoEntry_leaf "item_counts" _ (by decide) ?_
            rw [toPdictV_leaves]
            exact countsFold_all mobs [] rfl
      · rw [if_neg hit] at h
        rw [ite_eq_iff] at h
        rcases h with ⟨-, h⟩ | ⟨-, h⟩
        · simp only [Except.ok.injEq] at h
          subst h
          exact hall
        · simp only [Except.ok.injEq] at h
          subst h
          refine dinsert_all _ _ _ _ (dinsert_all _ bi _ _ hall ?_)
            (basicInfoEntry_leaf "total_items" _ (by decide) rfl)
          refine basicInfoEntry_leaf "item_counts" _ (by decide) ?_
          rw [toPdictV_leaves]
          exact countsFold_all [] [] rfl

theorem binTimesBlock_all (f : AvbFile) (bi r : Dict)
    (hall : bi.all basicInfoEntryPolicy = true)
    (h : binTimesBlock f bi = .ok r) :
    r.all basicInfoEntryPolicy = true := by
  unfold binTimesBlock at h
  simp only [bind, Except.bind, pure, Except.pure, throw, throwThe,
    MonadExceptOf.throw] at h
  cases hc : getattrOpt (.obj f.content) "creation_time" with
  | none =>
    simp only [hc] at h
    cases hl : getattrOpt (.obj f.content) "last_modified" with
    | none =>
      simp only [hl, Except.ok.injEq] at h
      subst h
      exact hall
    | some rr =>
      cases rr with
      | raise m =>
        simp only [hl] at h
        exact absurd h (by simp)
      | ok v =>
        simp only [hl] at h
        cases hs : pyStrftime v with
        | error m =>
          simp only [hs, Except.bind] at h
          exact absurd h (by simp)
        | ok s =>
          simp only [hs, Except.bind, Except.ok.injEq] at h
          subst h
          exact dinsert_all _ bi _ _ hall
            (basicInfoEntry_leaf "last_modified_bin" _ (by decide) rfl)
  | some rr =>
    cases rr with
    | raise m =>
      simp only [hc] at h
      exact absurd h (by simp)
    | ok v =>
      simp only [hc] at h
      cases hs : pyStrftime v with
      | error m =>
        simp only [hs, Except.bind] at h
        exact absurd h (by simp)
      | ok s =>
        simp only [hs, Except.bind] at h
        have hall1 : (dinsert bi "creation_time" (.str s)).all basicInfoEntryPolicy = true :=
          dinsert_all _ bi _ _ hall (basicInfoEntry_leaf "creation_time" _ (by decide) rfl)
        cases hl : getattrOpt (.obj f.content) "last_modified" with
        | none =>
          simp only [hl, Except.ok.injEq] at h
          subst h
          exact hall1
        | some rr2 =>
          cases rr2 with
          | raise m =>
            simp only [hl] at h
            exact absurd h (by simp)
          | ok w =>
            simp only [hl] at h
            cases hs2 : pyStrftime w with
            | error m =>
              simp only [hs2, Except.bind] at h
              exact absurd h (by simp)
            | ok s2 =>
              simp only [hs2, Except.bind, Except.ok.injEq] at h
              subst h
              exact dinsert_all _ _ _ _ hall1
                (basicInfoEntry_leaf "last_modified_bin" _ (by decide) rfl)

theorem headerBlock_all (f : AvbFile) (bi r : Dict)
    (hall : bi.all basicInfoEntryPolicy = true)
    (h : headerBlock f bi = .ok r) :
    r.all basicInfoEntryPolicy = true := by
  unfold headerBlock at h
  cases hh : f.header with
  | none =>
    simp only [hh, Except.ok.injEq] at h
    subst h
    exact hall
  | some hd =>
    simp only [hh] at h
    simp only [bind, Except.bind, pure, Except.pure, throw, throwThe,
      MonadExceptOf.throw] at h
    split at h
    · exact absurd h (by simp)
    · rename_i hi heq
      simp only [Except.ok.injEq] at h
      subst h
      apply all_ite
      · exact hall
      · exact dinsert_all _ bi _ _ hall (basicInfoEntryPolicy_fh _)

theorem extractBasicInfo_policy (env : ExtractEnv) (binPath : String) (f : AvbFile) (bi : Dict)
    (h : extractBasicInfo env binPath f = .ok bi) :
    bi.all basicInfoEntryPolicy = true := by
  unfold extractBasicInfo at h
  simp only [bind, Except.bind] at h
  cases h0 : biStart env binPath f with
  | error m =>
    simp only [h0] at h
    exact absurd h (by simp)
  | ok b0 =>
    simp only [h0] at h
    cases h1 : binNameBlock f (displayOptionsBlock env f b0) with
    | error m =>
      simp only [h1] at h
      exact absurd h (by simp)
    | ok b1 =>
      simp only [h1] at h
      cases h2 : viewSettingsBlock f b1 with
      | error m =>
        simp only [h2] at h
        exact absurd h (by simp)
      | ok b2 =>
        simp only [h2] at h
        cases h3 : attributesBlock f b2 with
        | error m =>
          simp only [h3] at h
          exact absurd h (by simp)
        | ok b3 =>
          simp only [h3] at h
          cases h4 : itemCountsBlock f b3 with
          | error m =>
            simp only [h4] at h
            exact absurd h (by simp)
          | ok b4 =>
            simp only [h4] at h
            cases h5 : binTimesBlock f b4 with
            | error m =>
              simp only [h5] at h
              exact absurd h (by simp)
            | ok b5 =>
              simp only [h5] at h
              exact headerBlock_all f b5 bi
                (binTimesBlock_all f b4 b5
                  (itemCountsBlock_all f b3 b4
                    (attributesBlock_all f b2 b3
                      (viewSettingsBlock_all f b1 b2
                        (binNameBlock_all f (displayOptionsBlock env f b0) b1
                          (displayOptionsBlock_all env f b0
                            (biStart_all env binPath f b0 h0)) h1)
                        h2) h3) h4) h5) h

/-- C1 (amended).  For every bin opened from a fresh explorer state, the
Metadata Document produced by the effective extract_all_metadata satisfies
the leaf invariant at every attribute-filtered insertion point: every value
that passed an _is_scalar check is a scalar, recursively through the
document's lists and dicts, while the fields the code copies verbatim
without filtering (bin_name, the file_header fields, the view-settings
name, a clip's name and mob_type_id, user-comment values, media_info's
duration_frames, a component's start/length/cutpoint/source_position and
effect fields, a track's identity and effects, and a sequence's settings,
user_comments and markers) are exempt from the invariant. -/
theorem document_leaf_invariant (env : ExtractEnv) (st st3 : Explorer) (md : Dict)
    (hmd : st.metadata = [])
    (h : extractAllMetadataM env st = .ok (st3, md)) :
    metadataPolicy md = true := by
  unfold extractAllMetadataM runStages extractBasicInfoM extractClipsM extractSeqsM at h
  cases hbf : st.binFile with
  | none =>
    simp only [hbf] at h
    exact absurd h (by simp)
  | some f =>
    simp only [hbf] at h
    cases hbi : extractBasicInfo env (st.binPath.getD "") f with
    | error m =>
      simp only [hbi] at h
      exact absurd h (by simp)
    | ok bi =>
      simp only [hbi] at h
      cases hcs : extractClips f with
      | error m =>
        simp only [hcs] at h
        exact absurd h (by simp)
      | ok cs =>
        simp only [hcs] at h
        cases hss : extractSeqs f with
        | error m =>
          simp only [hss] at h
          exact absurd h (by simp)
        | ok ss =>
          simp only [hss] at h
          simp only [Except.ok.injEq, Prod.mk.injEq] at h
          obtain ⟨-, h2⟩ := h
          rw [hmd] at h2
          subst h2
          unfold metadataPolicy
          refine dinsert_all _ _ _ _
            (dinsert_all _ _ _ _ (dinsert_all _ [] _ _ rfl ?_) ?_) ?_
          · show basicInfoPolicy (toPdictV bi) = true
            rw [basicInfoPolicy_toPdictV]
            exact extractBasicInfo_policy env _ f bi hbi
          · show ((VList.ofList (cs.map toPdictV)).toList).all clipPolicy = true
            rw [vlist_toList_ofList, map_all_toPdict_pol clipPolicy _ clipPolicy_toPdictV]
            exact extractClips_policy f cs hcs
          · show ((VList.ofList (ss.map toPdictV)).toList).all seqPolicy = true
            rw [vlist_toList_ofList, map_all_toPdict_pol seqPolicy _ seqPolicy_toPdictV]
            exact extractSeqs_policy f ss hss

/-- C1 counterexample to the unamended sentence: on the bin cexState the
effective extract_all_metadata succeeds, yet the document holds non-scalar
leaves (an object handle survives verbatim in file_header.major_version, in
a sequence's settings.frame_rate, in a user-comment value and in an effect
parameter value), so not every leaf of every record is a scalar. -/
theorem document_leaf_counterexample :
    ∃ st3 md, extractAllMetadataM envA cexState = .ok (st3, md) ∧
      docLeavesOk (toPdictV md) = false :=
  ⟨_, _, rfl, by decide⟩

theorem document_leaf_invariant_witness :
    cexState.metadata = [] ∧
    ∃ st3 md, extractAllMetadataM envA cexState = .ok (st3, md) ∧
      metadataPolicy md = true :=
  ⟨rfl, _, _, rfl, document_leaf_invariant envA cexState _ _ rfl rfl⟩
